import Mathlib

/-!
# Verification of the System-Config-Manager reconciliation engine

Shallow embedding of the Python sources of the System-Config-Manager
repository, together with proofs and refutations of the specification
claims about them.

Conventions:
* Python `tuple`/`list` values become Lean `List`s.
* Python `dict`s (insertion ordered) become association lists; the
  dictionary invariant (no duplicate keys) appears as a `Nodup` hypothesis
  where a claim needs it.
* Python `assert` failures and uncaught exceptions are modelled with
  `Option`/explicit abort states.
* A handful of classes are referenced by the sources
  (`NoDomainAction`, `DomainConfigEntry`, `Diff.get_entries`, the
  per-domain `render_config_entries`) but their defining file is not in
  the source tree; those definitions are modelled from the specification
  and carry a doc comment starting with `Modelled from the spec:`.
-/

namespace SysConf

/-! ## `sysconf/config/serialization.py` — the `YamlSerializable` value type -/

/-- Embedding of the recursive `YamlSerializable` union from
`sysconf/config/serialization.py` (floats are not modelled; no claim
involves them).  Mappings keep their insertion order, as Python dicts do. -/
inductive Yaml where
  | null
  | b (val : Bool)
  | i (val : Int)
  | s (val : String)
  | list (items : List Yaml)
  | map (entries : List (String × Yaml))
  deriving Repr

mutual

/-- Structural (Python `==`) equality test for `Yaml` values. -/
def Yaml.beq : Yaml → Yaml → Bool
  | .null, .null => true
  | .b x, .b y => x == y
  | .i x, .i y => x == y
  | .s x, .s y => x == y
  | .list xs, .list ys => Yaml.beqList xs ys
  | .map xs, .map ys => Yaml.beqEntries xs ys
  | _, _ => false

/-- Elementwise `Yaml.beq` on lists. -/
def Yaml.beqList : List Yaml → List Yaml → Bool
  | [], [] => true
  | x :: xs, y :: ys => Yaml.beq x y && Yaml.beqList xs ys
  | _, _ => false

/-- Elementwise `Yaml.beq` on key-value lists. -/
def Yaml.beqEntries : List (String × Yaml) → List (String × Yaml) → Bool
  | [], [] => true
  | (k₁, v₁) :: xs, (k₂, v₂) :: ys => k₁ == k₂ && Yaml.beq v₁ v₂ && Yaml.beqEntries xs ys
  | _, _ => false

end

/-- Structural induction principle for `Yaml` that descends into the nested
lists. -/
def Yaml.my_induction (P : Yaml → Prop)
    (hnull : P .null) (hb : ∀ v, P (.b v)) (hi : ∀ v, P (.i v)) (hs : ∀ v, P (.s v))
    (hlist : ∀ l, (∀ x ∈ l, P x) → P (.list l))
    (hmap : ∀ m, (∀ kv ∈ m, P kv.2) → P (.map m)) : ∀ y, P y
  | .null => hnull
  | .b v => hb v
  | .i v => hi v
  | .s v => hs v
  | .list l => hlist l (fun x hx => Yaml.my_induction P hnull hb hi hs hlist hmap x)
  | .map m => hmap m (fun kv hkv => Yaml.my_induction P hnull hb hi hs hlist hmap kv.2)
termination_by y => sizeOf y
decreasing_by
  · have := List.sizeOf_lt_of_mem hx
    simp only [Yaml.list.sizeOf_spec]
    omega
  · have h2 := List.sizeOf_lt_of_mem hkv
    have h3 : sizeOf kv.2 < sizeOf kv := by
      cases kv
      simp only [Prod.mk.sizeOf_spec]
      omega
    simp only [Yaml.map.sizeOf_spec]
    omega

/-- `Yaml.beq` decides propositional equality. -/
def Yaml.beq_iff : ∀ a b : Yaml, (Yaml.beq a b = true) ↔ a = b := by
  intro a
  induction a using Yaml.my_induction with
  | hnull => intro b; cases b <;> simp [Yaml.beq]
  | hb v => intro b; cases b <;> simp [Yaml.beq]
  | hi v => intro b; cases b <;> simp [Yaml.beq]
  | hs v => intro b; cases b <;> simp [Yaml.beq]
  | hlist l ih =>
      intro b
      cases b <;> simp only [Yaml.beq] <;> try simp
      case list ys =>
        induction l generalizing ys with
        | nil => cases ys <;> simp [Yaml.beqList]
        | cons x xs ihl =>
            cases ys with
            | nil => simp [Yaml.beqList]
            | cons y ys' =>
                have hx := ih x (List.mem_cons_self x xs)
                have hxs : ∀ z ∈ xs, ∀ b, (Yaml.beq z b = true) ↔ z = b :=
                  fun z hz => ih z (List.mem_cons_of_mem x hz)
                simp [Yaml.beqList, Bool.and_eq_true, hx y, ihl hxs ys']
  | hmap m ih =>
      intro b
      cases b <;> simp only [Yaml.beq] <;> try simp
      case map ys =>
        induction m generalizing ys with
        | nil => cases ys <;> simp [Yaml.beqEntries]
        | cons x xs ihl =>
            cases ys with
            | nil => simp [Yaml.beqEntries]
            | cons y ys' =>
                obtain ⟨k₁, v₁⟩ := x
                obtain ⟨k₂, v₂⟩ := y
                have hx := ih (k₁, v₁) (List.mem_cons_self _ xs)
                have hxs : ∀ z ∈ xs, ∀ b, (Yaml.beq z.2 b = true) ↔ z.2 = b :=
                  fun z hz => ih z (List.mem_cons_of_mem _ hz)
                simp [Yaml.beqEntries, Bool.and_eq_true, hx v₂, ihl hxs ys',
                  Prod.ext_iff, and_assoc]

instance : DecidableEq Yaml :=
  fun a b => decidable_of_iff (Yaml.beq a b = true) (Yaml.beq_iff a b)

/-- Python truthiness of a `YamlSerializable` value, as used by the
`x or {}` / `x or []` defaults in `SystemConfigParserV1.parse_data`. -/
def Yaml.falsy : Yaml → Bool
  | .null => true
  | .b v => !v
  | .i v => v == 0
  | .s v => v == ""
  | .list l => l.isEmpty
  | .map m => m.isEmpty

mutual

/-- Python `str()` applied to a decoded YAML value (`get_value=str` in the
shell domains, `str(domain_spec['type'])` in the parser).  Exact on the
scalar cases the claims exercise; collections use a bracketed rendering in
place of Python's `repr`, which no claim depends on. -/
def pyStr : Yaml → String
  | .null => "None"
  | .b true => "True"
  | .b false => "False"
  | .i v => toString v
  | .s v => v
  | .list l => "[" ++ String.intercalate ", " (pyStrList l) ++ "]"
  | .map m => "\x7b" ++ String.intercalate ", " (pyStrEntries m) ++ "\x7d"

/-- `pyStr` of each element of a decoded list. -/
def pyStrList : List Yaml → List String
  | [] => []
  | x :: xs => pyStr x :: pyStrList xs

/-- `key: str(value)` rendering of each binding of a decoded dict. -/
def pyStrEntries : List (String × Yaml) → List String
  | [] => []
  | kv :: xs => (kv.1 ++ ": " ++ pyStr kv.2) :: pyStrEntries xs

end

/-- Python's `int()`-compatible reading of an `isinstance(x, int)` check:
Python `bool` is a subclass of `int`, so `True`/`False` pass an
`isinstance(.., int)` assertion and read as `1`/`0`. -/
def Yaml.asPyInt : Yaml → Option Int
  | .i v => some v
  | .b true => some 1
  | .b false => some 0
  | _ => none

/-- Python `str.replace` on character lists: every non-overlapping
occurrence of `pat` is replaced left to right (callers in this code base
always pass a non-empty pattern).  `fuel` only drives structural recursion;
`fuel = s.length` always suffices. -/
def pyReplaceChars (pat rep : List Char) : Nat → List Char → List Char
  | _, [] => []
  | 0, s => s
  | fuel + 1, c :: rest =>
      if pat ≠ [] ∧ pat.isPrefixOf (c :: rest) then
        rep ++ pyReplaceChars pat rep fuel ((c :: rest).drop pat.length)
      else
        c :: pyReplaceChars pat rep fuel rest

/-- Python `s.replace(pat, rep)`. -/
def pyReplace (s pat rep : String) : String :=
  ⟨pyReplaceChars pat.data rep.data s.data.length s.data⟩

/-! ## `sysconf/domains/shell_domains.py` — the ShellScriptTemplate -/

/-- Embedding of `ShellScriptTemplate.get_interpolated_script`: the
variables dictionary is applied in insertion order, each step being a plain
`str.replace`. -/
def get_interpolated_script (script : String) (vars : List (String × String)) : String :=
  vars.foldl (fun acc kv => pyReplace acc kv.1 kv.2) script

/-- Embedding of `ShellScriptTemplate.get_path_variables`: `$key1 .. $keyN`
in path order, then `$key` aliasing the first segment when the path is
non-empty.  The list order is the Python dict's insertion order. -/
def get_path_variables (path : List String) : List (String × String) :=
  (path.enum.map fun ik => ("$key" ++ toString (ik.1 + 1), ik.2)) ++
    (match path with
      | [] => []
      | p0 :: _ => [("$key", p0)])

/-- Embedding of the variable dictionary built by `ShellAddAction.run`:
the path variables, then `$value` and `$new_value`. -/
def add_action_variables (path : List String) (value : String) : List (String × String) :=
  get_path_variables path ++ [("$value", value), ("$new_value", value)]

/-! ## `sysconf/system/error_handler.py` — PromptUserErrorHandler -/

/-- Embedding of `ErrorHandler.Status`. -/
inductive Status where
  | SUCCESS
  | SKIPPED
  | FAILED
  deriving DecidableEq, Repr

/-- Observable outcome of one `PromptUserErrorHandler.try_run` call:
the returned status, how many times the task was executed, and how many
prompt answers were consumed. -/
structure TryRunResult where
  status : Status
  task_runs : Nat
  inputs_used : Nat
  deriving DecidableEq, Repr

/-- The `.strip().lower()` normalisation applied to the user's answer:
strip surrounding whitespace, lower-case the rest (written over character
lists so that concrete runs evaluate). -/
def normalize_choice (s : String) : String :=
  ⟨((s.data.dropWhile Char.isWhitespace).reverse.dropWhile
      Char.isWhitespace).reverse.map Char.toLower⟩

/-- The `for _ in range(5)` loop body of `PromptUserErrorHandler.try_run`.
`task run` tells whether the `run`-th execution of the task completes
without raising a whitelisted exception; `inputs used` is the `used`-th
line read from the prompt.  An unmatched answer prints a message and falls
through to the next loop iteration, which runs the task again. -/
def try_run_iter (task : Nat → Bool) (inputs : Nat → String) :
    Nat → Nat → Nat → TryRunResult
  | 0, runs, used => ⟨.FAILED, runs, used⟩
  | attempts + 1, runs, used =>
      if task runs then ⟨.SUCCESS, runs + 1, used⟩
      else if normalize_choice (inputs used) = "r" then
        try_run_iter task inputs attempts (runs + 1) (used + 1)
      else if normalize_choice (inputs used) = "s" then ⟨.SKIPPED, runs + 1, used + 1⟩
      else if normalize_choice (inputs used) = "a" then ⟨.FAILED, runs + 1, used + 1⟩
      else if normalize_choice (inputs used) = "m" then ⟨.SUCCESS, runs + 1, used + 1⟩
      else try_run_iter task inputs attempts (runs + 1) (used + 1)

/-- Embedding of `PromptUserErrorHandler.try_run`: up to 5 loop iterations,
falling out of the loop returns `FAILED`. -/
def try_run (task : Nat → Bool) (inputs : Nat → String) : TryRunResult :=
  try_run_iter task inputs 5 0 0

/-- Number of consumed prompt answers among the first `n` that normalise to
the retry choice `"r"`. -/
def consumed_retries (inputs : Nat → String) (n : Nat) : Nat :=
  (List.range n).countP (fun k => normalize_choice (inputs k) = "r")

/-! ## `sysconf/config/serialization.py` — YamlDeserializer -/

/-- Embedding of `YamlDeserializer.get_interpolated_data`: recursively
rebuild the structure, applying every replacement to each string leaf;
dictionary keys and non-string scalars pass through unchanged. -/
def get_interpolated_data (data : Yaml) (replacements : List (String × String)) : Yaml :=
  match data with
  | .s v => .s (replacements.foldl (fun acc r => pyReplace acc r.1 r.2) v)
  | .list l => .list (l.attach.map fun x => get_interpolated_data x.1 replacements)
  | .map m => .map (m.attach.map fun kv => (kv.1.1, get_interpolated_data kv.1.2 replacements))
  | other => other
termination_by sizeOf data
decreasing_by
  · have := List.sizeOf_lt_of_mem x.2
    simp only [Yaml.list.sizeOf_spec]
    omega
  · have h2 := List.sizeOf_lt_of_mem kv.2
    have h3 : sizeOf kv.1.2 < sizeOf kv.1 := by
      obtain ⟨a, c⟩ := kv.1
      simp only [Prod.mk.sizeOf_spec]
      omega
    simp only [Yaml.map.sizeOf_spec]
    omega

/-- The transformation the specification describes for `$pwd`
interpolation, written from its words: apply `f` to every string leaf,
leave dictionary keys and non-string scalars unchanged, rebuild all
collections. -/
def replaceStringLeaves (f : String → String) : Yaml → Yaml
  | .s v => .s (f v)
  | .list l => .list (l.attach.map fun x => replaceStringLeaves f x.1)
  | .map m => .map (m.attach.map fun kv => (kv.1.1, replaceStringLeaves f kv.1.2))
  | other => other
termination_by y => sizeOf y
decreasing_by
  · have := List.sizeOf_lt_of_mem x.2
    simp only [Yaml.list.sizeOf_spec]
    omega
  · have h2 := List.sizeOf_lt_of_mem kv.2
    have h3 : sizeOf kv.1.2 < sizeOf kv.1 := by
      obtain ⟨a, c⟩ := kv.1
      simp only [Prod.mk.sizeOf_spec]
      omega
    simp only [Yaml.map.sizeOf_spec]
    omega

/-! ## `sysconf/utils/diff.py` — the ordered Diff -/

/-- Embedding of `Diff` from `sysconf/utils/diff.py`: the six tuple fields
of the Python object. -/
structure Diff (α : Type) where
  old : List α
  new : List α
  exclusive_old : List α
  exclusive_new : List α
  intersection : List α
  union : List α
  deriving Repr, DecidableEq

/-- Embedding of `Diff.create_from_iterables`: order-preserving comparison
of the two input sequences (`item not in`/`item in` membership tests become
list membership). -/
def Diff.create_from_iterables [DecidableEq α] (old_items new_items : List α) : Diff α :=
  { old := old_items
    new := new_items
    exclusive_old := old_items.filter (fun item => item ∉ new_items)
    exclusive_new := new_items.filter (fun item => item ∉ old_items)
    intersection := new_items.filter (fun item => item ∈ old_items)
    union := old_items.filter (fun item => item ∉ new_items) ++ new_items }

/-! ## `sysconf/utils/transition.py` — the SequenceTransitioner -/

/-- Embedding of `SequenceTransitioner`: the two internal lists. -/
structure SequenceTransitioner (α : Type) where
  old_items : List α
  new_items : List α
  deriving Repr, DecidableEq

/-- Embedding of `SequenceTransitioner.create_from_old_items`. -/
def SequenceTransitioner.create_from_old_items (old_items : List α) :
    SequenceTransitioner α :=
  ⟨old_items, []⟩

/-- Embedding of `SequenceTransitioner.update_item`.  The Python method
asserts that (a) not both arguments are `None`, (b) a given `old_item` is
present in `old_items`, and (c) a given `new_item` is not yet in
`new_items`; an assertion failure raises, which we model as `none`.
`list.remove` removes the first occurrence, i.e. `List.erase`. -/
def SequenceTransitioner.update_item [DecidableEq α] (s : SequenceTransitioner α)
    (old_item new_item : Option α) : Option (SequenceTransitioner α) :=
  if old_item.isNone ∧ new_item.isNone then none
  else
    match old_item with
    | some x =>
        if x ∈ s.old_items then
          match new_item with
          | some y =>
              if y ∈ s.new_items then none
              else some ⟨s.old_items.erase x, s.new_items ++ [y]⟩
          | none => some ⟨s.old_items.erase x, s.new_items⟩
        else none
    | none =>
        match new_item with
        | some y =>
            if y ∈ s.new_items then none
            else some ⟨s.old_items, s.new_items ++ [y]⟩
        | none => some s

/-- Embedding of `SequenceTransitioner.get_current_items`. -/
def SequenceTransitioner.get_current_items (s : SequenceTransitioner α) : List α :=
  s.new_items ++ s.old_items

/-- Replaying a history of `update_item` calls from a start state; the whole
run fails (`none`) as soon as one call hits an assertion. -/
def SequenceTransitioner.run_updates [DecidableEq α] (s : SequenceTransitioner α)
    (history : List (Option α × Option α)) : Option (SequenceTransitioner α) :=
  match history with
  | [] => some s
  | (o, n) :: rest => do
      let s' ← s.update_item o n
      s'.run_updates rest

/-- A history of `update_item` calls that also keeps the source's documented
precondition "Items cannot be duplicated in either list": each call must
succeed, and an appended new item must not (still) be present in the old
list after the call. -/
inductive StrictLegal [DecidableEq α] : SequenceTransitioner α → List (Option α × Option α) → Prop
  | nil (s : SequenceTransitioner α) : StrictLegal s []
  | cons (s : SequenceTransitioner α) (o n : Option α) (rest : List (Option α × Option α))
      (s' : SequenceTransitioner α)
      (hupd : s.update_item o n = some s')
      (hnew : ∀ y, n = some y → y ∉ s'.old_items)
      (hrest : StrictLegal s' rest) :
      StrictLegal s ((o, n) :: rest)

/-! ## Domains, entries and `SystemConfig` (`sysconf/config/system_config.py`,
`sysconf/domains/user_domains.py`, `sysconf/domains/list_domain.py`,
`sysconf/domains/map_domain.py`, `sysconf/domains/builtins.py`) -/

/-- List-shaped vs map-shaped domains. -/
inductive DomainKind where
  | list
  | map
  deriving DecidableEq, Repr

/-- Embedding of `UserListDomain` / `UserMapDomain` from
`sysconf/domains/user_domains.py`: the user-declared specs
(`update_script := none` for list domains).  Equality is by all fields, as
§3 of the specification states. -/
structure UserDomain where
  key : String
  kind : DomainKind
  path_depth : Int
  add_script : String
  update_script : Option String
  remove_script : String
  deriving DecidableEq, Repr

/-- The projection of a `Domain` object that parsing, rendering and
planning consume: its key, shape, declared depth, and whether leaf payloads
go through Python `str()` (`get_value=str` in `shell_domains.py`) or stay
decoded values (`get_value=lambda v: v` in `dconf.py`). -/
structure DomainInfo where
  key : String
  kind : DomainKind
  path_depth : Int
  string_valued : Bool
  deriving DecidableEq, Repr

/-- The `DomainInfo` of a user-declared domain (user domains wrap the
string-valued shell pipeline). -/
def UserDomain.info (d : UserDomain) : DomainInfo :=
  ⟨d.key, d.kind, d.path_depth, true⟩

/-- The builtin registry from `sysconf/domains/builtins.py`, projected to
`DomainInfo` (the fixed shell scripts play no role in parsing, rendering or
planning, so they are not carried).  The entry-based gsettings domain
builder named there is absent from the tree; its row is modelled from the
spec: map-shaped, depth 2, decoded payloads. -/
def builtin_domains : List DomainInfo :=
  [ ⟨"dconf", .map, 1, false⟩,
    ⟨"gsettings", .map, 2, false⟩,
    ⟨"apt", .list, 0, true⟩,
    ⟨"snap", .list, 0, true⟩,
    ⟨"pip", .list, 0, true⟩,
    ⟨"groups", .list, 0, true⟩,
    ⟨"user-groups", .list, 1, true⟩,
    ⟨"git-config-global", .map, 1, true⟩,
    ⟨"vscode-extensions", .list, 0, true⟩,
    ⟨"symlinks", .map, 1, true⟩,
    ⟨"apt-repository", .list, 0, true⟩,
    ⟨"apt-source-list", .map, 1, true⟩,
    ⟨"apt-keyring", .map, 1, true⟩,
    ⟨"file-lines", .list, 1, true⟩ ]

/-- Embedding of `ListConfigEntry` / `MapConfigEntry` (their common base
`DomainConfigEntry` is referenced by the sources but its file is absent).
As in the source, an entry carries a reference to its domain (projected to
`DomainInfo`); list entries carry a string value, map entries a decoded
payload. -/
inductive Entry where
  | listE (domain : DomainInfo) (path : List String) (value : String)
  | mapE (domain : DomainInfo) (path : List String) (value : Yaml)
  deriving DecidableEq, Repr

/-- Embedding of `get_id`: `(domain_key, *path, value)` for list entries,
`(domain_key, *path)` for map entries. -/
def Entry.get_id : Entry → List String
  | .listE d p v => d.key :: (p ++ [v])
  | .mapE d p _ => d.key :: p

/-- The entry's domain reference (`entry.get_domain()`). -/
def Entry.domain : Entry → DomainInfo
  | .listE d _ _ => d
  | .mapE d _ _ => d

/-- The key of the entry's domain (`entry.get_domain().get_key()`). -/
def Entry.domainKey (e : Entry) : String :=
  e.domain.key

/-- The entry's path tuple. -/
def Entry.path : Entry → List String
  | .listE _ p _ => p
  | .mapE _ p _ => p

/-- The entry's payload as a `Yaml` value (list-entry values are strings). -/
def Entry.valueY : Entry → Yaml
  | .listE _ _ v => .s v
  | .mapE _ _ v => v

/-- Modelled from the spec: the typed domain-action variant
`Add | Update | Remove | NoOp` of §4.5/§9 (the source file defining
`NoDomainAction` and the entry-pair `get_action` used by
`SystemManager` is absent from the tree; the drafts in `list_domain.py` /
`map_domain.py` return `None` in the no-op case instead of an action
object). -/
inductive DomainAction where
  | add (new_entry : Entry)
  | update (old_entry new_entry : Entry)
  | remove (old_entry : Entry)
  | noop (old_entry new_entry : Entry)
  deriving DecidableEq, Repr

/-- `get_old_entry` of an action. -/
def DomainAction.get_old_entry : DomainAction → Option Entry
  | .add _ => none
  | .update o _ => some o
  | .remove o => some o
  | .noop o _ => some o

/-- `get_new_entry` of an action. -/
def DomainAction.get_new_entry : DomainAction → Option Entry
  | .add n => some n
  | .update _ n => some n
  | .remove _ => none
  | .noop _ n => some n

/-- Whether the action is the committed-but-not-executed no-op
(`isinstance(action, NoDomainAction)` in `run_actions`). -/
def DomainAction.isNoop : DomainAction → Bool
  | .noop _ _ => true
  | _ => false

/-- Embedding of `SystemConfig`: before/after `ShellAction`s are their
script strings; `config_entries` is the insertion-ordered `id → entry`
dict, represented by its values in insertion order (an entry determines its
id); `user_domains` is the insertion-ordered `key → UserDomain` dict. -/
structure SystemConfig where
  before_actions : List String
  after_actions : List String
  config_entries : List Entry
  user_domains : List UserDomain
  deriving DecidableEq, Repr

/-- Embedding of `SystemConfig.create_from_entries`: the constructor
asserts that no two entries share an id (`none` models the assertion
failure). -/
def SystemConfig.create_from_entries (before_actions after_actions : List String)
    (config_entries : List Entry) (user_domains : List UserDomain) : Option SystemConfig :=
  if (config_entries.map Entry.get_id).Nodup then
    some ⟨before_actions, after_actions, config_entries, user_domains⟩
  else
    none

/-- Python `SystemConfig.__eq__` compares the two entry dicts and the two
domain dicts with `==`, which ignores insertion order; the before/after
tuples compare elementwise.  For configurations with duplicate-free ids and
domain keys this is: equal script tuples, and permuted entry and domain
lists. -/
def SystemConfig.pyEq (a c : SystemConfig) : Prop :=
  a.before_actions = c.before_actions ∧ a.after_actions = c.after_actions ∧
    a.config_entries.Perm c.config_entries ∧ a.user_domains.Perm c.user_domains

/-- Embedding of `SystemManager.get_domain_actions`: removals for
old-exclusive ids in reverse insertion order, then one action per id of the
new config in its insertion order.  The dict accesses
`config_entries[entry_id]` become `find?` by id (they cannot miss, so the
`Option.map` never drops anything); the `get_action` dispatch is the
spec-modelled no-op/update/add triage on the paired entries. -/
def get_domain_actions (old_entries new_entries : List Entry) : List DomainAction :=
  let domain_diff := Diff.create_from_iterables
    (old_entries.map Entry.get_id) (new_entries.map Entry.get_id)
  (domain_diff.exclusive_old.reverse.filterMap (fun entry_id =>
    (old_entries.find? (fun e => e.get_id == entry_id)).map DomainAction.remove))
  ++ (domain_diff.new.filterMap (fun key =>
    (new_entries.find? (fun e => e.get_id == key)).map (fun new_entry =>
      match old_entries.find? (fun e => e.get_id == key) with
      | some old_entry =>
          if old_entry.valueY = new_entry.valueY then .noop old_entry new_entry
          else .update old_entry new_entry
      | none => .add new_entry)))

/-- Modelled from the spec: `Diff.get_entries`, the derived pair stream of
§4.1 (the method is called by `run_actions` but absent from `diff.py`): one
`(Some(old), None)` pair per old-exclusive item, then one
`(old?, Some(new))` pair per item of `new`, with `old?` present exactly for
intersection items. -/
def Diff.get_entries [DecidableEq α] (d : Diff α) : List (Option α × Option α) :=
  (d.exclusive_old.map (fun item => (some item, none)))
  ++ (d.new.map (fun item =>
      (if item ∈ d.intersection then some item else none, some item)))

/-! ## The executor loop (`SystemManager.run_actions` and
`SystemConfigInterpolator`, `sysconf/config/system_config.py`) -/

/-- Embedding of `SystemConfigInterpolator`: the six mutable lists plus the
two domain dicts (the builtin registry stays the module-level constant
`builtin_domains`). -/
structure SystemConfigInterpolator where
  old_before_actions : List String
  new_before_actions : List String
  old_after_actions : List String
  new_after_actions : List String
  old_config_entries : List Entry
  new_config_entries : List Entry
  old_domains : List UserDomain
  new_domains : List UserDomain
  deriving DecidableEq, Repr

/-- Embedding of `SystemConfigInterpolator.create_from_system_config`:
seeded entirely from the given (old) config, all new-side lists empty —
including `new_domains`, which the source passes as `{}`. -/
def SystemConfigInterpolator.create_from_system_config (c : SystemConfig) :
    SystemConfigInterpolator :=
  ⟨c.before_actions, [], c.after_actions, [], c.config_entries, [], c.user_domains, []⟩

/-- The common body of `update_before_action` / `update_after_action` /
`update_config_entry` (the three methods are textually identical up to the
pair of lists they touch): remove the old item from the old-side list,
append the new item to the new-side list.  An assertion failure raises
*after* the removal may already have happened, so the `error` branch
carries the partially-updated lists. -/
def update_pair [DecidableEq α] (oldL newL : List α) (o n : Option α) :
    Except (List α × List α) (List α × List α) :=
  if o.isNone ∧ n.isNone then .error (oldL, newL)
  else
    match o with
    | some x =>
        if x ∈ oldL then
          let oldL' := oldL.erase x
          match n with
          | some y => if y ∈ newL then .error (oldL', newL) else .ok (oldL', newL ++ [y])
          | none => .ok (oldL', newL)
        else .error (oldL, newL)
    | none =>
        match n with
        | some y => if y ∈ newL then .error (oldL, newL) else .ok (oldL, newL ++ [y])
        | none => .ok (oldL, newL)

/-- Embedding of `SystemConfigInterpolator.get_system_config`: new-side
items first, then the remaining old-side items; user domains are the used
new domains followed by used old domains that shadow neither a new domain
nor a builtin.  `create_from_entries` can still raise on a duplicate id,
hence the `Option`. -/
def SystemConfigInterpolator.get_system_config (st : SystemConfigInterpolator) :
    Option SystemConfig :=
  let before_actions := st.new_before_actions ++ st.old_before_actions
  let after_actions := st.new_after_actions ++ st.old_after_actions
  let config_entries := st.new_config_entries ++ st.old_config_entries
  let used_domain_keys := config_entries.map Entry.domainKey
  let user_domains :=
    (st.new_domains.filter (fun d => d.key ∈ used_domain_keys)) ++
    (st.old_domains.filter (fun d => d.key ∈ used_domain_keys
        ∧ st.new_domains.all (fun nd => nd.key ≠ d.key)
        ∧ builtin_domains.all (fun bd => bd.key ≠ d.key)))
  SystemConfig.create_from_entries before_actions after_actions config_entries user_domains

/-- One plan step as the executor loop sees it: the `(old?, new?)` pair the
step commits to the transitioner, and whether the step invokes the error
handler (`new_item is not None` for before/after steps; `not isinstance
(action, NoDomainAction)` for domain steps). -/
structure PlanStep (α : Type) where
  old_item : Option α
  new_item : Option α
  invokes : Bool
  deriving DecidableEq, Repr

/-- Outcome of one of the three `for` loops of `run_actions` over the pair
of lists it owns: `ok` when the loop ran to completion, `stopped` when it
ended early (the handler answered `FAILED`, or a transitioner assertion
raised and the surrounding `except` caught it).  Both carry the current
lists, the next handler-invocation index and the running count of executed
actions. -/
inductive SectionOutcome (α : Type) where
  | ok (oldL newL : List α) (k execd : Nat)
  | stopped (oldL newL : List α) (k execd : Nat)
  deriving Repr

/-- One `for` loop of `run_actions`.  `handler k` is the status the error
handler returns for its `k`-th invocation of this run; `execd` counts how
many steps actually ran a task through the handler.  Steps that do not
invoke the handler (old-side-only scripts, NoOp domain actions) are
committed directly; `SKIPPED` advances without committing; `FAILED` stops
the loop without committing. -/
def run_section [DecidableEq α] (handler : Nat → Status) :
    List (PlanStep α) → List α → List α → Nat → Nat → SectionOutcome α
  | [], oldL, newL, k, execd => .ok oldL newL k execd
  | step :: rest, oldL, newL, k, execd =>
      if step.invokes then
        match handler k with
        | .SUCCESS =>
            match update_pair oldL newL step.old_item step.new_item with
            | .ok (o', n') => run_section handler rest o' n' (k + 1) (execd + 1)
            | .error (o', n') => .stopped o' n' (k + 1) (execd + 1)
        | .SKIPPED => run_section handler rest oldL newL (k + 1) (execd + 1)
        | .FAILED => .stopped oldL newL (k + 1) (execd + 1)
      else
        match update_pair oldL newL step.old_item step.new_item with
        | .ok (o', n') => run_section handler rest o' n' k execd
        | .error (o', n') => .stopped o' n' k execd

/-- The before/after sections of the plan: the diff's pair stream, each
pair invoking the handler exactly when it carries a new script. -/
def script_steps (d : Diff String) : List (PlanStep String) :=
  d.get_entries.map (fun pr => ⟨pr.1, pr.2, pr.2.isSome⟩)

/-- The domain section of the plan: one step per planned action, invoking
the handler exactly for non-NoOp actions. -/
def domain_steps (actions : List DomainAction) : List (PlanStep Entry) :=
  actions.map (fun a => ⟨a.get_old_entry, a.get_new_entry, !a.isNoop⟩)

/-- Observable result of `run_actions`: whether the `# No changes
required.` line was printed, how many actions were executed through the
error handler, and the returned configuration (`none` models an uncaught
assertion in `create_from_entries`). -/
structure RunResult where
  printed_no_changes : Bool
  executed : Nat
  config : Option SystemConfig
  deriving Repr

/-- Embedding of `SystemManager.run_actions`: diff the before/after
scripts, plan the domain actions, short-circuit when nothing changed, else
drive the three loops over the interpolator seeded from the old config,
returning the interpolator's current config as soon as a section stops. -/
def run_actions (old_config new_config : SystemConfig) (handler : Nat → Status) :
    RunResult :=
  let diff_before := Diff.create_from_iterables
    old_config.before_actions new_config.before_actions
  let diff_after := Diff.create_from_iterables
    old_config.after_actions new_config.after_actions
  let actions := get_domain_actions old_config.config_entries new_config.config_entries
  let has_changes := decide (diff_before.old ≠ diff_before.new)
    || decide (diff_after.old ≠ diff_after.new)
    || actions.any (fun a => !a.isNoop)
  if has_changes = false then
    ⟨true, 0, some new_config⟩
  else
    let st₀ := SystemConfigInterpolator.create_from_system_config old_config
    match run_section handler (script_steps diff_before)
        st₀.old_before_actions st₀.new_before_actions 0 0 with
    | .stopped o' n' _ e =>
        ⟨false, e, ({ st₀ with old_before_actions := o', new_before_actions := n' }
          : SystemConfigInterpolator).get_system_config⟩
    | .ok o₁ n₁ k₁ e₁ =>
        let st₁ := { st₀ with old_before_actions := o₁, new_before_actions := n₁ }
        match run_section handler (domain_steps actions)
            st₁.old_config_entries st₁.new_config_entries k₁ e₁ with
        | .stopped o' n' _ e =>
            ⟨false, e, ({ st₁ with old_config_entries := o', new_config_entries := n' }
              : SystemConfigInterpolator).get_system_config⟩
        | .ok o₂ n₂ k₂ e₂ =>
            let st₂ := { st₁ with old_config_entries := o₂, new_config_entries := n₂ }
            match run_section handler (script_steps diff_after)
                st₂.old_after_actions st₂.new_after_actions k₂ e₂ with
            | .stopped o' n' _ e =>
                ⟨false, e, ({ st₂ with old_after_actions := o', new_after_actions := n' }
                  : SystemConfigInterpolator).get_system_config⟩
            | .ok o₃ n₃ _ e₃ =>
                ⟨false, e₃, ({ st₂ with old_after_actions := o₃, new_after_actions := n₃ }
                  : SystemConfigInterpolator).get_system_config⟩

/-- Which steps of one section commit, and with which handler index the
section hands over (`none` when the section stops on `FAILED`): the
specification-side companion of `run_section` used to state the
partial-failure claim.  Committed: non-invoking steps and `SUCCESS` steps;
uncommitted: `SKIPPED` steps, the `FAILED` step and everything after it. -/
def commit_flags (handler : Nat → Status) :
    List (PlanStep α) → Nat → List (PlanStep α × Bool) × Option Nat
  | [], k => ([], some k)
  | step :: rest, k =>
      if step.invokes then
        match handler k with
        | .SUCCESS =>
            let fr := commit_flags handler rest (k + 1)
            ((step, true) :: fr.1, fr.2)
        | .SKIPPED =>
            let fr := commit_flags handler rest (k + 1)
            ((step, false) :: fr.1, fr.2)
        | .FAILED => ((step, false) :: rest.map (fun st => (st, false)), none)
      else
        let fr := commit_flags handler rest k
        ((step, true) :: fr.1, fr.2)

/-- The new-side items of the committed steps, in plan order. -/
def committed_new (flags : List (PlanStep α × Bool)) : List α :=
  flags.filterMap (fun sb => if sb.2 then sb.1.new_item else none)

/-- The old-side items of the uncommitted steps, in plan order. -/
def uncommitted_old (flags : List (PlanStep α × Bool)) : List α :=
  flags.filterMap (fun sb => if sb.2 then none else sb.1.old_item)

/-- The old-side items of the committed steps, in plan order. -/
def committed_old (flags : List (PlanStep α × Bool)) : List α :=
  flags.filterMap (fun sb => if sb.2 then sb.1.old_item else none)

/-- The commit verdicts for the full plan of `run_actions old new handler`:
before-section, domain-section and after-section flags, with the handler
indices threaded across sections and every step after a `FAILED` stop
marked uncommitted. -/
def plan_flags (old_config new_config : SystemConfig) (handler : Nat → Status) :
    List (PlanStep String × Bool) × List (PlanStep Entry × Bool) ×
      List (PlanStep String × Bool) :=
  let stepsB := script_steps (Diff.create_from_iterables
    old_config.before_actions new_config.before_actions)
  let stepsD := domain_steps (get_domain_actions
    old_config.config_entries new_config.config_entries)
  let stepsA := script_steps (Diff.create_from_iterables
    old_config.after_actions new_config.after_actions)
  let fB := commit_flags handler stepsB 0
  match fB.2 with
  | none => (fB.1, stepsD.map (fun st => (st, false)), stepsA.map (fun st => (st, false)))
  | some k₁ =>
      let fD := commit_flags handler stepsD k₁
      match fD.2 with
      | none => (fB.1, fD.1, stepsA.map (fun st => (st, false)))
      | some k₂ =>
          let fA := commit_flags handler stepsA k₂
          (fB.1, fD.1, fA.1)

/-! ## Flattening (`sysconf/utils/data.py`) and the document
parser/renderer (`sysconf/config/parser.py`) -/

/-- A flattened path: the tuple of string keys to a subtree. -/
abbrev Path := List String

/-- First binding of `key` in a decoded mapping (`Yaml.map` values stand
for already-constructed Python dicts, whose keys are unique). -/
def lookupY (m : List (String × Yaml)) (key : String) : Option Yaml :=
  (m.find? (fun kv => kv.1 == key)).map (fun kv => kv.2)

/-- The `for _ in range(path_depth)` loop of `get_flattened_dict`: each
round requires every current value to be a mapping or `None` (anything
else fails the assertion, `none`), drops the `None`s, and descends one
level. -/
def flattenLevels : Nat → List (Path × Yaml) → Option (List (Path × Yaml))
  | 0, acc => some acc
  | d + 1, acc =>
      if acc.all (fun kv => match kv.2 with | .map _ => true | .null => true | _ => false) then
        flattenLevels d (acc.flatMap (fun kv =>
          match kv.2 with
          | .map m => m.map (fun km => (kv.1 ++ [km.1], km.2))
          | _ => []))
      else none

/-- Embedding of `get_flattened_dict` from `sysconf/utils/data.py`
(Python's `range` treats a negative depth as zero rounds). -/
def get_flattened_dict (data : Yaml) (path_depth : Int) : Option (List (Path × Yaml)) :=
  flattenLevels path_depth.toNat [([], data)]

/-- Embedding of `ListConfig.create_from_data` composed with its
`get_config_entries` (`sysconf/domains/list_domain.py`): the subtree must
be a list or a dict (`None` raises `NotImplementedError`); after
flattening, each leaf that is a list contributes one entry per element
(non-list leaves are silently skipped), elements passing through
`get_value`, which is Python `str` for the shell pipeline every list
domain uses. -/
def list_domain_entries (info : DomainInfo) (data : Yaml) : Option (List Entry) :=
  match data with
  | .list _ | .map _ => do
      let flat ← get_flattened_dict data info.path_depth
      some (flat.flatMap (fun kv =>
        match kv.2 with
        | .list items => items.map (fun item => Entry.listE info kv.1 (pyStr item))
        | _ => []))
  | _ => none

/-- Embedding of `MapConfig.create_from_data` composed with its
`get_config_entries` (`sysconf/domains/map_domain.py`): the subtree must be
a dict (`None` raises `NotImplementedError`); each flattened leaf is one
entry's payload, through `get_value` — Python `str` for string-valued
(shell) domains, the identity for dconf/gsettings. -/
def map_domain_entries (info : DomainInfo) (data : Yaml) : Option (List Entry) :=
  match data with
  | .map _ => do
      let flat ← get_flattened_dict data info.path_depth
      some (flat.map (fun kv =>
        Entry.mapE info kv.1 (if info.string_valued then .s (pyStr kv.2) else kv.2)))
  | _ => none

/-- `domain.get_config_entries(subtree)` dispatched on the domain's
shape. -/
def domain_entries (info : DomainInfo) (data : Yaml) : Option (List Entry) :=
  match info.kind with
  | .list => list_domain_entries info data
  | .map => map_domain_entries info data

/-- Embedding of the per-domain branch of the user-domain parsing loop in
`SystemConfigParserV1.parse_data`: a spec must be a dict with a `type`
key; `add`/`remove` (and `update` for maps) must be strings; `depth`
defaults to 0 for lists and 1 for maps and must satisfy
`isinstance(.., int)` (which Python `bool` also does). -/
def parse_user_domain (domain_key : String) (spec : Yaml) : Option UserDomain := do
  let .map fields := spec | none
  let some ty ← pure (lookupY fields "type") | none
  match pyStr ty with
  | "list" => do
      let some (.s add_script) ← pure (lookupY fields "add") | none
      let some (.s remove_script) ← pure (lookupY fields "remove") | none
      let path_depth ← match lookupY fields "depth" with
        | none => some (0 : Int)
        | some v => v.asPyInt
      some ⟨domain_key, .list, path_depth, add_script, none, remove_script⟩
  | "map" => do
      let some (.s add_script) ← pure (lookupY fields "add") | none
      let some (.s update_script) ← pure (lookupY fields "update") | none
      let some (.s remove_script) ← pure (lookupY fields "remove") | none
      let path_depth ← match lookupY fields "depth" with
        | none => some (1 : Int)
        | some v => v.asPyInt
      some ⟨domain_key, .map, path_depth, add_script, some update_script, remove_script⟩
  | _ => none

/-- The merged registry lookup `{**self.domains_by_key,
**user_domains_by_key}[domain_key]`: a user declaration wins over a
builtin of the same key. -/
def resolve_domain (user_domains : List UserDomain) (key : String) : Option DomainInfo :=
  match user_domains.find? (fun d => d.key == key) with
  | some d => some d.info
  | none => builtin_domains.find? (fun d => d.key == key)

/-- Python's `value or default` as used for the optional top-level keys. -/
def getOrDefault (m : List (String × Yaml)) (key : String) (dflt : Yaml) : Yaml :=
  match lookupY m key with
  | none => dflt
  | some v => if v.falsy then dflt else v

/-- Embedding of `SystemConfigParserV1.parse_data`
(`sysconf/config/parser.py`): schema validation, user-domain parsing,
before/after scripts (each must be a string, per
`ShellAction.create_from_serialized`), then the ordered task list, every
task a mapping from domain key to subtree, entries parsed by the resolved
domain; finally `SystemConfig.create_from_entries` (duplicate ids raise).
Any assertion, `KeyError` or unknown domain type is `none`. -/
def parse_data (data : Yaml) : Option SystemConfig := do
  let .map fields₀ := data | none
  let fields := fields₀.filter (fun kv => kv.1 ≠ "version")
  let some _ ← pure (lookupY fields "config") | none
  let .map user_domain_specs := getOrDefault fields "domains" (.map []) | none
  let .list before_scripts := getOrDefault fields "before" (.list []) | none
  let .list after_scripts := getOrDefault fields "after" (.list []) | none
  let .list config_items := getOrDefault fields "config" (.list []) | none
  let user_domains ← user_domain_specs.mapM (fun kv => parse_user_domain kv.1 kv.2)
  let before_actions ← before_scripts.mapM (fun v =>
    match v with | .s script => some script | _ => none)
  let after_actions ← after_scripts.mapM (fun v =>
    match v with | .s script => some script | _ => none)
  let entry_groups ← config_items.mapM (fun config_item => do
    let .map tasks := config_item | none
    let groups ← tasks.mapM (fun kv => do
      let some info ← pure (resolve_domain user_domains kv.1) | none
      domain_entries info kv.2)
    some groups.flatten)
  SystemConfig.create_from_entries before_actions after_actions
    entry_groups.flatten user_domains

/-- The recursion of `get_entries_grouped_by_domain`, on explicit fuel (the
list length bounds the recursion depth, making the definition structural
and hence executable in proofs). -/
def group_by_domain_fuel : Nat → List Entry → List (DomainInfo × List Entry)
  | 0, _ => []
  | _ + 1, [] => []
  | n + 1, e :: rest =>
      (e.domain, e :: rest.takeWhile (fun x => x.domain == e.domain))
        :: group_by_domain_fuel n (rest.dropWhile (fun x => x.domain == e.domain))

/-- Embedding of `SystemConfigRenderer.get_entries_grouped_by_domain`:
contiguous runs of entries with the same domain become one group each; a
domain reappears as a new group when its entries are not contiguous. -/
def group_by_domain (l : List Entry) : List (DomainInfo × List Entry) :=
  group_by_domain_fuel l.length l

/-- The distinct first segments of the assignment paths, in first-occurrence
order (the insertion order of the Python dicts built while rendering). -/
def first_segments (assigns : List (Path × Yaml)) : List String :=
  (assigns.map (fun pv => pv.1.headI)).foldl
    (fun acc k => if k ∈ acc then acc else acc ++ [k]) []

/-- Modelled from the spec: the nested-structure builder behind
`render(entries)` (§4.3/§4.5) — materialise depth-uniform `(path, leaf)`
assignments as nested mappings, auto-creating intermediate maps, keys in
first-occurrence order (the `DataStructure` builder of
`sysconf/utils/data.py` realises these semantics for the depth-uniform,
duplicate-free paths produced while rendering; at depth 0 the last root
assignment wins, as repeated `__setitem__` on the root would). -/
def build_nested : Nat → List (Path × Yaml) → Yaml
  | 0, assigns => ((assigns.getLast?).map (fun pv => pv.2)).getD .null
  | d + 1, assigns =>
      .map ((first_segments assigns).map (fun k =>
        (k, build_nested d (assigns.filterMap (fun pv =>
          match pv.1 with
          | k' :: ps => if k' = k then some (ps, pv.2) else none
          | [] => none)))))

/-- The values of a list-domain group, one list per distinct path in
first-occurrence order, values in entry order. -/
def group_values_by_path (entries : List Entry) : List (Path × Yaml) :=
  let paths := entries.foldl (fun acc e => if e.path ∈ acc then acc else acc ++ [e.path]) []
  paths.map (fun p =>
    (p, Yaml.list (entries.filterMap (fun e => if e.path = p then some e.valueY else none))))

/-- Modelled from the spec: `render_config_entries` (§4.5 `render`), the
per-domain inverse of `get_config_entries`, called by the renderer but
absent from the tree — group by path; a list domain emits one list per
path; a map domain places each payload at its path. -/
def render_config_entries (info : DomainInfo) (entries : List Entry) : Yaml :=
  match info.kind with
  | .list => build_nested info.path_depth.toNat (group_values_by_path entries)
  | .map => build_nested info.path_depth.toNat
      (entries.map (fun e => (e.path, e.valueY)))

/-- Embedding of `SystemConfigRenderer.render_config`: every user domain of
the config is rendered into the `domains` mapping (with its
type/depth/add/[update]/remove spec), the before/after scripts into string
lists, and the entries into one task per contiguous domain group; the five
top-level keys in the source's order. -/
def render_config (c : SystemConfig) : Yaml :=
  let domains := Yaml.map (c.user_domains.map (fun d =>
    (d.key, Yaml.map (match d.kind with
      | .list =>
          [("type", .s "list"), ("depth", .i d.path_depth),
           ("add", .s d.add_script), ("remove", .s d.remove_script)]
      | .map =>
          [("type", .s "map"), ("depth", .i d.path_depth),
           ("add", .s d.add_script), ("update", .s (d.update_script.getD "")),
           ("remove", .s d.remove_script)]))))
  let before_items := Yaml.list (c.before_actions.map .s)
  let after_items := Yaml.list (c.after_actions.map .s)
  let config_items := Yaml.list ((group_by_domain c.config_entries).map (fun grp =>
    Yaml.map [(grp.1.key, render_config_entries grp.1 grp.2)]))
  Yaml.map [("version", .s "1"), ("before", before_items), ("after", after_items),
    ("config", config_items), ("domains", domains)]

/-- The class of configurations on which the parse/render round trip is
claimed: ids and user-domain keys are duplicate-free (parse-time
invariants), every entry's embedded domain is what the config itself
resolves its key to, paths have the domain's declared length, entry shapes
match their domain's kind, string-valued map domains hold string payloads,
map domains carry an update script and list domains none, and — the
boundary `parse` cannot invert — every map-shaped domain in use has
positive depth. -/
def SystemConfig.RoundTrippable (c : SystemConfig) : Prop :=
  (c.config_entries.map Entry.get_id).Nodup ∧
  (c.user_domains.map UserDomain.key).Nodup ∧
  (∀ d ∈ c.user_domains, (d.kind = .map ↔ d.update_script.isSome)) ∧
  (∀ e ∈ c.config_entries,
    resolve_domain c.user_domains e.domain.key = some e.domain ∧
    e.path.length = e.domain.path_depth.toNat ∧
    (match e with
      | .listE d _ _ => d.kind = DomainKind.list
      | .mapE d _ v => d.kind = DomainKind.map ∧ 0 < d.path_depth ∧
          (d.string_valued = true → ∃ sv, v = Yaml.s sv)))

/-! # Theorems -/

/-! ## C4 — the ordered Diff -/

/-- **C4.**  For all finite ordered inputs `old` and `new`, each without
internal duplicates, `Diff.create_from_iterables` returns: `exclusive_old`
= the items of `old` not in `new` preserving `old`'s order (a sublist of
`old` holding exactly those items), `exclusive_new` = the items of `new`
not in `old` preserving `new`'s order, `intersection` = the items in both
preserving `new`'s order, `union = exclusive_old ++ new`, and the union
has no duplicates. -/
theorem diff_create_from_iterables_correct {α : Type} [DecidableEq α]
    (old new : List α) (hold : old.Nodup) (hnew : new.Nodup) :
    (Diff.create_from_iterables old new).exclusive_old.Sublist old ∧
    (∀ x, x ∈ (Diff.create_from_iterables old new).exclusive_old ↔ x ∈ old ∧ x ∉ new) ∧
    (Diff.create_from_iterables old new).exclusive_new.Sublist new ∧
    (∀ x, x ∈ (Diff.create_from_iterables old new).exclusive_new ↔ x ∈ new ∧ x ∉ old) ∧
    (Diff.create_from_iterables old new).intersection.Sublist new ∧
    (∀ x, x ∈ (Diff.create_from_iterables old new).intersection ↔ x ∈ new ∧ x ∈ old) ∧
    (Diff.create_from_iterables old new).union =
      (Diff.create_from_iterables old new).exclusive_old ++
        (Diff.create_from_iterables old new).new ∧
    (Diff.create_from_iterables old new).union.Nodup := by
  refine ⟨List.filter_sublist old, fun x => ?_, List.filter_sublist new, fun x => ?_,
    List.filter_sublist new, fun x => ?_, rfl, ?_⟩
  · simp [Diff.create_from_iterables]
  · simp [Diff.create_from_iterables]
  · simp [Diff.create_from_iterables]
  · refine List.Nodup.append (hold.filter _) hnew ?_
    intro x hx hx'
    simp only [Diff.create_from_iterables, List.mem_filter, decide_not,
      Bool.not_eq_true', decide_eq_false_iff_not] at hx
    exact hx.2 hx'

/-- Closed witness for `diff_create_from_iterables_correct` at a concrete
input. -/
theorem diff_create_from_iterables_correct_witness :
    ([1, 2, 3] : List ℕ).Nodup ∧ ([2, 4] : List ℕ).Nodup ∧
    ((Diff.create_from_iterables [1, 2, 3] [2, 4]).exclusive_old.Sublist [1, 2, 3] ∧
    (∀ x, x ∈ (Diff.create_from_iterables [1, 2, 3] [2, 4]).exclusive_old ↔
        x ∈ [1, 2, 3] ∧ x ∉ [2, 4]) ∧
    (Diff.create_from_iterables [1, 2, 3] [2, 4]).exclusive_new.Sublist [2, 4] ∧
    (∀ x, x ∈ (Diff.create_from_iterables [1, 2, 3] [2, 4]).exclusive_new ↔
        x ∈ [2, 4] ∧ x ∉ [1, 2, 3]) ∧
    (Diff.create_from_iterables [1, 2, 3] [2, 4]).intersection.Sublist [2, 4] ∧
    (∀ x, x ∈ (Diff.create_from_iterables [1, 2, 3] [2, 4]).intersection ↔
        x ∈ [2, 4] ∧ x ∈ [1, 2, 3]) ∧
    (Diff.create_from_iterables [1, 2, 3] [2, 4]).union =
      (Diff.create_from_iterables [1, 2, 3] [2, 4]).exclusive_old ++
        (Diff.create_from_iterables [1, 2, 3] [2, 4]).new ∧
    (Diff.create_from_iterables [1, 2, 3] [2, 4]).union.Nodup) :=
  ⟨by decide, by decide,
    diff_create_from_iterables_correct [1, 2, 3] [2, 4] (by decide) (by decide)⟩

/-! ## C10 — `$pwd` interpolation on decoded documents -/

/-- **C10.**  `get_interpolated_data` with the `{'$pwd': dir}` replacement
map performed by `get_data_from_file` equals the specification-side
transformation `replaceStringLeaves`: every string leaf has each
occurrence of `$pwd` replaced by `dir`; dictionary keys and non-string
scalars are unchanged, and all collections are rebuilt (the model is pure,
so freshness of the rebuilt collections is inherent). -/
theorem get_interpolated_data_replaces_string_leaves (dir : String) (data : Yaml) :
    get_interpolated_data data [("$pwd", dir)] =
      replaceStringLeaves (fun v => pyReplace v "$pwd" dir) data := by
  induction data using Yaml.my_induction with
  | hnull => simp [get_interpolated_data, replaceStringLeaves]
  | hb v => simp [get_interpolated_data, replaceStringLeaves]
  | hi v => simp [get_interpolated_data, replaceStringLeaves]
  | hs v => simp [get_interpolated_data, replaceStringLeaves]
  | hlist l ih =>
      rw [get_interpolated_data, replaceStringLeaves]
      congr 1
      refine List.map_congr_left ?_
      intro x _
      exact ih x.1 x.2
  | hmap m ih =>
      rw [get_interpolated_data, replaceStringLeaves]
      congr 1
      refine List.map_congr_left ?_
      intro kv _
      exact congrArg (fun y => (kv.1.1, y)) (ih kv.1 kv.2)

/-! ## C7 — replacement order in the shell-script template -/

/-- A pattern starting with `'$'` finds no occurrence in a string free of
`'$'`. -/
theorem pyReplaceChars_no_dollar (pat' : List Char) (rep : List Char) :
    ∀ fuel (s : List Char), (∀ c ∈ s, c ≠ '$') →
      pyReplaceChars ('$' :: pat') rep fuel s = s := by
  intro fuel
  induction fuel with
  | zero => intro s _; cases s <;> simp [pyReplaceChars]
  | succ n ih =>
      intro s hs
      cases s with
      | nil => simp [pyReplaceChars]
      | cons c rest =>
          have hc : c ≠ '$' := hs c (List.mem_cons_self _ _)
          have hpre : ¬ ('$' :: pat').isPrefixOf (c :: rest) := by
            simp [List.isPrefixOf]
            intro h
            exact absurd h.symm hc
          rw [pyReplaceChars]
          rw [if_neg (by simp [hpre])]
          rw [ih rest (fun x hx => hs x (List.mem_cons_of_mem _ hx))]

/-- `str.replace` is the identity when the pattern starts with `'$'` and
the subject contains no `'$'`. -/
theorem pyReplace_no_dollar (s : String) (pat' : List Char) (pat rep : String)
    (hpat : pat.data = '$' :: pat') (hs : ∀ c ∈ s.data, c ≠ '$') :
    pyReplace s pat rep = s := by
  unfold pyReplace
  rw [hpat, pyReplaceChars_no_dollar pat' rep.data _ s.data hs]

/-- Replacing `$key1` inside the template `$key10` consumes the first five
characters as an occurrence and leaves `0` behind. -/
theorem pyReplace_key1_on_key10 (v : String) :
    pyReplace "$key10" "$key1" v = v ++ "0" := by
  show String.mk (pyReplaceChars "$key1".data v.data "$key10".data.length "$key10".data)
    = v ++ "0"
  have h1 : "$key10".data = ['$', 'k', 'e', 'y', '1', '0'] := by decide
  have h2 : "$key1".data = ['$', 'k', 'e', 'y', '1'] := by decide
  rw [h1, h2]
  simp only [pyReplaceChars, List.isPrefixOf, List.length_cons, List.length_nil, List.drop]
  norm_num
  cases v with
  | mk data => rfl

/-- Interpolation is the identity when every variable name starts with
`'$'` and the script contains no `'$'`. -/
theorem get_interpolated_script_dollar_free (vs : List (String × String)) :
    ∀ acc : String, (∀ kv ∈ vs, ∃ t, kv.1.data = '$' :: t) →
      (∀ c ∈ acc.data, c ≠ '$') → get_interpolated_script acc vs = acc := by
  induction vs with
  | nil => intro acc _ _; rfl
  | cons kv rest ih =>
      intro acc hpat hacc
      obtain ⟨t, ht⟩ := hpat kv (List.mem_cons_self _ _)
      show get_interpolated_script (pyReplace acc kv.1 kv.2) rest = acc
      rw [pyReplace_no_dollar acc t kv.1 kv.2 ht hacc]
      exact ih acc (fun x hx => hpat x (List.mem_cons_of_mem _ hx)) hacc

/-- Prepending `"$key"` always yields a name starting with `'$'`. -/
theorem key_prefix_data (x : String) : ∃ t, ("$key" ++ x).data = '$' :: t :=
  ⟨['k', 'e', 'y'] ++ x.data, by cases x; rfl⟩

/-- One interpolation step: applying the head variable, then the rest. -/
theorem get_interpolated_script_cons (acc : String) (kv : String × String)
    (rest : List (String × String)) :
    get_interpolated_script acc (kv :: rest)
      = get_interpolated_script (pyReplace acc kv.1 kv.2) rest :=
  rfl

/-- Every variable name built by `ShellAddAction.run` starts with `'$'`. -/
theorem add_action_variables_dollar (path : List String) (v : String) :
    ∀ kv ∈ add_action_variables path v, ∃ t, kv.1.data = '$' :: t := by
  intro kv hkv
  simp only [add_action_variables, get_path_variables, List.mem_append, List.mem_map] at hkv
  rcases hkv with (⟨ik, _, rfl⟩ | h) | h
  · exact key_prefix_data _
  · cases path with
    | nil => simp at h
    | cons p0 ps =>
        simp only [List.mem_singleton] at h
        subst h
        exact ⟨['k', 'e', 'y'], rfl⟩
  · simp only [List.mem_cons, List.mem_singleton] at h
    rcases h with rfl | rfl | h
    · exact ⟨['v', 'a', 'l', 'u', 'e'], rfl⟩
    · exact ⟨['n', 'e', 'w', '_', 'v', 'a', 'l', 'u', 'e'], rfl⟩
    · simp at h

/-- **C7 (counterexample).**  The claim says interpolation replaces longer
variable names first, so that `$key10` is replaced by the tenth path
segment.  At the ten-segment path `a..j`, interpolating the template
`$key10` instead produces `a0`: the variables dict is applied in insertion
order, so the earlier `$key1` replacement consumes the prefix of `$key10`,
and the result is not the tenth segment `j`. -/
theorem shell_template_key10_counterexample :
    get_interpolated_script "$key10"
      (add_action_variables ["a", "b", "c", "d", "e", "f", "g", "h", "i", "j"] "v")
      = "a0" ∧
    get_interpolated_script "$key10"
      (add_action_variables ["a", "b", "c", "d", "e", "f", "g", "h", "i", "j"] "v")
      ≠ "j" := by
  constructor <;> decide

/-- **C7 (amended).**  Interpolation applies the variables in the dict's
insertion order — `$key1 .. $keyN`, then `$key`, then the value
variables — so `$key1` is applied *before* `$key10`.  Consequently, for
every path of length at least 10 whose segments and value contain no `'$'`,
an occurrence of `$key10` in the template is corrupted by the earlier
`$key1` replacement: the result is the first segment followed by `'0'`,
never the tenth segment. -/
theorem shell_template_key1_shadows_key10 (path : List String) (v : String)
    (hlen : 10 ≤ path.length)
    (hseg : ∀ seg ∈ path, ∀ c ∈ seg.data, c ≠ '$')
    (hv : ∀ c ∈ v.data, c ≠ '$') :
    get_interpolated_script "$key10" (add_action_variables path v)
      = path.headI ++ "0" := by
  cases path with
  | nil => simp at hlen
  | cons p0 ps =>
      have hp0 : ∀ c ∈ p0.data, c ≠ '$' := hseg p0 (List.mem_cons_self _ _)
      have hkey1 : ("$key" ++ toString (0 + 1) : String) = "$key1" := by decide
      simp only [add_action_variables, get_path_variables, List.enum_cons, List.map_cons,
        List.cons_append, List.append_assoc, get_interpolated_script_cons, hkey1]
      rw [pyReplace_key1_on_key10 p0]
      rw [get_interpolated_script_dollar_free _ (p0 ++ "0") ?_ ?_]
      · simp [List.headI]
      · intro kv hkv
        refine add_action_variables_dollar (p0 :: ps) v kv ?_
        simp only [add_action_variables, get_path_variables, List.enum_cons, List.map_cons,
          List.cons_append, List.append_assoc, hkey1]
        exact List.mem_cons_of_mem _ hkv
      · intro c hc
        have hdata : (p0 ++ "0").data = p0.data ++ ['0'] := by cases p0; rfl
        rw [hdata] at hc
        rcases List.mem_append.mp hc with h | h
        · exact hp0 c h
        · simp at h
          subst h
          decide

/-- Closed witness for `shell_template_key1_shadows_key10` at a concrete
ten-segment path. -/
theorem shell_template_key1_shadows_key10_witness :
    10 ≤ (["a", "b", "c", "d", "e", "f", "g", "h", "i", "j"] : List String).length ∧
    get_interpolated_script "$key10"
      (add_action_variables ["a", "b", "c", "d", "e", "f", "g", "h", "i", "j"] "v")
      = (["a", "b", "c", "d", "e", "f", "g", "h", "i", "j"] : List String).headI ++ "0" :=
  ⟨by decide,
    shell_template_key1_shadows_key10 ["a", "b", "c", "d", "e", "f", "g", "h", "i", "j"] "v"
      (by decide) (by decide) (by decide)⟩

/-! ## C9 — the prompting error handler -/

/-- The loop runs the task at most `attempts` more times. -/
theorem try_run_iter_runs_le (task : Nat → Bool) (inputs : Nat → String) :
    ∀ attempts runs used,
      (try_run_iter task inputs attempts runs used).task_runs ≤ runs + attempts := by
  intro attempts
  induction attempts with
  | zero => intro runs used; simp [try_run_iter]
  | succ n ih =>
      intro runs used
      rw [try_run_iter]
      split
      · show runs + 1 ≤ runs + (n + 1)
        omega
      · split
        · have := ih (runs + 1) (used + 1); omega
        · split
          · show runs + 1 ≤ runs + (n + 1)
            omega
          · split
            · show runs + 1 ≤ runs + (n + 1)
              omega
            · split
              · show runs + 1 ≤ runs + (n + 1)
                omega
              · have := ih (runs + 1) (used + 1); omega

/-- An answer that is neither `r`, `s`, `a` nor `m` behaves exactly like
`r`: the loop re-runs the task, consuming an attempt. -/
theorem try_run_iter_invalid_eq_retry (task : Nat → Bool) (inputs : Nat → String)
    (k : Nat) (hk : normalize_choice (inputs k) ∉ (["r", "s", "a", "m"] : List String)) :
    ∀ attempts runs used,
      try_run_iter task inputs attempts runs used
        = try_run_iter task (Function.update inputs k "r") attempts runs used := by
  have hne : ∀ j, j ≠ k → Function.update inputs k "r" j = inputs j := by
    intro j hj
    simp [Function.update, hj]
  have hr : normalize_choice "r" = "r" := by decide
  intro attempts
  induction attempts with
  | zero => intro runs used; rfl
  | succ n ih =>
      intro runs used
      rw [try_run_iter, try_run_iter]
      split
      · rfl
      · by_cases hu : used = k
        · subst hu
          simp only [Function.update_same, hr]
          have h1 : ¬ normalize_choice (inputs used) = "r" := by
            intro h; exact hk (by simp [h])
          have h2 : ¬ normalize_choice (inputs used) = "s" := by
            intro h; exact hk (by simp [h])
          have h3 : ¬ normalize_choice (inputs used) = "a" := by
            intro h; exact hk (by simp [h])
          have h4 : ¬ normalize_choice (inputs used) = "m" := by
            intro h; exact hk (by simp [h])
          simp only [h1, h2, h3, h4, if_false, if_true]
          exact ih (runs + 1) (used + 1)
        · rw [hne used hu]
          split
          · exact ih (runs + 1) (used + 1)
          · split
            · rfl
            · split
              · rfl
              · split
                · rfl
                · exact ih (runs + 1) (used + 1)

/-- When the task keeps failing and no consumed answer is `s`, `a` or `m`,
the loop exhausts its attempts. -/
theorem try_run_iter_exhaustion (task : Nat → Bool) (inputs : Nat → String) :
    ∀ attempts runs used,
      (∀ n, runs ≤ n → n < runs + attempts → task n = false) →
      (∀ n, used ≤ n → n < used + attempts →
        normalize_choice (inputs n) ∉ (["s", "a", "m"] : List String)) →
      try_run_iter task inputs attempts runs used
        = ⟨.FAILED, runs + attempts, used + attempts⟩ := by
  intro attempts
  induction attempts with
  | zero => intro runs used _ _; rfl
  | succ n ih =>
      intro runs used htask hinp
      rw [try_run_iter]
      rw [if_neg (by simp [htask runs (le_refl _) (by omega)])]
      have hs : ¬ normalize_choice (inputs used) = "s" := by
        intro h; exact hinp used (le_refl _) (by omega) (by simp [h])
      have ha : ¬ normalize_choice (inputs used) = "a" := by
        intro h; exact hinp used (le_refl _) (by omega) (by simp [h])
      have hm : ¬ normalize_choice (inputs used) = "m" := by
        intro h; exact hinp used (le_refl _) (by omega) (by simp [h])
      have hrec : try_run_iter task inputs n (runs + 1) (used + 1)
          = ⟨.FAILED, runs + 1 + n, used + 1 + n⟩ := by
        refine ih (runs + 1) (used + 1) (fun j h1 h2 => htask j (by omega) (by omega))
          (fun j h1 h2 => hinp j (by omega) (by omega))
      by_cases hr : normalize_choice (inputs used) = "r"
      · simp only [hr, if_true, hrec]
        congr 1 <;> omega
      · simp only [hr, hs, ha, hm, if_false, hrec]
        congr 1 <;> omega

/-- **C9 (counterexample).**  The claim says an unrecognized input at the
retry prompt re-prompts *without consuming an attempt* — so the task is
only re-run after an explicit `r`.  With a task that fails its first run
and succeeds its second, and the single consumed prompt answer `"x"`
(unrecognized), `try_run` runs the task a second time even though no
consumed answer was a retry: the invalid answer consumed an attempt. -/
theorem try_run_invalid_consumes_attempt :
    try_run (fun n => n == 1) (fun _ => "x")
      = ⟨.SUCCESS, 2, 1⟩ ∧
    consumed_retries (fun _ => "x") 1 = 0 ∧
    1 + consumed_retries (fun _ => "x") 1
      < (try_run (fun n => n == 1) (fun _ => "x")).task_runs := by
  refine ⟨by decide, by decide, by decide⟩

/-- **C9 (amended).**  `PromptUserErrorHandler.try_run` gives the task up
to 5 attempts, and exhausting them returns `Failed`; but an unrecognized
input at the retry prompt does *consume* an attempt — it behaves exactly
like answering `r`: the task is re-run.  Formally: (1) the task never runs
more than 5 times; (2) replacing an unrecognized answer by `r` leaves the
whole run unchanged; (3) when the task keeps failing and the user never
answers `s`/`a`/`m`, the run returns `Failed` after exactly 5 task runs and
5 consumed answers. -/
theorem try_run_attempts_spec :
    (∀ (task : Nat → Bool) (inputs : Nat → String),
      (try_run task inputs).task_runs ≤ 5) ∧
    (∀ (task : Nat → Bool) (inputs : Nat → String) (k : Nat),
      normalize_choice (inputs k) ∉ (["r", "s", "a", "m"] : List String) →
      try_run task inputs = try_run task (Function.update inputs k "r")) ∧
    (∀ (task : Nat → Bool) (inputs : Nat → String),
      (∀ n < 5, task n = false) →
      (∀ n < 5, normalize_choice (inputs n) ∉ (["s", "a", "m"] : List String)) →
      try_run task inputs = ⟨.FAILED, 5, 5⟩) := by
  refine ⟨fun task inputs => ?_, fun task inputs k hk => ?_, fun task inputs h1 h2 => ?_⟩
  · simpa using try_run_iter_runs_le task inputs 5 0 0
  · exact try_run_iter_invalid_eq_retry task inputs k hk 5 0 0
  · simpa using try_run_iter_exhaustion task inputs 5 0 0
      (fun n _ hn => h1 n (by omega)) (fun n _ hn => h2 n (by omega))

/-- Closed witness for `try_run_attempts_spec` at concrete tasks and
inputs. -/
theorem try_run_attempts_spec_witness :
    (try_run (fun _ => false) (fun _ => "zzz")).task_runs ≤ 5 ∧
    (normalize_choice ((fun _ => "zzz") 0) ∉ (["r", "s", "a", "m"] : List String) ∧
      try_run (fun _ => false) (fun _ => "zzz")
        = try_run (fun _ => false) (Function.update (fun _ => "zzz") 0 "r")) ∧
    try_run (fun _ => false) (fun _ => "zzz") = ⟨.FAILED, 5, 5⟩ :=
  ⟨try_run_attempts_spec.1 (fun _ => false) (fun _ => "zzz"),
    ⟨by decide,
      try_run_attempts_spec.2.1 (fun _ => false) (fun _ => "zzz") 0 (by decide)⟩,
    try_run_attempts_spec.2.2 (fun _ => false) (fun _ => "zzz")
      (fun n _ => rfl)
      (fun n _ => show normalize_choice "zzz" ∉ (["s", "a", "m"] : List String) by decide)⟩

/-! ## C3 — the SequenceTransitioner invariant -/

/-- Inversion of a successful `update_item` with both sides present. -/
theorem update_item_ss {α} [DecidableEq α] {s s' : SequenceTransitioner α} {x y : α}
    (h : s.update_item (some x) (some y) = some s') :
    x ∈ s.old_items ∧ y ∉ s.new_items ∧
      s' = ⟨s.old_items.erase x, s.new_items ++ [y]⟩ := by
  rw [SequenceTransitioner.update_item.eq_def] at h
  simp at h
  exact ⟨h.1, h.2.1, h.2.2.symm⟩

/-- Inversion of a successful `update_item` with only an old item. -/
theorem update_item_sn {α} [DecidableEq α] {s s' : SequenceTransitioner α} {x : α}
    (h : s.update_item (some x) none = some s') :
    x ∈ s.old_items ∧ s' = ⟨s.old_items.erase x, s.new_items⟩ := by
  rw [SequenceTransitioner.update_item.eq_def] at h
  simp at h
  exact ⟨h.1, h.2.symm⟩

/-- Inversion of a successful `update_item` with only a new item. -/
theorem update_item_ns {α} [DecidableEq α] {s s' : SequenceTransitioner α} {y : α}
    (h : s.update_item none (some y) = some s') :
    y ∉ s.new_items ∧ s' = ⟨s.old_items, s.new_items ++ [y]⟩ := by
  rw [SequenceTransitioner.update_item.eq_def] at h
  simp at h
  exact ⟨h.1, h.2.symm⟩

/-- The state after a strictly legal history: new items accumulate in call
order, old items are the unconsumed ones in original order, and the
duplicate-freeness of the projection is preserved. -/
theorem run_updates_strict {α} [DecidableEq α] :
    ∀ (history : List (Option α × Option α)) (s : SequenceTransitioner α),
      StrictLegal s history → s.old_items.Nodup → s.get_current_items.Nodup →
      ∃ s', s.run_updates history = some s' ∧
        s'.new_items = s.new_items ++ history.filterMap Prod.snd ∧
        s'.old_items = s.old_items.filter (fun x => decide (x ∉ history.filterMap Prod.fst)) ∧
        s'.old_items.Nodup ∧ s'.get_current_items.Nodup := by
  intro history
  induction history with
  | nil =>
      intro s _ hnod hcur
      refine ⟨s, rfl, by simp, ?_, hnod, hcur⟩
      simp
  | cons step rest ih =>
      intro s hleg hnod hcur
      obtain ⟨o, n⟩ := step
      cases hleg with
      | cons _ _ _ _ s₁ hupd hnew hrest =>
      have hold1 : s₁.old_items = o.elim s.old_items (fun x => s.old_items.erase x) := by
        cases o with
        | some x =>
            cases n with
            | some y => obtain ⟨_, _, h3⟩ := update_item_ss hupd; subst h3; rfl
            | none => obtain ⟨_, h3⟩ := update_item_sn hupd; subst h3; rfl
        | none =>
            cases n with
            | some y => obtain ⟨_, h3⟩ := update_item_ns hupd; subst h3; rfl
            | none =>
                rw [SequenceTransitioner.update_item.eq_def] at hupd
                simp at hupd
      have hnew1 : s₁.new_items = s.new_items ++ n.toList := by
        cases o with
        | some x =>
            cases n with
            | some y => obtain ⟨_, _, h3⟩ := update_item_ss hupd; subst h3; rfl
            | none => obtain ⟨_, h3⟩ := update_item_sn hupd; subst h3; simp
        | none =>
            cases n with
            | some y => obtain ⟨_, h3⟩ := update_item_ns hupd; subst h3; rfl
            | none =>
                rw [SequenceTransitioner.update_item.eq_def] at hupd
                simp at hupd
      have hnotin : ∀ y, n = some y → y ∉ s.new_items := by
        intro y hy
        subst hy
        cases o with
        | some x => exact (update_item_ss hupd).2.1
        | none => exact (update_item_ns hupd).1
      have hnod₁ : s₁.old_items.Nodup := by
        rw [hold1]
        cases o with
        | some x => exact hnod.erase x
        | none => exact hnod
      have hsub₁ : s₁.old_items.Sublist s.old_items := by
        rw [hold1]
        cases o with
        | some x => exact List.erase_sublist x s.old_items
        | none => exact List.Sublist.refl _
      have hcur₁ : s₁.get_current_items.Nodup := by
        rw [SequenceTransitioner.get_current_items, hnew1]
        cases n with
        | none =>
            simp only [Option.toList_none, List.append_nil]
            exact hcur.sublist (List.Sublist.append_left hsub₁ _)
        | some y =>
            have hyold : y ∉ s₁.old_items := hnew y rfl
            have hynew : y ∉ s.new_items := hnotin y rfl
            simp only [Option.toList_some]
            have hperm : ((s.new_items ++ [y]) ++ s₁.old_items).Perm
                (y :: (s.new_items ++ s₁.old_items)) :=
              List.Perm.append_right _ (List.perm_append_singleton y s.new_items)
            refine hperm.nodup_iff.mpr (List.nodup_cons.mpr ⟨?_, ?_⟩)
            · intro hy
              rcases List.mem_append.mp hy with hy | hy
              · exact hynew hy
              · exact hyold hy
            · exact hcur.sublist (List.Sublist.append_left hsub₁ _)
      obtain ⟨s', hrun, hnew', hold', hnod', hcur'⟩ := ih s₁ hrest hnod₁ hcur₁
      refine ⟨s', ?_, ?_, ?_, hnod', hcur'⟩
      · rw [SequenceTransitioner.run_updates]
        simp only [hupd, Option.some_bind]
        exact hrun
      · rw [hnew', hnew1, List.filterMap_cons]
        cases n <;> simp
      · rw [hold', hold1, List.filterMap_cons]
        cases o with
        | none => rfl
        | some x =>
            simp only [Option.elim_some]
            rw [List.Nodup.erase_eq_filter hnod]
            rw [List.filter_filter]
            refine List.filter_congr ?_
            intro a _
            simp [bne, Bool.and_comm]

/-- **C3 (counterexample).**  The claim's legality conditions (old item in
the remaining old list, new item not yet in the accumulated new list,
never both `None`) admit the history `update(None, Some 0)` over the
duplicate-free old list `[0]`: the call succeeds, yet
`get_current_items()` is `[0, 0]` — the element `0` appears twice, so the
projection is *not* duplicate-free, refuting "each element appearing
exactly once". -/
theorem sequence_transitioner_duplicate_counterexample :
    ((SequenceTransitioner.create_from_old_items [0]).run_updates
        [(none, some 0)]).map SequenceTransitioner.get_current_items
      = some ([0, 0] : List ℕ) ∧
    ¬ ([0, 0] : List ℕ).Nodup := by
  exact ⟨by decide, by decide⟩

/-- **C3 (amended).**  For every `SequenceTransitioner` created from a
duplicate-free old sequence and advanced only by *strictly* legal update
calls — the claim's conditions plus the source's documented "items cannot
be duplicated in either list", i.e. an appended new item is also absent
from the remaining old list — every call succeeds, `get_current_items()`
equals the accumulated new items in append order followed by the
not-yet-consumed old items in their original order (a sublist of the
initial list), it is a permutation of (unconsumed initial old items plus
appended new items), and every element appears exactly once. -/
theorem sequence_transitioner_current {α} [DecidableEq α] (old : List α)
    (history : List (Option α × Option α)) (hnodup : old.Nodup)
    (hleg : StrictLegal (SequenceTransitioner.create_from_old_items old) history) :
    ∃ s', (SequenceTransitioner.create_from_old_items old).run_updates history = some s' ∧
      s'.new_items = history.filterMap Prod.snd ∧
      s'.old_items = old.filter (fun x => decide (x ∉ history.filterMap Prod.fst)) ∧
      s'.old_items.Sublist old ∧
      s'.get_current_items = s'.new_items ++ s'.old_items ∧
      s'.get_current_items.Perm
        (old.filter (fun x => decide (x ∉ history.filterMap Prod.fst)) ++
          history.filterMap Prod.snd) ∧
      s'.get_current_items.Nodup := by
  obtain ⟨s', hrun, hnew, hold, hnod, hcur⟩ :=
    run_updates_strict history (SequenceTransitioner.create_from_old_items old) hleg
      hnodup (by simpa [SequenceTransitioner.get_current_items,
        SequenceTransitioner.create_from_old_items] using hnodup)
  refine ⟨s', hrun, by simpa using hnew, hold, ?_, rfl, ?_, hcur⟩
  · rw [hold]
    exact List.filter_sublist old
  · rw [SequenceTransitioner.get_current_items, hold, hnew]
    simp only [SequenceTransitioner.create_from_old_items, List.nil_append]
    exact List.perm_append_comm

/-- Closed witness for `sequence_transitioner_current` at a concrete
update-remove-add history over `[1, 2]`. -/
theorem sequence_transitioner_current_witness :
    ([1, 2] : List ℕ).Nodup ∧
    (∃ s', (SequenceTransitioner.create_from_old_items ([1, 2] : List ℕ)).run_updates
        [(some 1, some 3), (some 2, none), (none, some 4)] = some s' ∧
      s'.new_items = [(some 1, some 3), (some 2, none),
        (none, some 4)].filterMap Prod.snd ∧
      s'.old_items = ([1, 2] : List ℕ).filter
        (fun x => decide (x ∉ [(some 1, some 3), (some 2, none),
          (none, some 4)].filterMap Prod.fst)) ∧
      s'.old_items.Sublist [1, 2] ∧
      s'.get_current_items = s'.new_items ++ s'.old_items ∧
      s'.get_current_items.Perm
        (([1, 2] : List ℕ).filter (fun x => decide (x ∉ [(some 1, some 3),
          (some 2, none), (none, some 4)].filterMap Prod.fst)) ++
          [(some 1, some 3), (some 2, none), (none, some 4)].filterMap Prod.snd) ∧
      s'.get_current_items.Nodup) :=
  ⟨by decide,
    sequence_transitioner_current [1, 2] [(some 1, some 3), (some 2, none), (none, some 4)]
      (by decide)
      (StrictLegal.cons _ _ _ _ ⟨[2], [3]⟩ (by decide)
        (fun y hy => by cases hy; decide)
        (StrictLegal.cons _ _ _ _ ⟨[], [3]⟩ (by decide)
          (fun y hy => by cases hy)
          (StrictLegal.cons _ _ _ _ ⟨[], [3, 4]⟩ (by decide)
            (fun y hy => by cases hy; decide)
            (StrictLegal.nil _))))⟩

/-! ## C2 — ordering of the domain-action plan -/

/-- A `filterMap` whose function always succeeds is a `map`. -/
theorem filterMap_eq_map_of_forall {α β : Type} (l : List α) (f : α → Option β)
    (g : α → β) (h : ∀ a ∈ l, f a = some (g a)) : l.filterMap f = l.map g := by
  induction l with
  | nil => rfl
  | cons a t ih =>
      rw [List.filterMap_cons, h a (List.mem_cons_self _ _), List.map_cons,
        ih (fun x hx => h x (List.mem_cons_of_mem _ hx))]

/-- In a list of entries with duplicate-free ids, looking an entry's id up
finds that entry. -/
theorem find_by_id (l : List Entry) (hl : (l.map Entry.get_id).Nodup) :
    ∀ e ∈ l, l.find? (fun x => x.get_id == e.get_id) = some e := by
  induction l with
  | nil => intro e he; simp at he
  | cons a t ih =>
      intro e he
      rcases List.mem_cons.mp he with rfl | he
      · exact List.find?_cons_of_pos _ (by simp)
      · have hne : ¬ ((a.get_id == e.get_id) = true) := by
          simp only [beq_iff_eq]
          intro hid
          have hmem : e.get_id ∈ t.map Entry.get_id := List.mem_map_of_mem _ he
          rw [← hid] at hmem
          exact (List.nodup_cons.mp hl).1 hmem
        rw [List.find?_cons_of_neg _ (by simpa using hne)]
        exact ih (List.nodup_cons.mp hl).2 e he

/-- Looking up each id of a filtered id list and emitting a removal equals
filtering the entries themselves and emitting their removals. -/
theorem filterMap_lookup_ids (full : List Entry)
    (hfind : ∀ e ∈ full, full.find? (fun x => x.get_id == e.get_id) = some e) :
    ∀ (l : List Entry) (P : List String → Bool), (∀ e ∈ l, e ∈ full) →
    ((l.map Entry.get_id).filter P).filterMap
      (fun i => (full.find? (fun x => x.get_id == i)).map DomainAction.remove)
    = (l.filter (fun e => P e.get_id)).map DomainAction.remove := by
  intro l
  induction l with
  | nil => intro P _; rfl
  | cons a t ih =>
      intro P hsub
      rw [List.map_cons, List.filter_cons, List.filter_cons]
      by_cases hP : P a.get_id = true
      · rw [if_pos hP, if_pos hP, List.filterMap_cons,
          hfind a (hsub a (List.mem_cons_self _ _))]
        rw [List.map_cons]
        rw [ih P (fun e he => hsub e (List.mem_cons_of_mem _ he))]
        rfl
      · rw [if_neg hP, if_neg hP]
        exact ih P (fun e he => hsub e (List.mem_cons_of_mem _ he))

/-- The plan of `get_domain_actions` splits into the reversed removals
followed by the per-new-entry triage, in those orders (shared between the
plan-order theorem and the executor-loop analysis). -/
theorem get_domain_actions_split (old_entries new_entries : List Entry)
    (hold : (old_entries.map Entry.get_id).Nodup)
    (hnew : (new_entries.map Entry.get_id).Nodup) :
    get_domain_actions old_entries new_entries =
      ((old_entries.filter
          (fun e => decide (e.get_id ∉ new_entries.map Entry.get_id))).reverse.map
        DomainAction.remove)
      ++ (new_entries.map (fun n =>
          match old_entries.find? (fun o => o.get_id == n.get_id) with
          | some o => if o.valueY = n.valueY then DomainAction.noop o n
              else DomainAction.update o n
          | none => DomainAction.add n)) := by
  rw [get_domain_actions]
  simp only [Diff.create_from_iterables]
  congr 1
  · rw [List.filterMap_reverse]
    refine Eq.trans (congrArg List.reverse (filterMap_lookup_ids old_entries
      (find_by_id old_entries hold) old_entries
      _ (fun e he => he))) ?_
    rw [List.reverse_map]
    congr 1
    congr 1
    exact List.filter_congr (fun a _ => decide_eq_decide.mpr Iff.rfl)
  · rw [List.filterMap_map]
    refine filterMap_eq_map_of_forall _ _ _ ?_
    intro n hn
    simp only [Function.comp_apply, find_by_id new_entries hnew n hn]
    rfl

/-- **C2.**  In the domain-action plan produced from `(old, new)`, every
removal action (for an id present only in the old config) precedes every
add/update action: the plan is exactly the removals — one per old-exclusive
entry, in the *reverse* of the old config's insertion order — followed by
one action per entry of the new config in its insertion order (an add when
the id is new, an update when the id is shared and the payload changed, a
committed-but-not-executed no-op when the payload is unchanged). -/
theorem get_domain_actions_plan (old_entries new_entries : List Entry)
    (hold : (old_entries.map Entry.get_id).Nodup)
    (hnew : (new_entries.map Entry.get_id).Nodup) :
    get_domain_actions old_entries new_entries =
      ((old_entries.filter
          (fun e => decide (e.get_id ∉ new_entries.map Entry.get_id))).reverse.map
        DomainAction.remove)
      ++ (new_entries.map (fun n =>
          match old_entries.find? (fun o => o.get_id == n.get_id) with
          | some o => if o.valueY = n.valueY then DomainAction.noop o n
              else DomainAction.update o n
          | none => DomainAction.add n)) ∧
    (∀ a ∈ (old_entries.filter
          (fun e => decide (e.get_id ∉ new_entries.map Entry.get_id))).reverse.map
        DomainAction.remove, ∃ e, a = DomainAction.remove e) ∧
    (∀ a ∈ new_entries.map (fun n =>
          match old_entries.find? (fun o => o.get_id == n.get_id) with
          | some o => if o.valueY = n.valueY then DomainAction.noop o n
              else DomainAction.update o n
          | none => DomainAction.add n), ∀ e, a ≠ DomainAction.remove e) := by
  refine ⟨get_domain_actions_split old_entries new_entries hold hnew, ?_, ?_⟩
  · intro a ha
    obtain ⟨e, _, rfl⟩ := List.mem_map.mp ha
    exact ⟨e, rfl⟩
  · intro a ha e
    obtain ⟨n, _, rfl⟩ := List.mem_map.mp ha
    cases hfind : old_entries.find? (fun o => o.get_id == n.get_id) with
    | none => simp
    | some o =>
        simp only [hfind]
        split <;> simp

/-- Closed witness for `get_domain_actions_plan` at a concrete old/new
pair exercising a removal, an update, a no-op and an add. -/
theorem get_domain_actions_plan_witness :
    (([Entry.listE ⟨"apt", .list, 0, true⟩ [] "gone",
        Entry.mapE ⟨"dconf", .map, 1, false⟩ ["k"] (.s "a"),
        Entry.mapE ⟨"dconf", .map, 1, false⟩ ["same"] (.s "s")] :
        List Entry).map Entry.get_id).Nodup ∧
    (([Entry.mapE ⟨"dconf", .map, 1, false⟩ ["k"] (.s "b"),
        Entry.mapE ⟨"dconf", .map, 1, false⟩ ["same"] (.s "s"),
        Entry.listE ⟨"apt", .list, 0, true⟩ [] "fresh"] :
        List Entry).map Entry.get_id).Nodup ∧
    get_domain_actions
        [Entry.listE ⟨"apt", .list, 0, true⟩ [] "gone",
          Entry.mapE ⟨"dconf", .map, 1, false⟩ ["k"] (.s "a"),
          Entry.mapE ⟨"dconf", .map, 1, false⟩ ["same"] (.s "s")]
        [Entry.mapE ⟨"dconf", .map, 1, false⟩ ["k"] (.s "b"),
          Entry.mapE ⟨"dconf", .map, 1, false⟩ ["same"] (.s "s"),
          Entry.listE ⟨"apt", .list, 0, true⟩ [] "fresh"]
      = [.remove (Entry.listE ⟨"apt", .list, 0, true⟩ [] "gone"),
          .update (Entry.mapE ⟨"dconf", .map, 1, false⟩ ["k"] (.s "a"))
            (Entry.mapE ⟨"dconf", .map, 1, false⟩ ["k"] (.s "b")),
          .noop (Entry.mapE ⟨"dconf", .map, 1, false⟩ ["same"] (.s "s"))
            (Entry.mapE ⟨"dconf", .map, 1, false⟩ ["same"] (.s "s")),
          .add (Entry.listE ⟨"apt", .list, 0, true⟩ [] "fresh")] := by
  refine ⟨by decide, by decide, ?_⟩
  have h := (get_domain_actions_plan
    [Entry.listE ⟨"apt", .list, 0, true⟩ [] "gone",
      Entry.mapE ⟨"dconf", .map, 1, false⟩ ["k"] (.s "a"),
      Entry.mapE ⟨"dconf", .map, 1, false⟩ ["same"] (.s "s")]
    [Entry.mapE ⟨"dconf", .map, 1, false⟩ ["k"] (.s "b"),
      Entry.mapE ⟨"dconf", .map, 1, false⟩ ["same"] (.s "s"),
      Entry.listE ⟨"apt", .list, 0, true⟩ [] "fresh"]
    (by decide) (by decide)).1
  rw [h]
  decide

/-! ## C6 — the no-changes short circuit -/

/-- Diffing a duplicate-free entry list against itself plans only no-op
actions. -/
theorem get_domain_actions_self_noop (entries : List Entry)
    (h : (entries.map Entry.get_id).Nodup) :
    ∀ a ∈ get_domain_actions entries entries, a.isNoop = true := by
  intro a ha
  rw [(get_domain_actions_plan entries entries h h).1] at ha
  rcases List.mem_append.mp ha with ha | ha
  · exfalso
    obtain ⟨e, he, _⟩ := List.mem_map.mp ha
    have he' := List.mem_reverse.mp he
    obtain ⟨hmem, hpred⟩ := List.mem_filter.mp he'
    simp only [decide_eq_true_eq] at hpred
    exact hpred (List.mem_map_of_mem _ hmem)
  · obtain ⟨n, hn, rfl⟩ := List.mem_map.mp ha
    rw [find_by_id entries h n hn]
    simp [DomainAction.isNoop]

/-- **C6.**  For every pair of configurations with
`old_config == new_config` — and generally whenever the plan contains no
non-NoOp domain actions and the before/after diffs are empty (their `old`
and `new` sequences are equal, which is exactly the `has_changes` test of
the source) — `run_actions` executes no actions, prints
`# No changes required.`, and returns `new_config` unchanged, for any
error-handler behaviour. -/
theorem run_actions_no_changes (old_config new_config : SystemConfig) (handler : Nat → Status)
    (hold : (old_config.config_entries.map Entry.get_id).Nodup)
    (hcase : old_config = new_config ∨
      (old_config.before_actions = new_config.before_actions ∧
       old_config.after_actions = new_config.after_actions ∧
       ∀ a ∈ get_domain_actions old_config.config_entries new_config.config_entries,
         a.isNoop = true)) :
    run_actions old_config new_config handler = ⟨true, 0, some new_config⟩ := by
  have htriple : old_config.before_actions = new_config.before_actions ∧
      old_config.after_actions = new_config.after_actions ∧
      ∀ a ∈ get_domain_actions old_config.config_entries new_config.config_entries,
        a.isNoop = true := by
    rcases hcase with rfl | h
    · exact ⟨rfl, rfl, get_domain_actions_self_noop _ hold⟩
    · exact h
  obtain ⟨hb, ha, hnoop⟩ := htriple
  rw [run_actions]
  have hcond : (decide ((Diff.create_from_iterables old_config.before_actions
        new_config.before_actions).old ≠ (Diff.create_from_iterables
        old_config.before_actions new_config.before_actions).new)
      || decide ((Diff.create_from_iterables old_config.after_actions
        new_config.after_actions).old ≠ (Diff.create_from_iterables
        old_config.after_actions new_config.after_actions).new)
      || (get_domain_actions old_config.config_entries
          new_config.config_entries).any (fun a => !a.isNoop)) = false := by
    simp only [Diff.create_from_iterables, Bool.or_eq_false_iff, decide_eq_false_iff_not,
      not_not, List.any_eq_false]
    refine ⟨⟨hb, ha⟩, ?_⟩
    intro a haa
    simp [hnoop a haa]
  simp only [hcond]
  rfl

/-- Closed witness for `run_actions_no_changes` at a concrete
configuration and handler. -/
theorem run_actions_no_changes_witness :
    ((SystemConfig.mk ["echo hi"] []
        [Entry.listE ⟨"apt", .list, 0, true⟩ [] "htop"] []).config_entries.map
      Entry.get_id).Nodup ∧
    run_actions
        (SystemConfig.mk ["echo hi"] [] [Entry.listE ⟨"apt", .list, 0, true⟩ [] "htop"] [])
        (SystemConfig.mk ["echo hi"] [] [Entry.listE ⟨"apt", .list, 0, true⟩ [] "htop"] [])
        (fun _ => Status.SUCCESS)
      = ⟨true, 0, some (SystemConfig.mk ["echo hi"] []
          [Entry.listE ⟨"apt", .list, 0, true⟩ [] "htop"] [])⟩ :=
  ⟨by decide,
    run_actions_no_changes
      (SystemConfig.mk ["echo hi"] [] [Entry.listE ⟨"apt", .list, 0, true⟩ [] "htop"] [])
      (SystemConfig.mk ["echo hi"] [] [Entry.listE ⟨"apt", .list, 0, true⟩ [] "htop"] [])
      (fun _ => Status.SUCCESS) (by decide) (Or.inl rfl)⟩

end SysConf
namespace SysConf

theorem commit_flags_fst {α} (handler : Nat → Status) :
    ∀ (steps : List (PlanStep α)) (k : Nat),
      (commit_flags handler steps k).1.map Prod.fst = steps := by
  intro steps
  induction steps with
  | nil => intro k; rfl
  | cons st rest ih =>
      intro k
      rw [commit_flags]
      split
      · split <;>
          simp only [List.map_cons, List.map_map, ih,
            show (Prod.fst ∘ fun s : PlanStep α => (s, false)) = id from rfl, List.map_id]
      · simp [ih]

theorem committed_new_all_false {α} (steps : List (PlanStep α)) :
    committed_new (steps.map (fun s => (s, false))) = [] := by
  induction steps with
  | nil => rfl
  | cons st rest ih => simpa [committed_new] using ih

theorem committed_old_all_false {α} (steps : List (PlanStep α)) :
    committed_old (steps.map (fun s => (s, false))) = [] := by
  induction steps with
  | nil => rfl
  | cons st rest ih => simpa [committed_old] using ih

theorem uncommitted_old_all_false {α} (steps : List (PlanStep α)) :
    uncommitted_old (steps.map (fun s => (s, false))) = steps.filterMap PlanStep.old_item := by
  induction steps with
  | nil => rfl
  | cons st rest ih =>
      simp only [List.map_cons, uncommitted_old, List.filterMap_cons] at ih ⊢
      rw [if_neg (by simp)]
      cases st.old_item <;> simp [ih]

theorem olds_split {α} (flags : List (PlanStep α × Bool)) :
    ((flags.map Prod.fst).filterMap PlanStep.old_item).Perm
      (committed_old flags ++ uncommitted_old flags) := by
  induction flags with
  | nil => simp [committed_old, uncommitted_old]
  | cons fb rest ih =>
      obtain ⟨st, b⟩ := fb
      simp only [List.map_cons, List.filterMap_cons, committed_old, uncommitted_old] at ih ⊢
      cases b
      · rw [if_neg (by simp), if_neg (by simp)]
        cases ho : st.old_item with
        | none => exact ih
        | some x =>
            refine (ih.cons x).trans ?_
            exact List.perm_middle.symm
      · rw [if_pos rfl, if_pos rfl]
        cases ho : st.old_item with
        | none => exact ih
        | some x => exact ih.cons x

end SysConf
namespace SysConf

theorem update_pair_commits {α} [DecidableEq α] (oldL newL : List α) (o n : Option α)
    (hsome : o.isSome ∨ n.isSome)
    (ho : ∀ x, o = some x → x ∈ oldL)
    (hn : ∀ y, n = some y → y ∉ newL) :
    update_pair oldL newL o n =
      .ok (o.elim oldL (fun x => oldL.erase x), newL ++ n.toList) := by
  cases o with
  | none =>
      cases n with
      | none => simp at hsome
      | some y =>
          rw [update_pair]
          rw [if_neg (by simp)]
          simp only [Option.elim_none, Option.toList_some]
          rw [if_neg (hn y rfl)]
  | some x =>
      cases n with
      | none =>
          rw [update_pair]
          rw [if_neg (by simp)]
          simp only [Option.elim_some, Option.toList_none, List.append_nil]
          rw [if_pos (ho x rfl)]
      | some y =>
          rw [update_pair]
          rw [if_neg (by simp)]
          simp only [Option.elim_some, Option.toList_some]
          rw [if_pos (ho x rfl)]
          rw [if_neg (hn y rfl)]

end SysConf
namespace SysConf

theorem committed_new_cons_true {α} (st : PlanStep α) (fl : List (PlanStep α × Bool)) :
    committed_new ((st, true) :: fl) = st.new_item.toList ++ committed_new fl := by
  rw [committed_new, List.filterMap_cons]
  cases st.new_item <;> simp [committed_new]

theorem committed_new_cons_false {α} (st : PlanStep α) (fl : List (PlanStep α × Bool)) :
    committed_new ((st, false) :: fl) = committed_new fl := by
  rw [committed_new, List.filterMap_cons]
  rfl

theorem committed_old_cons_true {α} (st : PlanStep α) (fl : List (PlanStep α × Bool)) :
    committed_old ((st, true) :: fl) = st.old_item.toList ++ committed_old fl := by
  rw [committed_old, List.filterMap_cons]
  cases st.old_item <;> simp [committed_old]

theorem committed_old_cons_false {α} (st : PlanStep α) (fl : List (PlanStep α × Bool)) :
    committed_old ((st, false) :: fl) = committed_old fl := by
  rw [committed_old, List.filterMap_cons]
  rfl

theorem uncommitted_old_cons_false {α} (st : PlanStep α) (fl : List (PlanStep α × Bool)) :
    uncommitted_old ((st, false) :: fl) = st.old_item.toList ++ uncommitted_old fl := by
  rw [uncommitted_old, List.filterMap_cons]
  cases st.old_item <;> simp [uncommitted_old]

theorem uncommitted_old_cons_true {α} (st : PlanStep α) (fl : List (PlanStep α × Bool)) :
    uncommitted_old ((st, true) :: fl) = uncommitted_old fl := by
  rw [uncommitted_old, List.filterMap_cons]
  rfl

end SysConf
namespace SysConf

theorem run_section_spec {α κ : Type} [DecidableEq α] [DecidableEq κ]
    (handler : Nat → Status) (key : α → κ) :
    ∀ (steps : List (PlanStep α)) (oldL newL : List α) (k execd : Nat),
      oldL.Nodup →
      ((newL ++ oldL).map key).Nodup →
      (steps.filterMap PlanStep.old_item).Nodup →
      (∀ x ∈ steps.filterMap PlanStep.old_item, x ∈ oldL) →
      ((newL ++ steps.filterMap PlanStep.new_item).map key).Nodup →
      (∀ st ∈ steps, ∀ n, st.new_item = some n →
        ∀ x ∈ oldL, key x = key n → st.old_item = some x) →
      (∀ st ∈ steps, st.old_item.isSome ∨ st.new_item.isSome) →
      ∃ oldL' newL' k' e',
        ((run_section handler steps oldL newL k execd = .ok oldL' newL' k' e' ∧
            (commit_flags handler steps k).2 = some k') ∨
         (run_section handler steps oldL newL k execd = .stopped oldL' newL' k' e' ∧
            (commit_flags handler steps k).2 = none)) ∧
        newL' = newL ++ committed_new (commit_flags handler steps k).1 ∧
        oldL.Perm (committed_old (commit_flags handler steps k).1 ++ oldL') ∧
        oldL'.Nodup ∧
        ((newL' ++ oldL').map key).Nodup := by
  intro steps
  induction steps with
  | nil =>
      intro oldL newL k execd h4 h5 _ _ _ _ _
      exact ⟨oldL, newL, k, execd, Or.inl ⟨rfl, rfl⟩, by simp [commit_flags, committed_new],
        by simp [commit_flags, committed_old], h4, h5⟩
  | cons st rest ih =>
      intro oldL newL k execd h4 h5 h1 h2 h3 h6 h7
      -- head facts
      have hstold_mem : ∀ x, st.old_item = some x → x ∈ oldL := by
        intro x hx
        exact h2 x (by simp [List.filterMap_cons, hx])
      have hkeydisj : ∀ y ∈ (st :: rest).filterMap PlanStep.new_item,
          key y ∉ (newL ++ oldL).map key → True := fun _ _ _ => trivial
      have hnewdisj : (newL.map key).Disjoint
          (((st :: rest).filterMap PlanStep.new_item).map key) := by
        have h3' := h3
        rw [List.map_append] at h3'
        exact List.disjoint_of_nodup_append h3'
      have hstnew_notin : ∀ y, st.new_item = some y → y ∉ newL := by
        intro y hy hmem
        exact hnewdisj (List.mem_map_of_mem key hmem)
          (List.mem_map_of_mem key (by simp [List.filterMap_cons, hy]))
      have hupd := update_pair_commits oldL newL st.old_item st.new_item
        (h7 st (List.mem_cons_self _ _)) hstold_mem hstnew_notin
      -- the committed state
      set oldL₁ := st.old_item.elim oldL (fun x => oldL.erase x) with holdL₁
      set newL₁ := newL ++ st.new_item.toList with hnewL₁
      have hsub₁ : oldL₁.Sublist oldL := by
        cases hox : st.old_item with
        | none => simp [holdL₁, hox]
        | some x => simp [holdL₁, hox, List.erase_sublist]
      have h4₁ : oldL₁.Nodup := h4.sublist hsub₁
      have hnews_split : (st :: rest).filterMap PlanStep.new_item
          = st.new_item.toList ++ rest.filterMap PlanStep.new_item := by
        rw [List.filterMap_cons]
        cases st.new_item <;> simp
      have h3₁ : ((newL₁ ++ rest.filterMap PlanStep.new_item).map key).Nodup := by
        rw [hnewL₁, List.append_assoc, ← hnews_split]
        exact h3
      have h5₁ : ((newL₁ ++ oldL₁).map key).Nodup := by
        cases hny : st.new_item with
        | none =>
            have : (newL₁ ++ oldL₁).Sublist (newL ++ oldL) := by
              rw [hnewL₁, hny]
              simpa using List.Sublist.append_left hsub₁ newL
            exact h5.sublist (this.map key)
        | some y =>
            have hbase : ((newL ++ oldL₁).map key).Nodup :=
              h5.sublist ((List.Sublist.append_left hsub₁ newL).map key)
            have hperm : (newL₁ ++ oldL₁).Perm (y :: (newL ++ oldL₁)) := by
              rw [hnewL₁, hny]
              simpa using List.Perm.append_right oldL₁ (List.perm_append_singleton y newL)
            refine ((hperm.map key).nodup_iff).mpr (List.nodup_cons.mpr ⟨?_, hbase⟩)
            intro hkmem
            rw [List.map_append, List.mem_append] at hkmem
            rcases hkmem with hk | hk
            · -- key y in newL keys: contradicts disjointness with news keys
              exact hnewdisj hk (List.mem_map_of_mem key (by simp [List.filterMap_cons, hny]))
            · -- key y in oldL₁ keys: that element must be the erased one
              obtain ⟨x', hx'mem, hx'key⟩ := List.mem_map.mp hk
              have hx'old : x' ∈ oldL := hsub₁.mem hx'mem
              have hxeq := h6 st (List.mem_cons_self _ _) y hny x' hx'old hx'key
              rw [holdL₁, hxeq] at hx'mem
              simp only [Option.elim_some] at hx'mem
              exact h4.not_mem_erase hx'mem
      have h1₁ : (rest.filterMap PlanStep.old_item).Nodup := by
        rcases hox : st.old_item with _ | x
        · rw [List.filterMap_cons, hox] at h1
          exact h1
        · rw [List.filterMap_cons, hox] at h1
          exact h1.of_cons
      have h2₁ : ∀ z ∈ rest.filterMap PlanStep.old_item, z ∈ oldL₁ := by
        intro z hz
        have hzold : z ∈ oldL := h2 z (by
          rw [List.filterMap_cons]
          cases st.old_item <;> simp [hz])
        rcases hox : st.old_item with _ | x
        · simpa [holdL₁, hox] using hzold
        · rw [List.filterMap_cons, hox] at h1
          have : z ≠ x := by
            intro hzx
            subst hzx
            exact (List.nodup_cons.mp h1).1 hz
          simp only [holdL₁, hox, Option.elim_some]
          exact (List.mem_erase_of_ne this).mpr hzold
      have h6₁ : ∀ st' ∈ rest, ∀ n, st'.new_item = some n →
          ∀ x ∈ oldL₁, key x = key n → st'.old_item = some x := by
        intro st' hst' n hn x hx hkey
        exact h6 st' (List.mem_cons_of_mem _ hst') n hn x (hsub₁.mem hx) hkey
      have h7₁ : ∀ st' ∈ rest, st'.old_item.isSome ∨ st'.new_item.isSome :=
        fun st' hst' => h7 st' (List.mem_cons_of_mem _ hst')
      -- skipping keeps the state; its hypotheses
      have h3skip : ((newL ++ rest.filterMap PlanStep.new_item).map key).Nodup := by
        refine h3.sublist (List.Sublist.map key ?_)
        refine List.Sublist.append_left ?_ newL
        rw [hnews_split]
        exact List.sublist_append_right _ _
      have h6skip : ∀ st' ∈ rest, ∀ n, st'.new_item = some n →
          ∀ x ∈ oldL, key x = key n → st'.old_item = some x :=
        fun st' hst' n hn x hx hkey => h6 st' (List.mem_cons_of_mem _ hst') n hn x hx hkey
      have h2skip : ∀ z ∈ rest.filterMap PlanStep.old_item, z ∈ oldL := by
        intro z hz
        refine h2 z ?_
        rw [List.filterMap_cons]
        cases st.old_item <;> simp [hz]
      -- the perm fact for a committed head
      have hpermhead : ∀ oldL' : List α, oldL₁.Perm (committed_old
            (commit_flags handler rest (k + 1)).1 ++ oldL') →
          oldL.Perm (st.old_item.toList ++ committed_old
            (commit_flags handler rest (k + 1)).1 ++ oldL') := by
        intro oldL' hp
        rcases hox : st.old_item with _ | x
        · simpa [hox] using (by simpa [holdL₁, hox] using hp)
        · have hx : x ∈ oldL := hstold_mem x hox
          refine (List.perm_cons_erase hx).trans ?_
          have : oldL.erase x = oldL₁ := by simp [holdL₁, hox]
          rw [this]
          simpa [hox] using hp.cons x
      rw [run_section, commit_flags]
      by_cases hinv : st.invokes = true
      · rw [if_pos hinv, if_pos hinv]
        rcases hhk : handler k with _ | _ | _
        · -- SUCCESS: commit then continue
          obtain ⟨oldL', newL', k', e', hdisj, hnewEq, hperm, hnod', hinv'⟩ :=
            ih oldL₁ newL₁ (k + 1) (execd + 1) h4₁ h5₁ h1₁ h2₁ h3₁ h6₁ h7₁
          refine ⟨oldL', newL', k', e', ?_, ?_, ?_, hnod', hinv'⟩
          · simpa [hupd] using hdisj
          · rw [hnewEq, committed_new_cons_true, hnewL₁, List.append_assoc]
          · rw [committed_old_cons_true, List.append_assoc]
            rw [← List.append_assoc]
            exact hpermhead oldL' hperm
        · -- SKIPPED: do not commit, continue
          obtain ⟨oldL', newL', k', e', hdisj, hnewEq, hperm, hnod', hinv'⟩ :=
            ih oldL newL (k + 1) (execd + 1) h4 h5 h1₁ h2skip h3skip h6skip h7₁
          refine ⟨oldL', newL', k', e', hdisj, ?_, ?_, hnod', hinv'⟩
          · rw [hnewEq, committed_new_cons_false]
          · rw [committed_old_cons_false]
            exact hperm
        · -- FAILED: stop without committing
          refine ⟨oldL, newL, k + 1, execd + 1, Or.inr ⟨rfl, rfl⟩, ?_, ?_, h4, h5⟩
          · rw [committed_new_cons_false, committed_new_all_false, List.append_nil]
          · rw [committed_old_cons_false, committed_old_all_false, List.nil_append]
      · -- no handler involvement: commit directly
        rw [if_neg hinv, if_neg hinv]
        obtain ⟨oldL', newL', k', e', hdisj, hnewEq, hperm, hnod', hinv'⟩ :=
          ih oldL₁ newL₁ k execd h4₁ h5₁ h1₁ h2₁ h3₁ h6₁ h7₁
        refine ⟨oldL', newL', k', e', ?_, ?_, ?_, hnod', hinv'⟩
        · simpa [hupd] using hdisj
        · rw [hnewEq, committed_new_cons_true, hnewL₁, List.append_assoc]
        · rw [committed_old_cons_true, List.append_assoc, ← List.append_assoc]
          -- same as hpermhead but at index k
          rcases hox : st.old_item with _ | x
          · simpa [hox] using (by simpa [holdL₁, hox] using hperm)
          · have hx : x ∈ oldL := hstold_mem x hox
            refine (List.perm_cons_erase hx).trans ?_
            have he : oldL.erase x = oldL₁ := by simp [holdL₁, hox]
            rw [he]
            simpa [hox] using hperm.cons x

end SysConf
namespace SysConf

theorem script_steps_olds (d : Diff String) :
    (script_steps d).filterMap PlanStep.old_item
      = d.exclusive_old ++ d.new.filter (fun it => decide (it ∈ d.intersection)) := by
  rw [script_steps, Diff.get_entries, List.map_append, List.filterMap_append]
  congr 1
  · rw [List.map_map, List.filterMap_map]
    exact filterMap_eq_map_of_forall _ _ id (fun a _ => rfl) |>.trans (List.map_id _)
  · rw [List.map_map, List.filterMap_map]
    induction d.new with
    | nil => rfl
    | cons a t ih =>
        rw [List.filterMap_cons, List.filter_cons]
        by_cases hmem : a ∈ d.intersection
        · simp [hmem, ih]
        · simp [hmem, ih]

theorem script_steps_news (d : Diff String) :
    (script_steps d).filterMap PlanStep.new_item = d.new := by
  rw [script_steps, Diff.get_entries, List.map_append, List.filterMap_append,
    List.map_map, List.filterMap_map, List.map_map, List.filterMap_map]
  refine Eq.trans (congrArg₂ HAppend.hAppend ?_ ?_) (List.nil_append _)
  · exact List.filterMap_eq_nil.mpr (fun a _ => rfl)
  · exact (filterMap_eq_map_of_forall _ _ id (fun a _ => rfl)).trans (List.map_id _)

theorem script_steps_sides (d : Diff String) :
    ∀ st ∈ script_steps d, st.old_item.isSome ∨ st.new_item.isSome := by
  intro st hst
  rw [script_steps, Diff.get_entries, List.map_append, List.map_map, List.map_map] at hst
  rcases List.mem_append.mp hst with h | h
  · obtain ⟨a, _, rfl⟩ := List.mem_map.mp h
    left; rfl
  · obtain ⟨a, _, rfl⟩ := List.mem_map.mp h
    right; rfl

end SysConf
namespace SysConf

theorem script_diff_olds (oldS newS : List String) :
    (script_steps (Diff.create_from_iterables oldS newS)).filterMap PlanStep.old_item
      = oldS.filter (fun it => decide (it ∉ newS))
        ++ newS.filter (fun it => decide (it ∈ oldS)) := by
  rw [script_steps_olds]
  simp only [Diff.create_from_iterables]
  congr 1
  exact List.filter_congr (fun a ha => decide_eq_decide.mpr
    ⟨fun h => of_decide_eq_true (List.mem_filter.mp h).2,
     fun h => List.mem_filter.mpr ⟨ha, decide_eq_true h⟩⟩)

theorem script_olds_perm (oldS newS : List String) (hold : oldS.Nodup)
    (hnew : newS.Nodup) :
    oldS.Perm ((script_steps (Diff.create_from_iterables oldS newS)).filterMap
      PlanStep.old_item) := by
  rw [script_diff_olds]
  have hnd : (oldS.filter (fun it => decide (it ∉ newS))
      ++ newS.filter (fun it => decide (it ∈ oldS))).Nodup := by
    refine List.Nodup.append (hold.filter _) (hnew.filter _)
      (List.disjoint_left.mpr ?_)
    intro a ha hb
    have h1 := of_decide_eq_true (List.mem_filter.mp ha).2
    exact h1 (List.mem_of_mem_filter hb)
  refine (List.perm_ext_iff_of_nodup hold hnd).mpr ?_
  intro a
  constructor
  · intro ha
    by_cases hn : a ∈ newS
    · exact List.mem_append.mpr (Or.inr
        (List.mem_filter.mpr ⟨hn, decide_eq_true ha⟩))
    · exact List.mem_append.mpr (Or.inl
        (List.mem_filter.mpr ⟨ha, decide_eq_true hn⟩))
  · intro hab
    rcases List.mem_append.mp hab with h | h
    · exact List.mem_of_mem_filter h
    · exact of_decide_eq_true (List.mem_filter.mp h).2

theorem script_steps_key (oldS newS : List String) :
    ∀ st ∈ script_steps (Diff.create_from_iterables oldS newS), ∀ n,
      st.new_item = some n → ∀ x ∈ oldS, id x = id n → st.old_item = some x := by
  intro st hst n hn x hx hkey
  rw [script_steps, Diff.get_entries, List.map_append, List.map_map,
    List.map_map] at hst
  rcases List.mem_append.mp hst with h | h
  · obtain ⟨a, _, rfl⟩ := List.mem_map.mp h
    exact absurd hn (by simp [Function.comp])
  · obtain ⟨a, ha, rfl⟩ := List.mem_map.mp h
    simp only [Function.comp_apply] at hn ⊢
    injection hn with hn
    simp only [id_eq] at hkey
    have hmem : a ∈ (Diff.create_from_iterables oldS newS).intersection := by
      simp only [Diff.create_from_iterables]
      exact List.mem_filter.mpr ⟨ha, decide_eq_true (hn.symm ▸ hkey ▸ hx)⟩
    rw [if_pos hmem, hn, hkey]

end SysConf
namespace SysConf

theorem newside_old_fun (oldE : List Entry) (n : Entry) :
    DomainAction.get_old_entry (match oldE.find? (fun o => o.get_id == n.get_id) with
      | some o => if o.valueY = n.valueY then DomainAction.noop o n
          else DomainAction.update o n
      | none => DomainAction.add n)
    = oldE.find? (fun o => o.get_id == n.get_id) := by
  cases hf : oldE.find? (fun o => o.get_id == n.get_id) with
  | none => rfl
  | some o =>
      dsimp only
      by_cases hv : o.valueY = n.valueY
      · rw [if_pos hv]; rfl
      · rw [if_neg hv]; rfl

theorem newside_new_fun (oldE : List Entry) (n : Entry) :
    DomainAction.get_new_entry (match oldE.find? (fun o => o.get_id == n.get_id) with
      | some o => if o.valueY = n.valueY then DomainAction.noop o n
          else DomainAction.update o n
      | none => DomainAction.add n)
    = some n := by
  cases hf : oldE.find? (fun o => o.get_id == n.get_id) with
  | none => rfl
  | some o =>
      dsimp only
      by_cases hv : o.valueY = n.valueY
      · rw [if_pos hv]; rfl
      · rw [if_neg hv]; rfl

theorem filterMap_eq_filterMap_of_forall {α β : Type} (l : List α)
    (f g : α → Option β) (h : ∀ a ∈ l, f a = g a) :
    l.filterMap f = l.filterMap g := by
  induction l with
  | nil => rfl
  | cons a t ih =>
      rw [List.filterMap_cons, List.filterMap_cons, h a (List.mem_cons_self _ _),
        ih (fun b hb => h b (List.mem_cons_of_mem _ hb))]

theorem domain_steps_olds (oldE newE : List Entry)
    (hold : (oldE.map Entry.get_id).Nodup)
    (hnew : (newE.map Entry.get_id).Nodup) :
    (domain_steps (get_domain_actions oldE newE)).filterMap PlanStep.old_item
      = (oldE.filter (fun e => decide (e.get_id ∉ newE.map Entry.get_id))).reverse
        ++ newE.filterMap (fun n => oldE.find? (fun o => o.get_id == n.get_id)) := by
  rw [get_domain_actions_split oldE newE hold hnew, domain_steps,
    List.map_append, List.filterMap_append, List.map_map, List.filterMap_map,
    List.map_map, List.filterMap_map]
  congr 1
  · exact (filterMap_eq_map_of_forall _ _ id (fun e _ => rfl)).trans (List.map_id _)
  · refine filterMap_eq_filterMap_of_forall _ _ _ ?_
    intro n _
    exact newside_old_fun oldE n

theorem domain_steps_news (oldE newE : List Entry)
    (hold : (oldE.map Entry.get_id).Nodup)
    (hnew : (newE.map Entry.get_id).Nodup) :
    (domain_steps (get_domain_actions oldE newE)).filterMap PlanStep.new_item
      = newE := by
  rw [get_domain_actions_split oldE newE hold hnew, domain_steps,
    List.map_append, List.filterMap_append, List.map_map, List.filterMap_map,
    List.map_map, List.filterMap_map]
  refine Eq.trans (congrArg₂ HAppend.hAppend ?_ ?_) (List.nil_append _)
  · exact List.filterMap_eq_nil.mpr (fun a _ => rfl)
  · refine (filterMap_eq_map_of_forall _ _ id ?_).trans (List.map_id _)
    intro n _
    exact newside_new_fun oldE n

theorem domain_steps_sides (oldE newE : List Entry)
    (hold : (oldE.map Entry.get_id).Nodup)
    (hnew : (newE.map Entry.get_id).Nodup) :
    ∀ st ∈ domain_steps (get_domain_actions oldE newE),
      st.old_item.isSome ∨ st.new_item.isSome := by
  intro st hst
  rw [get_domain_actions_split oldE newE hold hnew, domain_steps,
    List.map_append, List.map_map, List.map_map] at hst
  rcases List.mem_append.mp hst with h | h
  · obtain ⟨e, _, rfl⟩ := List.mem_map.mp h
    left; rfl
  · obtain ⟨n, _, rfl⟩ := List.mem_map.mp h
    right
    show (DomainAction.get_new_entry _).isSome = true
    rw [newside_new_fun oldE n]
    rfl

end SysConf
namespace SysConf

theorem finds_ids_sublist (oldE : List Entry) : ∀ (l : List Entry),
    ((l.filterMap (fun n => oldE.find? (fun o => o.get_id == n.get_id))).map
      Entry.get_id).Sublist (l.map Entry.get_id) := by
  intro l
  induction l with
  | nil => exact List.Sublist.refl _
  | cons n t ih =>
      rw [List.filterMap_cons, List.map_cons]
      cases hf : oldE.find? (fun o => o.get_id == n.get_id) with
      | none => exact ih.cons _
      | some o =>
          rw [List.map_cons]
          have hid : o.get_id = n.get_id := by
            have := List.find?_some hf
            exact beq_iff_eq.mp this
          rw [hid]
          exact ih.cons₂ _

theorem domain_olds_perm (oldE newE : List Entry)
    (hold : (oldE.map Entry.get_id).Nodup)
    (hnew : (newE.map Entry.get_id).Nodup) :
    oldE.Perm ((domain_steps (get_domain_actions oldE newE)).filterMap
      PlanStep.old_item) := by
  rw [domain_steps_olds oldE newE hold hnew]
  have holdE : oldE.Nodup := hold.of_map
  have hnd : ((oldE.filter
        (fun e => decide (e.get_id ∉ newE.map Entry.get_id))).reverse
      ++ newE.filterMap (fun n =>
        oldE.find? (fun o => o.get_id == n.get_id))).Nodup := by
    refine List.Nodup.append (List.nodup_reverse.mpr (holdE.filter _))
      (((finds_ids_sublist oldE newE).nodup hnew).of_map)
      (List.disjoint_left.mpr ?_)
    intro a ha hb
    have h1 : a.get_id ∉ newE.map Entry.get_id :=
      of_decide_eq_true (List.mem_filter.mp (List.mem_reverse.mp ha)).2
    obtain ⟨n, hn, hf⟩ := List.mem_filterMap.mp hb
    have hfp := List.find?_some hf
    have hid : a.get_id = n.get_id := by simpa using hfp
    exact h1 (hid ▸ List.mem_map_of_mem Entry.get_id hn)
  refine (List.perm_ext_iff_of_nodup holdE hnd).mpr ?_
  intro a
  constructor
  · intro ha
    by_cases hn : a.get_id ∈ newE.map Entry.get_id
    · obtain ⟨n, hnmem, hid⟩ := List.mem_map.mp hn
      refine List.mem_append.mpr (Or.inr (List.mem_filterMap.mpr ⟨n, hnmem, ?_⟩))
      have hpred : (fun o : Entry => o.get_id == n.get_id)
          = (fun o : Entry => o.get_id == a.get_id) := by
        funext o; rw [hid]
      rw [hpred]
      exact find_by_id oldE hold a ha
    · exact List.mem_append.mpr (Or.inl (List.mem_reverse.mpr
        (List.mem_filter.mpr ⟨ha, decide_eq_true hn⟩)))
  · intro hab
    rcases List.mem_append.mp hab with h | h
    · exact List.mem_of_mem_filter (List.mem_reverse.mp h)
    · obtain ⟨n, _, hf⟩ := List.mem_filterMap.mp h
      exact List.mem_of_find?_eq_some hf

theorem domain_steps_key (oldE newE : List Entry)
    (hold : (oldE.map Entry.get_id).Nodup)
    (hnew : (newE.map Entry.get_id).Nodup) :
    ∀ st ∈ domain_steps (get_domain_actions oldE newE), ∀ n,
      st.new_item = some n → ∀ x ∈ oldE, x.get_id = n.get_id →
      st.old_item = some x := by
  intro st hst n hn x hx hkey
  rw [get_domain_actions_split oldE newE hold hnew, domain_steps,
    List.map_append, List.map_map, List.map_map] at hst
  rcases List.mem_append.mp hst with h | h
  · obtain ⟨e, _, rfl⟩ := List.mem_map.mp h
    exact absurd hn (by simp [Function.comp, DomainAction.get_new_entry])
  · obtain ⟨m, hm, rfl⟩ := List.mem_map.mp h
    simp only [Function.comp_apply] at hn ⊢
    rw [newside_new_fun oldE m] at hn
    injection hn with hn
    show DomainAction.get_old_entry _ = some x
    rw [newside_old_fun oldE m]
    have hpred : (fun o : Entry => o.get_id == m.get_id)
        = (fun o : Entry => o.get_id == x.get_id) := by
      funext o; rw [hn, ← hkey]
    rw [hpred]
    exact find_by_id oldE hold x hx

end SysConf
namespace SysConf

theorem section_old_perm {α : Type} (handler : Nat → Status)
    (steps : List (PlanStep α)) (k : Nat) (oldL oldL' : List α)
    (hsteps : oldL.Perm (steps.filterMap PlanStep.old_item))
    (hperm : oldL.Perm (committed_old (commit_flags handler steps k).1 ++ oldL')) :
    oldL'.Perm (uncommitted_old (commit_flags handler steps k).1) := by
  have h1 : (steps.filterMap PlanStep.old_item).Perm
      (committed_old (commit_flags handler steps k).1 ++
       uncommitted_old (commit_flags handler steps k).1) := by
    have h2 := olds_split (commit_flags handler steps k).1
    rw [commit_flags_fst handler steps k] at h2
    exact h2
  have h3 : (committed_old (commit_flags handler steps k).1 ++ oldL').Perm
      (committed_old (commit_flags handler steps k).1 ++
       uncommitted_old (commit_flags handler steps k).1) :=
    hperm.symm.trans (hsteps.trans h1)
  exact (List.perm_append_left_iff _).mp h3

end SysConf
namespace SysConf

/-- **C1.**  For every plan with changes, `run_actions` commits exactly the
`SUCCESS` and non-invoking steps and keeps the old side of every other
step: the configuration it returns holds, per section, the new-side items
of the committed steps followed by (a permutation of) the old-side items of
the uncommitted steps — whether every section ran to completion or a
`FAILED` answer stopped the loop partway. -/
theorem run_actions_partial_failure (old_config new_config : SystemConfig)
    (handler : Nat → Status)
    (hBo : old_config.before_actions.Nodup) (hBn : new_config.before_actions.Nodup)
    (hAo : old_config.after_actions.Nodup) (hAn : new_config.after_actions.Nodup)
    (hEo : (old_config.config_entries.map Entry.get_id).Nodup)
    (hEn : (new_config.config_entries.map Entry.get_id).Nodup)
    (hch : (decide (old_config.before_actions ≠ new_config.before_actions)
      || decide (old_config.after_actions ≠ new_config.after_actions)
      || (get_domain_actions old_config.config_entries
            new_config.config_entries).any (fun a => !a.isNoop)) = true) :
    (run_actions old_config new_config handler).printed_no_changes = false ∧
    ∃ cfg, (run_actions old_config new_config handler).config = some cfg ∧
      cfg.before_actions.Perm
        (committed_new (plan_flags old_config new_config handler).1 ++
         uncommitted_old (plan_flags old_config new_config handler).1) ∧
      cfg.config_entries.Perm
        (committed_new (plan_flags old_config new_config handler).2.1 ++
         uncommitted_old (plan_flags old_config new_config handler).2.1) ∧
      cfg.after_actions.Perm
        (committed_new (plan_flags old_config new_config handler).2.2 ++
         uncommitted_old (plan_flags old_config new_config handler).2.2) := by
  have hch' : (decide ((Diff.create_from_iterables old_config.before_actions
        new_config.before_actions).old ≠ (Diff.create_from_iterables
        old_config.before_actions new_config.before_actions).new)
      || decide ((Diff.create_from_iterables old_config.after_actions
        new_config.after_actions).old ≠ (Diff.create_from_iterables
        old_config.after_actions new_config.after_actions).new)
      || (get_domain_actions old_config.config_entries
          new_config.config_entries).any (fun a => !a.isNoop)) = true := hch
  rw [run_actions, plan_flags]
  simp only [hch', SystemConfigInterpolator.create_from_system_config]
  rw [if_neg (show ¬ (true = false) by decide)]
  obtain ⟨oB, nB, kB, eB, houtB, hnewB, hpermB, hndB, hinvB⟩ :=
    run_section_spec handler id (script_steps (Diff.create_from_iterables
        old_config.before_actions new_config.before_actions))
      old_config.before_actions [] 0 0
      hBo (by simpa using hBo)
      ((script_olds_perm _ _ hBo hBn).nodup hBo)
      (fun x hx => (script_olds_perm _ _ hBo hBn).mem_iff.mpr hx)
      (by rw [List.nil_append, script_steps_news]
          simpa [Diff.create_from_iterables] using hBn)
      (script_steps_key _ _)
      (script_steps_sides _)
  rcases houtB with ⟨hrunB, hkB⟩ | ⟨hrunB, hkB⟩
  · -- before section ran to completion
    rw [hrunB, hkB]
    dsimp only
    obtain ⟨oD, nD, kD, eD, houtD, hnewD, hpermD, hndD, hinvD⟩ :=
      run_section_spec handler Entry.get_id
        (domain_steps (get_domain_actions old_config.config_entries
          new_config.config_entries))
        old_config.config_entries [] kB eB
        hEo.of_map (by simpa using hEo)
        ((domain_olds_perm _ _ hEo hEn).nodup hEo.of_map)
        (fun x hx => (domain_olds_perm _ _ hEo hEn).mem_iff.mpr hx)
        (by rw [List.nil_append, domain_steps_news _ _ hEo hEn]
            simpa using hEn)
        (domain_steps_key _ _ hEo hEn)
        (domain_steps_sides _ _ hEo hEn)
    rcases houtD with ⟨hrunD, hkD⟩ | ⟨hrunD, hkD⟩
    · -- domain section ran to completion
      rw [hrunD, hkD]
      dsimp only
      obtain ⟨oA, nA, kA, eA, houtA, hnewA, hpermA, hndA, hinvA⟩ :=
        run_section_spec handler id (script_steps (Diff.create_from_iterables
            old_config.after_actions new_config.after_actions))
          old_config.after_actions [] kD eD
          hAo (by simpa using hAo)
          ((script_olds_perm _ _ hAo hAn).nodup hAo)
          (fun x hx => (script_olds_perm _ _ hAo hAn).mem_iff.mpr hx)
          (by rw [List.nil_append, script_steps_news]
              simpa [Diff.create_from_iterables] using hAn)
          (script_steps_key _ _)
          (script_steps_sides _)
      have hbefore : (nB ++ oB).Perm
          (committed_new (commit_flags handler (script_steps
              (Diff.create_from_iterables old_config.before_actions
                new_config.before_actions)) 0).1 ++
           uncommitted_old (commit_flags handler (script_steps
              (Diff.create_from_iterables old_config.before_actions
                new_config.before_actions)) 0).1) := by
        rw [hnewB, List.nil_append]
        exact List.Perm.append_left _ (section_old_perm handler _ 0 _ oB
          (script_olds_perm _ _ hBo hBn) hpermB)
      have hentries : (nD ++ oD).Perm
          (committed_new (commit_flags handler (domain_steps (get_domain_actions
              old_config.config_entries new_config.config_entries)) kB).1 ++
           uncommitted_old (commit_flags handler (domain_steps (get_domain_actions
              old_config.config_entries new_config.config_entries)) kB).1) := by
        rw [hnewD, List.nil_append]
        exact List.Perm.append_left _ (section_old_perm handler _ kB _ oD
          (domain_olds_perm _ _ hEo hEn) hpermD)
      rcases houtA with ⟨hrunA, hkA⟩ | ⟨hrunA, hkA⟩
      · -- after section ran to completion as well
        rw [hrunA]
        refine ⟨rfl, ?_⟩
        dsimp only
        rw [SystemConfigInterpolator.get_system_config]
        dsimp only
        rw [SystemConfig.create_from_entries, if_pos (show (List.map Entry.get_id
          (nD ++ oD)).Nodup from hinvD)]
        refine ⟨_, rfl, hbefore, hentries, ?_⟩
        rw [hnewA, List.nil_append]
        exact List.Perm.append_left _ (section_old_perm handler _ kD _ oA
          (script_olds_perm _ _ hAo hAn) hpermA)
      · -- stopped in the after section
        rw [hrunA]
        refine ⟨rfl, ?_⟩
        dsimp only
        rw [SystemConfigInterpolator.get_system_config]
        dsimp only
        rw [SystemConfig.create_from_entries, if_pos (show (List.map Entry.get_id
          (nD ++ oD)).Nodup from hinvD)]
        refine ⟨_, rfl, hbefore, hentries, ?_⟩
        rw [hnewA, List.nil_append]
        exact List.Perm.append_left _ (section_old_perm handler _ kD _ oA
          (script_olds_perm _ _ hAo hAn) hpermA)
    · -- stopped in the domain section
      rw [hrunD, hkD]
      refine ⟨rfl, ?_⟩
      dsimp only
      rw [SystemConfigInterpolator.get_system_config]
      dsimp only
      rw [SystemConfig.create_from_entries, if_pos (show (List.map Entry.get_id
        (nD ++ oD)).Nodup from hinvD)]
      refine ⟨_, rfl, ?_, ?_, ?_⟩
      · rw [hnewB, List.nil_append]
        exact List.Perm.append_left _ (section_old_perm handler _ 0 _ oB
          (script_olds_perm _ _ hBo hBn) hpermB)
      · rw [hnewD, List.nil_append]
        exact List.Perm.append_left _ (section_old_perm handler _ kB _ oD
          (domain_olds_perm _ _ hEo hEn) hpermD)
      · rw [committed_new_all_false, uncommitted_old_all_false, List.nil_append,
          List.nil_append]
        exact script_olds_perm _ _ hAo hAn
  · -- stopped in the before section
    rw [hrunB, hkB]
    refine ⟨rfl, ?_⟩
    dsimp only
    rw [SystemConfigInterpolator.get_system_config]
    dsimp only
    rw [SystemConfig.create_from_entries, if_pos (show (List.map Entry.get_id
      ([] ++ old_config.config_entries)).Nodup by simpa using hEo)]
    refine ⟨_, rfl, ?_, ?_, ?_⟩
    · rw [hnewB, List.nil_append]
      exact List.Perm.append_left _ (section_old_perm handler _ 0 _ oB
        (script_olds_perm _ _ hBo hBn) hpermB)
    · rw [committed_new_all_false, uncommitted_old_all_false, List.nil_append,
        List.nil_append]
      exact domain_olds_perm _ _ hEo hEn
    · rw [committed_new_all_false, uncommitted_old_all_false, List.nil_append,
        List.nil_append]
      exact script_olds_perm _ _ hAo hAn

end SysConf
namespace SysConf

/-- Closed witness for `run_actions_partial_failure`: a concrete pair of
configurations differing in every section, with a handler that fails the
very first step. -/
theorem run_actions_partial_failure_witness :
    (SystemConfig.mk ["ob"] ["oa"] [Entry.listE ⟨"apt", DomainKind.list, 0, true⟩ [] "p"] []).before_actions.Nodup ∧
    (SystemConfig.mk ["nb"] ["na"] [Entry.listE ⟨"apt", DomainKind.list, 0, true⟩ [] "q"] []).before_actions.Nodup ∧
    (SystemConfig.mk ["ob"] ["oa"] [Entry.listE ⟨"apt", DomainKind.list, 0, true⟩ [] "p"] []).after_actions.Nodup ∧
    (SystemConfig.mk ["nb"] ["na"] [Entry.listE ⟨"apt", DomainKind.list, 0, true⟩ [] "q"] []).after_actions.Nodup ∧
    ((SystemConfig.mk ["ob"] ["oa"] [Entry.listE ⟨"apt", DomainKind.list, 0, true⟩ [] "p"] []).config_entries.map Entry.get_id).Nodup ∧
    ((SystemConfig.mk ["nb"] ["na"] [Entry.listE ⟨"apt", DomainKind.list, 0, true⟩ [] "q"] []).config_entries.map Entry.get_id).Nodup ∧
    (decide ((SystemConfig.mk ["ob"] ["oa"] [Entry.listE ⟨"apt", DomainKind.list, 0, true⟩ [] "p"] []).before_actions ≠ (SystemConfig.mk ["nb"] ["na"] [Entry.listE ⟨"apt", DomainKind.list, 0, true⟩ [] "q"] []).before_actions)
      || decide ((SystemConfig.mk ["ob"] ["oa"] [Entry.listE ⟨"apt", DomainKind.list, 0, true⟩ [] "p"] []).after_actions ≠ (SystemConfig.mk ["nb"] ["na"] [Entry.listE ⟨"apt", DomainKind.list, 0, true⟩ [] "q"] []).after_actions)
      || (get_domain_actions (SystemConfig.mk ["ob"] ["oa"] [Entry.listE ⟨"apt", DomainKind.list, 0, true⟩ [] "p"] []).config_entries
            (SystemConfig.mk ["nb"] ["na"] [Entry.listE ⟨"apt", DomainKind.list, 0, true⟩ [] "q"] []).config_entries).any (fun a => !a.isNoop)) = true ∧
    ((run_actions (SystemConfig.mk ["ob"] ["oa"] [Entry.listE ⟨"apt", DomainKind.list, 0, true⟩ [] "p"] []) (SystemConfig.mk ["nb"] ["na"] [Entry.listE ⟨"apt", DomainKind.list, 0, true⟩ [] "q"] []) (fun _ => Status.FAILED)).printed_no_changes = false ∧
      ∃ cfg, (run_actions (SystemConfig.mk ["ob"] ["oa"] [Entry.listE ⟨"apt", DomainKind.list, 0, true⟩ [] "p"] []) (SystemConfig.mk ["nb"] ["na"] [Entry.listE ⟨"apt", DomainKind.list, 0, true⟩ [] "q"] []) (fun _ => Status.FAILED)).config = some cfg ∧
        cfg.before_actions.Perm
          (committed_new (plan_flags (SystemConfig.mk ["ob"] ["oa"] [Entry.listE ⟨"apt", DomainKind.list, 0, true⟩ [] "p"] []) (SystemConfig.mk ["nb"] ["na"] [Entry.listE ⟨"apt", DomainKind.list, 0, true⟩ [] "q"] []) (fun _ => Status.FAILED)).1 ++ uncommitted_old (plan_flags (SystemConfig.mk ["ob"] ["oa"] [Entry.listE ⟨"apt", DomainKind.list, 0, true⟩ [] "p"] []) (SystemConfig.mk ["nb"] ["na"] [Entry.listE ⟨"apt", DomainKind.list, 0, true⟩ [] "q"] []) (fun _ => Status.FAILED)).1) ∧
        cfg.config_entries.Perm
          (committed_new (plan_flags (SystemConfig.mk ["ob"] ["oa"] [Entry.listE ⟨"apt", DomainKind.list, 0, true⟩ [] "p"] []) (SystemConfig.mk ["nb"] ["na"] [Entry.listE ⟨"apt", DomainKind.list, 0, true⟩ [] "q"] []) (fun _ => Status.FAILED)).2.1 ++ uncommitted_old (plan_flags (SystemConfig.mk ["ob"] ["oa"] [Entry.listE ⟨"apt", DomainKind.list, 0, true⟩ [] "p"] []) (SystemConfig.mk ["nb"] ["na"] [Entry.listE ⟨"apt", DomainKind.list, 0, true⟩ [] "q"] []) (fun _ => Status.FAILED)).2.1) ∧
        cfg.after_actions.Perm
          (committed_new (plan_flags (SystemConfig.mk ["ob"] ["oa"] [Entry.listE ⟨"apt", DomainKind.list, 0, true⟩ [] "p"] []) (SystemConfig.mk ["nb"] ["na"] [Entry.listE ⟨"apt", DomainKind.list, 0, true⟩ [] "q"] []) (fun _ => Status.FAILED)).2.2 ++ uncommitted_old (plan_flags (SystemConfig.mk ["ob"] ["oa"] [Entry.listE ⟨"apt", DomainKind.list, 0, true⟩ [] "p"] []) (SystemConfig.mk ["nb"] ["na"] [Entry.listE ⟨"apt", DomainKind.list, 0, true⟩ [] "q"] []) (fun _ => Status.FAILED)).2.2)) :=
  ⟨by decide, by decide, by decide, by decide, by decide, by decide, by decide,
    run_actions_partial_failure (SystemConfig.mk ["ob"] ["oa"] [Entry.listE ⟨"apt", DomainKind.list, 0, true⟩ [] "p"] []) (SystemConfig.mk ["nb"] ["na"] [Entry.listE ⟨"apt", DomainKind.list, 0, true⟩ [] "q"] []) (fun _ => Status.FAILED)
      (by decide) (by decide) (by decide) (by decide) (by decide) (by decide)
      (by decide)⟩

end SysConf
namespace SysConf

/-- **C8.**  (Amended.)  The `domains` mapping of a document is parsed
without consulting the builtin registry: whenever its declarations parse —
including a declaration whose key equals a builtin key — and the rest of
the document parses, `parse_data` succeeds, the declarations appear
verbatim in the parsed configuration, and entry parsing resolves every
declared key to the *user* domain (the builtin is silently shadowed). -/
theorem parse_data_user_shadowing (fields₀ : List (String × Yaml))
    (cv : Yaml) (user_domain_specs : List (String × Yaml))
    (before_scripts after_scripts config_items : List Yaml)
    (user_domains : List UserDomain)
    (before_actions after_actions : List String)
    (entry_groups : List (List Entry)) (cfg : SystemConfig)
    (hcfgkey : lookupY (fields₀.filter (fun kv => kv.1 ≠ "version")) "config"
      = some cv)
    (hdom : getOrDefault (fields₀.filter (fun kv => kv.1 ≠ "version")) "domains"
        (Yaml.map []) = Yaml.map user_domain_specs)
    (hbefore : getOrDefault (fields₀.filter (fun kv => kv.1 ≠ "version")) "before"
        (Yaml.list []) = Yaml.list before_scripts)
    (hafter : getOrDefault (fields₀.filter (fun kv => kv.1 ≠ "version")) "after"
        (Yaml.list []) = Yaml.list after_scripts)
    (hconfig : getOrDefault (fields₀.filter (fun kv => kv.1 ≠ "version")) "config"
        (Yaml.list []) = Yaml.list config_items)
    (hud : user_domain_specs.mapM (fun kv => parse_user_domain kv.1 kv.2)
      = some user_domains)
    (hba : before_scripts.mapM (fun v =>
        match v with | .s script => some script | _ => none) = some before_actions)
    (haa : after_scripts.mapM (fun v =>
        match v with | .s script => some script | _ => none) = some after_actions)
    (heg : config_items.mapM (fun config_item =>
        match config_item with
        | Yaml.map tasks =>
            (tasks.mapM (fun kv : String × Yaml =>
              match resolve_domain user_domains kv.1 with
              | some info => domain_entries info kv.2
              | _ => none) : Option (List (List Entry))).bind
              (fun groups => some groups.flatten)
        | _ => none) = some entry_groups)
    (hcr : SystemConfig.create_from_entries before_actions after_actions
      entry_groups.flatten user_domains = some cfg) :
    parse_data (Yaml.map fields₀) = some cfg ∧
    cfg.user_domains = user_domains ∧
    ∀ k d, user_domains.find? (fun u => u.key == k) = some d →
      resolve_domain user_domains k = some d.info := by
  refine ⟨?_, ?_, ?_⟩
  · rw [parse_data]
    simp only [hcfgkey, hdom, hbefore, hafter, hconfig, hud, hba, haa, heg,
      Option.pure_def, Option.bind_eq_bind, Option.some_bind]
    exact hcr
  · rw [SystemConfig.create_from_entries] at hcr
    by_cases hnd : ((entry_groups.flatten).map Entry.get_id).Nodup
    · rw [if_pos hnd] at hcr
      injection hcr with hcr
      rw [← hcr]
    · rw [if_neg hnd] at hcr
      exact absurd hcr (by simp)
  · intro k d hfind
    rw [resolve_domain, hfind]

end SysConf
namespace SysConf

/-- Counterexample to the frozen C8: a document whose `domains` mapping
declares the builtin key `apt` is *accepted* by the parser — no
duplicate-key error — and its config entry is parsed with the user
declaration's shape (a map of depth 1, not the builtin list domain): the
user declaration silently shadows the builtin. -/
theorem parse_builtin_shadow_counterexample :
    parse_data (Yaml.map [("config", Yaml.list [Yaml.map [("apt", Yaml.map [("k", Yaml.s "v")])]]), ("domains", Yaml.map [("apt", Yaml.map [("type", Yaml.s "map"), ("add", Yaml.s "A"), ("update", Yaml.s "U"), ("remove", Yaml.s "R")])])])
      = some (⟨[], [], [Entry.mapE ⟨"apt", DomainKind.map, 1, true⟩ ["k"] (Yaml.s "v")], [(⟨"apt", DomainKind.map, 1, "A", some "U", "R"⟩ : UserDomain)]⟩ : SystemConfig) ∧
    (builtin_domains.find? (fun d => d.key == "apt")).isSome = true :=
  ⟨rfl, rfl⟩

/-- Closed witness for `parse_data_user_shadowing` on the shadowing
document of the counterexample. -/
theorem parse_data_user_shadowing_witness :
    ([("apt", Yaml.map [("type", Yaml.s "map"), ("add", Yaml.s "A"), ("update", Yaml.s "U"), ("remove", Yaml.s "R")])].mapM (fun kv => parse_user_domain kv.1 kv.2) = some [(⟨"apt", DomainKind.map, 1, "A", some "U", "R"⟩ : UserDomain)]) ∧
    (parse_data (Yaml.map [("config", Yaml.list [Yaml.map [("apt", Yaml.map [("k", Yaml.s "v")])]]), ("domains", Yaml.map [("apt", Yaml.map [("type", Yaml.s "map"), ("add", Yaml.s "A"), ("update", Yaml.s "U"), ("remove", Yaml.s "R")])])]) = some (⟨[], [], [Entry.mapE ⟨"apt", DomainKind.map, 1, true⟩ ["k"] (Yaml.s "v")], [(⟨"apt", DomainKind.map, 1, "A", some "U", "R"⟩ : UserDomain)]⟩ : SystemConfig) ∧
      ((⟨[], [], [Entry.mapE ⟨"apt", DomainKind.map, 1, true⟩ ["k"] (Yaml.s "v")], [(⟨"apt", DomainKind.map, 1, "A", some "U", "R"⟩ : UserDomain)]⟩ : SystemConfig)).user_domains = [(⟨"apt", DomainKind.map, 1, "A", some "U", "R"⟩ : UserDomain)] ∧
      ∀ k d, ([(⟨"apt", DomainKind.map, 1, "A", some "U", "R"⟩ : UserDomain)] : List UserDomain).find? (fun u => u.key == k) = some d →
        resolve_domain [(⟨"apt", DomainKind.map, 1, "A", some "U", "R"⟩ : UserDomain)] k = some d.info) :=
  ⟨rfl, parse_data_user_shadowing
    [("config", Yaml.list [Yaml.map [("apt", Yaml.map [("k", Yaml.s "v")])]]), ("domains", Yaml.map [("apt", Yaml.map [("type", Yaml.s "map"), ("add", Yaml.s "A"), ("update", Yaml.s "U"), ("remove", Yaml.s "R")])])] (Yaml.list [Yaml.map [("apt", Yaml.map [("k", Yaml.s "v")])]]) [("apt", Yaml.map [("type", Yaml.s "map"), ("add", Yaml.s "A"), ("update", Yaml.s "U"), ("remove", Yaml.s "R")])] [] [] [Yaml.map [("apt", Yaml.map [("k", Yaml.s "v")])]] [(⟨"apt", DomainKind.map, 1, "A", some "U", "R"⟩ : UserDomain)] [] []
    [[Entry.mapE ⟨"apt", DomainKind.map, 1, true⟩ ["k"] (Yaml.s "v")]] (⟨[], [], [Entry.mapE ⟨"apt", DomainKind.map, 1, true⟩ ["k"] (Yaml.s "v")], [(⟨"apt", DomainKind.map, 1, "A", some "U", "R"⟩ : UserDomain)]⟩ : SystemConfig)
    rfl rfl rfl rfl rfl rfl rfl rfl rfl rfl⟩

end SysConf
namespace SysConf

theorem foldl_dedup_nodup {γ : Type} [DecidableEq γ] (heads : List γ) :
    ∀ acc : List γ, acc.Nodup →
      (heads.foldl (fun acc k => if k ∈ acc then acc else acc ++ [k]) acc).Nodup := by
  induction heads with
  | nil => intro acc h; exact h
  | cons k t ih =>
      intro acc h
      rw [List.foldl_cons]
      by_cases hk : k ∈ acc
      · rw [if_pos hk]; exact ih acc h
      · rw [if_neg hk]
        exact ih _ (by simp [List.nodup_append, h, hk])

theorem foldl_dedup_mem {γ : Type} [DecidableEq γ] (heads : List γ) :
    ∀ (acc : List γ) (k : γ), k ∈ acc ∨ k ∈ heads →
      k ∈ heads.foldl (fun acc k => if k ∈ acc then acc else acc ++ [k]) acc := by
  induction heads with
  | nil =>
      intro acc k hk
      rcases hk with h | h
      · exact h
      · simp at h
  | cons k₀ t ih =>
      intro acc k hk
      rw [List.foldl_cons]
      by_cases hk₀ : k₀ ∈ acc
      · rw [if_pos hk₀]
        refine ih acc k ?_
        rcases hk with h | h
        · exact Or.inl h
        · rcases List.mem_cons.mp h with rfl | h
          · exact Or.inl hk₀
          · exact Or.inr h
      · rw [if_neg hk₀]
        refine ih _ k ?_
        rcases hk with h | h
        · exact Or.inl (List.mem_append.mpr (Or.inl h))
        · rcases List.mem_cons.mp h with rfl | h
          · exact Or.inl (List.mem_append.mpr (Or.inr (List.mem_singleton.mpr rfl)))
          · exact Or.inr h

theorem foldl_dedup_subset {γ : Type} [DecidableEq γ] (heads : List γ) :
    ∀ (acc : List γ) (k : γ),
      k ∈ heads.foldl (fun acc k => if k ∈ acc then acc else acc ++ [k]) acc →
      k ∈ acc ∨ k ∈ heads := by
  induction heads with
  | nil => intro acc k hk; exact Or.inl hk
  | cons k₀ t ih =>
      intro acc k hk
      rw [List.foldl_cons] at hk
      by_cases hk₀ : k₀ ∈ acc
      · rw [if_pos hk₀] at hk
        rcases ih acc k hk with h | h
        · exact Or.inl h
        · exact Or.inr (List.mem_cons_of_mem _ h)
      · rw [if_neg hk₀] at hk
        rcases ih _ k hk with h | h
        · rcases List.mem_append.mp h with h | h
          · exact Or.inl h
          · exact Or.inr (List.mem_cons.mpr (Or.inl (List.mem_singleton.mp h)))
        · exact Or.inr (List.mem_cons_of_mem _ h)

theorem first_segments_nodup (assigns : List (Path × Yaml)) :
    (first_segments assigns).Nodup :=
  foldl_dedup_nodup _ [] List.nodup_nil

theorem first_segments_mem (assigns : List (Path × Yaml)) (pv : Path × Yaml)
    (hmem : pv ∈ assigns) : pv.1.headI ∈ first_segments assigns :=
  foldl_dedup_mem _ [] _ (Or.inr (by
    exact List.mem_map.mpr ⟨pv, hmem, rfl⟩))

theorem keys_filter_partition {β κ : Type} [DecidableEq κ] (ks : List κ)
    (f : β → κ) :
    ∀ l : List β, ks.Nodup → (∀ x ∈ l, f x ∈ ks) →
      (ks.flatMap (fun k => l.filter (fun x => decide (f x = k)))).Perm l := by
  induction ks with
  | nil =>
      intro l _ hcov
      cases l with
      | nil => exact List.Perm.refl _
      | cons x t => exact absurd (hcov x (List.mem_cons_self _ _)) (by simp)
  | cons k ks' ih =>
      intro l hnd hcov
      rw [List.flatMap_cons]
      have hsplit := List.filter_append_perm (fun x => decide (f x = k)) l
      have hrest : (ks'.flatMap (fun k' =>
            l.filter (fun x => decide (f x = k')))).Perm
          (l.filter (fun x => !(decide (f x = k)))) := by
        have heq : ∀ k' ∈ ks', l.filter (fun x => decide (f x = k'))
            = (l.filter (fun x => !(decide (f x = k)))).filter
                (fun x => decide (f x = k')) := by
          intro k' hk'
          rw [List.filter_filter]
          refine List.filter_congr ?_
          intro x _
          by_cases hfx : f x = k'
          · have hkk : ¬ k' = k := by
              intro hkk
              exact (List.nodup_cons.mp hnd).1 (hkk ▸ hk')
            have hne : f x ≠ k := by rw [hfx]; exact hkk
            simp [hfx, hne, hkk]
          · simp [hfx]
        have hcong : ks'.flatMap (fun k' => l.filter (fun x => decide (f x = k')))
            = ks'.flatMap (fun k' => (l.filter (fun x =>
                !(decide (f x = k)))).filter (fun x => decide (f x = k'))) := by
          refine List.flatMap_congr ?_
          intro k' hk'
          exact heq k' hk'
        rw [hcong]
        refine ih _ (List.nodup_cons.mp hnd).2 ?_
        intro x hx
        have hxl := List.mem_of_mem_filter hx
        have hne := (List.mem_filter.mp hx).2
        rcases List.mem_cons.mp (hcov x hxl) with rfl | h
        · simp at hne
        · exact h
      exact (hrest.append_left _).trans hsplit

end SysConf
namespace SysConf

theorem children_map_cons (k : String) :
    ∀ l : List (Path × Yaml), (∀ pv ∈ l, pv.1 ≠ []) →
      ((l.filterMap (fun pv => match pv.1 with
          | k' :: ps => if k' = k then some ((ps : Path), pv.2) else none
          | [] => none)).map (fun pv => ((k :: pv.1 : Path), pv.2)))
        = l.filter (fun pv => decide (pv.1.headI = k)) := by
  intro l
  induction l with
  | nil => intro _; rfl
  | cons pv t ih =>
      intro hne
      obtain ⟨p₀, v₀⟩ := pv
      cases hp : p₀ with
      | nil => exact absurd hp (hne (p₀, v₀) (List.mem_cons_self _ _))
      | cons q ps =>
          subst hp
          by_cases hqk : q = k
          · have hfx : (fun pv : Path × Yaml => match pv.1 with
                | k' :: ps => if k' = k then some ((ps : Path), pv.2) else none
                | [] => none) ((q :: ps : Path), v₀) = some ((ps : Path), v₀) := by
              show (if q = k then some ((ps : Path), v₀) else none) = _
              rw [if_pos hqk]
            rw [@List.filterMap_cons_some (Path × Yaml) (Path × Yaml)
              (fun pv : Path × Yaml => match pv.1 with
                | k' :: ps => if k' = k then some ((ps : Path), pv.2) else none
                | [] => none) ((q :: ps : Path), v₀) t ((ps : Path), v₀) hfx,
              List.filter_cons,
              if_pos (show decide ((((q :: ps : Path), v₀) :
                  Path × Yaml).1.headI = k) = true by simp [hqk])]
            rw [List.map_cons, ih (fun x hx => hne x (List.mem_cons_of_mem _ hx)),
              hqk]
          · have hfx : (fun pv : Path × Yaml => match pv.1 with
                | k' :: ps => if k' = k then some ((ps : Path), pv.2) else none
                | [] => none) ((q :: ps : Path), v₀) = none := by
              show (if q = k then some ((ps : Path), v₀) else none) = _
              rw [if_neg hqk]
            rw [@List.filterMap_cons_none (Path × Yaml) (Path × Yaml)
              (fun pv : Path × Yaml => match pv.1 with
                | k' :: ps => if k' = k then some ((ps : Path), pv.2) else none
                | [] => none) ((q :: ps : Path), v₀) t hfx,
              List.filter_cons,
              if_neg (show ¬ (decide ((((q :: ps : Path), v₀) :
                  Path × Yaml).1.headI = k) = true) by simp [hqk])]
            exact ih (fun x hx => hne x (List.mem_cons_of_mem _ hx))

theorem children_lengths (k : String) (d : Nat) (l : List (Path × Yaml))
    (hlen : ∀ pv ∈ l, pv.1.length = d + 1) :
    ∀ pv ∈ l.filterMap (fun pv => match pv.1 with
        | k' :: ps => if k' = k then some ((ps : Path), pv.2) else none
        | [] => none), pv.1.length = d := by
  intro pv hpv
  obtain ⟨⟨p₀, v₀⟩, hmem, hf⟩ := List.mem_filterMap.mp hpv
  cases hp₀ : p₀ with
  | nil => rw [hp₀] at hf; exact absurd hf (by simp)
  | cons q ps =>
      rw [hp₀] at hf
      simp only at hf
      by_cases hqk : q = k
      · rw [if_pos hqk] at hf
        injection hf with hf
        have := hlen ⟨p₀, v₀⟩ hmem
        rw [hp₀] at this
        simp only [List.length_cons] at this
        rw [← hf]
        simpa using this
      · rw [if_neg hqk] at hf
        exact absurd hf (by simp)

theorem children_nodup (k : String) (l : List (Path × Yaml))
    (hne : ∀ pv ∈ l, pv.1 ≠ []) (hnd : (l.map Prod.fst).Nodup) :
    ((l.filterMap (fun pv => match pv.1 with
        | k' :: ps => if k' = k then some ((ps : Path), pv.2) else none
        | [] => none)).map Prod.fst).Nodup := by
  have heq := children_map_cons k l hne
  have h1 : ((l.filter (fun pv =>
      decide (pv.1.headI = k))).map Prod.fst).Nodup :=
    ((List.filter_sublist l).map Prod.fst).nodup hnd
  rw [← heq, List.map_map] at h1
  have h2 : ((l.filterMap (fun pv => match pv.1 with
      | k' :: ps => if k' = k then some ((ps : Path), pv.2) else none
      | [] => none)).map (fun pv => (k :: pv.1 : Path))).Nodup := by
    have : (Prod.fst ∘ fun pv : Path × Yaml => ((k :: pv.1 : Path), pv.2))
        = fun pv : Path × Yaml => (k :: pv.1 : Path) := rfl
    rwa [this] at h1
  have h3 : ((l.filterMap (fun pv => match pv.1 with
      | k' :: ps => if k' = k then some ((ps : Path), pv.2) else none
      | [] => none)).map Prod.fst).map (fun p : Path => (k :: p : Path))
      |>.Nodup := by
    rw [List.map_map]
    exact h2
  exact h3.of_map

theorem children_mem (k : String) (l : List (Path × Yaml))
    (pv : Path × Yaml) (ps : Path) (hmem : pv ∈ l) (hp : pv.1 = k :: ps) :
    ((ps : Path), pv.2) ∈ l.filterMap (fun pv => match pv.1 with
        | k' :: ps => if k' = k then some ((ps : Path), pv.2) else none
        | [] => none) := by
  refine List.mem_filterMap.mpr ⟨pv, hmem, ?_⟩
  rw [hp]
  simp

theorem first_segments_subset (assigns : List (Path × Yaml)) :
    ∀ k ∈ first_segments assigns, ∃ pv ∈ assigns, pv.1.headI = k := by
  intro k hk
  rcases foldl_dedup_subset _ [] k hk with h | h
  · simp at h
  · obtain ⟨pv, hpv, hhead⟩ := List.mem_map.mp h
    exact ⟨pv, hpv, hhead⟩

theorem flatMap_perm_congr {α β : Type} (l : List α) (f g : α → List β)
    (h : ∀ a ∈ l, (f a).Perm (g a)) : (l.flatMap f).Perm (l.flatMap g) := by
  induction l with
  | nil => exact List.Perm.refl _
  | cons a t ih =>
      rw [List.flatMap_cons, List.flatMap_cons]
      exact (h a (List.mem_cons_self _ _)).append
        (ih (fun x hx => h x (List.mem_cons_of_mem _ hx)))

end SysConf
namespace SysConf

theorem flattenLevels_build : ∀ (d : Nat)
    (roots : List (Path × List (Path × Yaml))),
    (∀ r ∈ roots, r.2 ≠ [] ∧ (∀ pv ∈ r.2, pv.1.length = d) ∧
      (r.2.map Prod.fst).Nodup) →
    ∃ out, flattenLevels d (roots.map (fun r => (r.1, build_nested d r.2)))
        = some out
      ∧ out.Perm (roots.flatMap (fun r =>
          r.2.map (fun pv => (r.1 ++ pv.1, pv.2)))) := by
  intro d
  induction d with
  | zero =>
      intro roots hr
      refine ⟨_, rfl, ?_⟩
      have heach : ∀ r ∈ roots, ∃ pv : Path × Yaml, r.2 = [pv] ∧ pv.1 = [] := by
        intro r hrmem
        obtain ⟨hne, hlen, hnd⟩ := hr r hrmem
        cases h2 : r.2 with
        | nil => exact absurd h2 hne
        | cons pv t =>
            cases t with
            | nil =>
                refine ⟨pv, rfl, ?_⟩
                have := hlen pv (by rw [h2]; exact List.mem_cons_self _ _)
                exact List.eq_nil_of_length_eq_zero this
            | cons pv' t' =>
                exfalso
                have h₁ := hlen pv (by rw [h2]; exact List.mem_cons_self _ _)
                have h₂ := hlen pv' (by
                  rw [h2]; exact List.mem_cons_of_mem _ (List.mem_cons_self _ _))
                have hp : pv.1 = pv'.1 := by
                  rw [List.eq_nil_of_length_eq_zero h₁,
                    List.eq_nil_of_length_eq_zero h₂]
                rw [h2] at hnd
                simp only [List.map_cons, List.nodup_cons, List.mem_cons] at hnd
                exact hnd.1 (Or.inl hp)
      have heq : ∀ rs : List (Path × List (Path × Yaml)),
          (∀ r ∈ rs, ∃ pv : Path × Yaml, r.2 = [pv] ∧ pv.1 = []) →
          rs.map (fun r => (r.1, build_nested 0 r.2))
            = rs.flatMap (fun r => r.2.map (fun pv => (r.1 ++ pv.1, pv.2))) := by
        intro rs
        induction rs with
        | nil => intro _; rfl
        | cons r t iht =>
            intro hall
            rw [List.map_cons, List.flatMap_cons]
            obtain ⟨pv, h2, hp⟩ := hall r (List.mem_cons_self _ _)
            rw [iht (fun x hx => hall x (List.mem_cons_of_mem _ hx))]
            rw [h2, List.map_cons, List.map_nil, hp, List.append_nil,
              List.singleton_append]
            congr 2
      rw [heq roots heach]
  | succ d ih =>
      intro roots hr
      have hne' : ∀ r ∈ roots, ∀ pv ∈ r.2, pv.1 ≠ [] := by
        intro r hrmem pv hpv hnil
        have := (hr r hrmem).2.1 pv hpv
        rw [hnil] at this
        simp at this
      have hcheck : (roots.map (fun r => (r.1, build_nested (d + 1) r.2))).all
          (fun kv => match kv.2 with
            | .map _ => true | .null => true | _ => false) = true := by
        rw [List.all_eq_true]
        intro kv hkv
        obtain ⟨r, _, rfl⟩ := List.mem_map.mp hkv
        rw [build_nested]
      rw [flattenLevels, if_pos hcheck]
      have hacc : (roots.map (fun r => (r.1, build_nested (d + 1) r.2))).flatMap
            (fun kv => match kv.2 with
              | Yaml.map m => m.map (fun km => (kv.1 ++ [km.1], km.2))
              | _ => ([] : List (Path × Yaml)))
          = (roots.flatMap (fun r => (first_segments r.2).map (fun k =>
              (r.1 ++ [k], r.2.filterMap (fun pv => match pv.1 with
                | k' :: ps => if k' = k then some ((ps : Path), pv.2) else none
                | [] => none))))).map (fun r' => (r'.1, build_nested d r'.2)) := by
        rw [List.flatMap_map, List.map_flatMap]
        refine List.flatMap_congr ?_
        intro r _
        rw [build_nested]
        simp only [List.map_map]
        rfl
      rw [hacc]
      obtain ⟨out, hout, hperm⟩ := ih
        (roots.flatMap (fun r => (first_segments r.2).map (fun k =>
          (r.1 ++ [k], r.2.filterMap (fun pv => match pv.1 with
            | k' :: ps => if k' = k then some ((ps : Path), pv.2) else none
            | [] => none)))))
        (by
          intro r' hr'
          obtain ⟨r, hrmem, hk⟩ := List.mem_flatMap.mp hr'
          obtain ⟨k, hkmem, rfl⟩ := List.mem_map.mp hk
          obtain ⟨hne, hlen, hnd⟩ := hr r hrmem
          refine ⟨?_, ?_, ?_⟩
          · show r.2.filterMap (fun pv => match pv.1 with
                | k' :: ps => if k' = k then some ((ps : Path), pv.2) else none
                | [] => none) ≠ []
            obtain ⟨pv, hpv, hhead⟩ := first_segments_subset r.2 k hkmem
            cases hp : pv.1 with
            | nil => exact absurd hp (hne' r hrmem pv hpv)
            | cons q ps =>
                have hq : q = k := by rw [hp] at hhead; simpa using hhead
                rw [hq] at hp
                intro hnil
                have hmem := children_mem k r.2 pv ps hpv hp
                rw [hnil] at hmem
                exact List.not_mem_nil _ hmem
          · exact children_lengths k d r.2 hlen
          · exact children_nodup k r.2 (hne' r hrmem) hnd)
      refine ⟨out, hout, hperm.trans ?_⟩
      rw [List.flatMap_assoc]
      refine flatMap_perm_congr _ _ _ ?_
      intro r hrmem
      have hinner : ((first_segments r.2).flatMap (fun k =>
            (r.2.filterMap (fun pv => match pv.1 with
              | k' :: ps => if k' = k then some ((ps : Path), pv.2) else none
              | [] => none)).map (fun pv => ((k :: pv.1 : Path), pv.2)))).Perm
          r.2 := by
        have hcov : ∀ pv ∈ r.2, pv.1.headI ∈ first_segments r.2 :=
          fun pv hpv => first_segments_mem r.2 pv hpv
        have hpart := keys_filter_partition (first_segments r.2)
          (fun pv : Path × Yaml => pv.1.headI) r.2
          (first_segments_nodup r.2) hcov
        refine List.Perm.trans ?_ hpart
        rw [show (first_segments r.2).flatMap (fun k =>
            (r.2.filterMap (fun pv => match pv.1 with
              | k' :: ps => if k' = k then some ((ps : Path), pv.2) else none
              | [] => none)).map (fun pv => ((k :: pv.1 : Path), pv.2)))
          = (first_segments r.2).flatMap (fun k =>
              r.2.filter (fun pv => decide (pv.1.headI = k))) from
          List.flatMap_congr (fun k _ => children_map_cons k r.2 (hne' r hrmem))]
      have hfact : (first_segments r.2).flatMap (fun k =>
            ((r.2.filterMap (fun pv => match pv.1 with
              | k' :: ps => if k' = k then some ((ps : Path), pv.2) else none
              | [] => none)).map (fun pv => ((k :: pv.1 : Path), pv.2))).map
                (fun pv => (r.1 ++ pv.1, pv.2)))
          = (first_segments r.2).flatMap (fun k =>
            (r.2.filterMap (fun pv => match pv.1 with
              | k' :: ps => if k' = k then some ((ps : Path), pv.2) else none
              | [] => none)).map (fun pv => ((r.1 ++ [k]) ++ pv.1, pv.2))) := by
        refine List.flatMap_congr ?_
        intro k _
        rw [List.map_map]
        refine List.map_congr_left ?_
        intro pv _
        simp [List.append_assoc]
      have hmapped := hinner.map (fun pv : Path × Yaml => (r.1 ++ pv.1, pv.2))
      rw [List.map_flatMap, hfact] at hmapped
      have hgoal_eq : ((first_segments r.2).map (fun k =>
            ((r.1 ++ [k] : Path), r.2.filterMap (fun pv => match pv.1 with
              | k' :: ps => if k' = k then some ((ps : Path), pv.2) else none
              | [] => none)))).flatMap (fun r' =>
                r'.2.map (fun pv => (r'.1 ++ pv.1, pv.2)))
          = (first_segments r.2).flatMap (fun k =>
            (r.2.filterMap (fun pv => match pv.1 with
              | k' :: ps => if k' = k then some ((ps : Path), pv.2) else none
              | [] => none)).map (fun pv => ((r.1 ++ [k]) ++ pv.1, pv.2))) := by
        rw [List.flatMap_map]
      rw [hgoal_eq]
      exact hmapped

end SysConf
namespace SysConf

theorem get_flattened_dict_build (pd : Int) (assigns : List (Path × Yaml))
    (hne : assigns ≠ []) (hlen : ∀ pv ∈ assigns, pv.1.length = pd.toNat)
    (hnd : (assigns.map Prod.fst).Nodup) :
    ∃ out, get_flattened_dict (build_nested pd.toNat assigns) pd = some out
      ∧ out.Perm assigns := by
  obtain ⟨out, hout, hperm⟩ := flattenLevels_build pd.toNat [(([] : Path), assigns)]
    (by
      intro r hr
      rw [List.mem_singleton] at hr
      subst hr
      exact ⟨hne, hlen, hnd⟩)
  refine ⟨out, ?_, ?_⟩
  · rw [get_flattened_dict]
    exact hout
  · refine hperm.trans ?_
    have : ([(([] : Path), assigns)].flatMap (fun r =>
        r.2.map (fun pv => (r.1 ++ pv.1, pv.2)))) = assigns := by
      rw [List.flatMap_cons, List.flatMap_nil, List.append_nil]
      refine (List.map_congr_left ?_).trans (List.map_id _)
      intro pv _
      rw [List.nil_append, id_eq]
    rw [this]

end SysConf
namespace SysConf

theorem map_group_roundtrip (info : DomainInfo) (entries : List Entry)
    (hkind : info.kind = DomainKind.map)
    (hne : entries ≠ [])
    (hshape : ∀ e ∈ entries, ∃ p v, e = Entry.mapE info p v)
    (hlen : ∀ e ∈ entries, e.path.length = info.path_depth.toNat)
    (hdepth : 0 < info.path_depth)
    (hval : info.string_valued = true → ∀ e ∈ entries, ∃ sv, e.valueY = Yaml.s sv)
    (hnd : (entries.map Entry.get_id).Nodup) :
    ∃ out, domain_entries info (render_config_entries info entries) = some out
      ∧ out.Perm entries := by
  have hpaths_nd : ((entries.map (fun e => (e.path, e.valueY))).map Prod.fst).Nodup := by
    rw [List.map_map]
    have hid : entries.map Entry.get_id
        = (entries.map (Prod.fst ∘ fun e => (e.path, e.valueY))).map
            (fun p => info.key :: p) := by
      rw [List.map_map]
      refine List.map_congr_left ?_
      intro e he
      obtain ⟨p, v, rfl⟩ := hshape e he
      rfl
    rw [hid] at hnd
    exact hnd.of_map
  obtain ⟨flat, hflat, hperm⟩ := get_flattened_dict_build info.path_depth
    (entries.map (fun e => (e.path, e.valueY)))
    (by
      intro h
      exact hne (List.map_eq_nil_iff.mp h))
    (by
      intro pv hpv
      obtain ⟨e, he, rfl⟩ := List.mem_map.mp hpv
      exact hlen e he)
    hpaths_nd
  have hbuild : ∃ m, build_nested info.path_depth.toNat
      (entries.map (fun e => (e.path, e.valueY))) = Yaml.map m := by
    cases hd : info.path_depth.toNat with
    | zero =>
        exfalso
        omega
    | succ k => exact ⟨_, rfl⟩
  obtain ⟨m, hm⟩ := hbuild
  have hrender : render_config_entries info entries
      = build_nested info.path_depth.toNat
          (entries.map (fun e => (e.path, e.valueY))) := by
    rw [render_config_entries, hkind]
  refine ⟨flat.map (fun kv => Entry.mapE info kv.1
      (if info.string_valued then Yaml.s (pyStr kv.2) else kv.2)), ?_, ?_⟩
  · have hde : domain_entries info (render_config_entries info entries)
        = map_domain_entries info (render_config_entries info entries) := by
      rw [domain_entries, hkind]
    rw [hde, hrender, hm]
    simp only [map_domain_entries]
    rw [← hm, hflat]
    rfl
  · refine (hperm.map _).trans ?_
    rw [List.map_map]
    have hback : entries.map ((fun kv : Path × Yaml => Entry.mapE info kv.1
          (if info.string_valued then Yaml.s (pyStr kv.2) else kv.2))
        ∘ (fun e => (e.path, e.valueY))) = entries := by
      refine (List.map_congr_left ?_).trans (List.map_id _)
      intro e he
      obtain ⟨p, v, rfl⟩ := hshape e he
      simp only [Function.comp_apply, Entry.path, Entry.valueY, id_eq]
      by_cases hsv : info.string_valued = true
      · obtain ⟨sv, hv⟩ := hval hsv (Entry.mapE info p v) he
        simp only [Entry.valueY] at hv
        rw [hsv, if_pos rfl, hv]
        rfl
      · have hf : info.string_valued = false := by
          cases h : info.string_valued
          · rfl
          · exact absurd h hsv
        rw [hf, if_neg (by decide)]
    rw [hback]

end SysConf
namespace SysConf

theorem entry_path_dedup_nodup : ∀ (l : List Entry) (acc : List Path),
    acc.Nodup →
    (l.foldl (fun acc e => if e.path ∈ acc then acc else acc ++ [e.path]) acc).Nodup := by
  intro l
  induction l with
  | nil => intro acc h; exact h
  | cons e t ih =>
      intro acc h
      rw [List.foldl_cons]
      by_cases hk : e.path ∈ acc
      · rw [if_pos hk]; exact ih acc h
      · rw [if_neg hk]
        exact ih _ (by simp [List.nodup_append, h, hk])

theorem entry_path_dedup_mem : ∀ (l : List Entry) (acc : List Path) (p : Path),
    p ∈ acc ∨ (∃ e ∈ l, e.path = p) →
    p ∈ l.foldl (fun acc e => if e.path ∈ acc then acc else acc ++ [e.path]) acc := by
  intro l
  induction l with
  | nil =>
      intro acc p hp
      rcases hp with h | ⟨e, he, _⟩
      · exact h
      · simp at he
  | cons e₀ t ih =>
      intro acc p hp
      rw [List.foldl_cons]
      by_cases hk : e₀.path ∈ acc
      · rw [if_pos hk]
        refine ih acc p ?_
        rcases hp with h | ⟨e, he, hep⟩
        · exact Or.inl h
        · rcases List.mem_cons.mp he with rfl | he
          · exact Or.inl (hep ▸ hk)
          · exact Or.inr ⟨e, he, hep⟩
      · rw [if_neg hk]
        refine ih _ p ?_
        rcases hp with h | ⟨e, he, hep⟩
        · exact Or.inl (List.mem_append.mpr (Or.inl h))
        · rcases List.mem_cons.mp he with rfl | he
          · exact Or.inl (List.mem_append.mpr (Or.inr
              (List.mem_singleton.mpr hep.symm)))
          · exact Or.inr ⟨e, he, hep⟩

theorem entry_path_dedup_subset : ∀ (l : List Entry) (acc : List Path) (p : Path),
    p ∈ l.foldl (fun acc e => if e.path ∈ acc then acc else acc ++ [e.path]) acc →
    p ∈ acc ∨ ∃ e ∈ l, e.path = p := by
  intro l
  induction l with
  | nil => intro acc p hp; exact Or.inl hp
  | cons e₀ t ih =>
      intro acc p hp
      rw [List.foldl_cons] at hp
      by_cases hk : e₀.path ∈ acc
      · rw [if_pos hk] at hp
        rcases ih acc p hp with h | ⟨e, he, hep⟩
        · exact Or.inl h
        · exact Or.inr ⟨e, List.mem_cons_of_mem _ he, hep⟩
      · rw [if_neg hk] at hp
        rcases ih _ p hp with h | ⟨e, he, hep⟩
        · rcases List.mem_append.mp h with h | h
          · exact Or.inl h
          · exact Or.inr ⟨e₀, List.mem_cons_self _ _,
              (List.mem_singleton.mp h).symm⟩
        · exact Or.inr ⟨e, List.mem_cons_of_mem _ he, hep⟩

theorem list_values_map_back (info : DomainInfo) (p : Path) :
    ∀ entries : List Entry, (∀ e ∈ entries, ∃ p' v, e = Entry.listE info p' v) →
      ((entries.filterMap (fun e =>
          if e.path = p then some e.valueY else none)).map
        (fun y => Entry.listE info p (pyStr y)))
      = entries.filter (fun e => decide (e.path = p)) := by
  intro entries
  induction entries with
  | nil => intro _; rfl
  | cons e t ih =>
      intro hshape
      obtain ⟨p', v, rfl⟩ := hshape e (List.mem_cons_self _ _)
      rw [List.filterMap_cons, List.filter_cons]
      have hpath : (Entry.listE info p' v).path = p' := rfl
      by_cases hp : p' = p
      · rw [hpath, if_pos hp, if_pos (by simp [hpath, hp]), List.map_cons,
          ih (fun x hx => hshape x (List.mem_cons_of_mem _ hx))]
        subst hp
        rfl
      · rw [hpath, if_neg hp, if_neg (by simp [hpath, hp])]
        exact ih (fun x hx => hshape x (List.mem_cons_of_mem _ hx))

theorem list_group_roundtrip (info : DomainInfo) (entries : List Entry)
    (hkind : info.kind = DomainKind.list)
    (hne : entries ≠ [])
    (hshape : ∀ e ∈ entries, ∃ p v, e = Entry.listE info p v)
    (hlen : ∀ e ∈ entries, e.path.length = info.path_depth.toNat) :
    ∃ out, domain_entries info (render_config_entries info entries) = some out
      ∧ out.Perm entries := by
  have hpnd : (entries.foldl
      (fun acc e => if e.path ∈ acc then acc else acc ++ [e.path]) []).Nodup :=
    entry_path_dedup_nodup entries [] List.nodup_nil
  have hcov : ∀ e ∈ entries, e.path ∈ entries.foldl
      (fun acc e => if e.path ∈ acc then acc else acc ++ [e.path]) [] := by
    intro e he
    exact entry_path_dedup_mem entries [] _ (Or.inr ⟨e, he, rfl⟩)
  have hsub : ∀ p ∈ entries.foldl
      (fun acc e => if e.path ∈ acc then acc else acc ++ [e.path]) [],
      ∃ e ∈ entries, e.path = p := by
    intro p hp
    rcases entry_path_dedup_subset entries [] p hp with h | h
    · simp at h
    · exact h
  have hgv : group_values_by_path entries
      = (entries.foldl (fun acc e => if e.path ∈ acc then acc
          else acc ++ [e.path]) []).map (fun p =>
        (p, Yaml.list (entries.filterMap (fun e =>
          if e.path = p then some e.valueY else none)))) := rfl
  obtain ⟨flat, hflat, hperm⟩ := get_flattened_dict_build info.path_depth
    (group_values_by_path entries)
    (by
      rw [hgv]
      intro hnil
      cases hent : entries with
      | nil => exact hne hent
      | cons e t =>
          have := hcov e (by rw [hent]; exact List.mem_cons_self _ _)
          rw [List.map_eq_nil_iff.mp hnil] at this
          exact List.not_mem_nil _ this)
    (by
      rw [hgv]
      intro pv hpv
      obtain ⟨p, hp, rfl⟩ := List.mem_map.mp hpv
      obtain ⟨e, he, hep⟩ := hsub p hp
      rw [← hep]
      exact hlen e he)
    (by
      rw [hgv, List.map_map]
      have : (Prod.fst ∘ fun p : Path =>
          ((p : Path), Yaml.list (entries.filterMap (fun e =>
            if e.path = p then some e.valueY else none)))) = id := rfl
      rw [this, List.map_id]
      exact hpnd)
  have hgvp_ne : group_values_by_path entries ≠ [] := by
    rw [hgv]
    intro hnil
    cases hent : entries with
    | nil => exact hne hent
    | cons e t =>
        have := hcov e (by rw [hent]; exact List.mem_cons_self _ _)
        rw [List.map_eq_nil_iff.mp hnil] at this
        exact List.not_mem_nil _ this
  have hshape_data : (∃ l, build_nested info.path_depth.toNat
        (group_values_by_path entries) = Yaml.list l)
      ∨ (∃ m, build_nested info.path_depth.toNat
        (group_values_by_path entries) = Yaml.map m) := by
    cases hd : info.path_depth.toNat with
    | zero =>
        left
        cases hlast : (group_values_by_path entries).getLast? with
        | none => exact absurd (List.getLast?_eq_none_iff.mp hlast) hgvp_ne
        | some pv =>
            have hmem : pv ∈ group_values_by_path entries :=
              List.mem_of_mem_getLast? hlast
            rw [hgv] at hmem
            obtain ⟨p, _, rfl⟩ := List.mem_map.mp hmem
            refine ⟨entries.filterMap (fun e =>
              if e.path = p then some e.valueY else none), ?_⟩
            rw [build_nested, hlast]
            rfl
    | succ k => exact Or.inr ⟨_, rfl⟩
  have hde : domain_entries info (render_config_entries info entries)
      = list_domain_entries info (render_config_entries info entries) := by
    rw [domain_entries, hkind]
  have hrender : render_config_entries info entries
      = build_nested info.path_depth.toNat (group_values_by_path entries) := by
    rw [render_config_entries, hkind]
  have heval : list_domain_entries info (build_nested info.path_depth.toNat
        (group_values_by_path entries))
      = some (flat.flatMap (fun kv => match kv.2 with
          | Yaml.list items => items.map (fun item =>
              Entry.listE info kv.1 (pyStr item))
          | _ => [])) := by
    rcases hshape_data with ⟨l, hl⟩ | ⟨m, hm⟩
    · rw [hl]
      simp only [list_domain_entries]
      rw [← hl, hflat]
      rfl
    · rw [hm]
      simp only [list_domain_entries]
      rw [← hm, hflat]
      rfl
  refine ⟨flat.flatMap (fun kv => match kv.2 with
      | Yaml.list items => items.map (fun item =>
          Entry.listE info kv.1 (pyStr item))
      | _ => []), ?_, ?_⟩
  · rw [hde, hrender, heval]
  · have hstep1 : (flat.flatMap (fun kv => match kv.2 with
        | Yaml.list items => items.map (fun item =>
            Entry.listE info kv.1 (pyStr item))
        | _ => ([] : List Entry))).Perm
        ((group_values_by_path entries).flatMap (fun kv => match kv.2 with
        | Yaml.list items => items.map (fun item =>
            Entry.listE info kv.1 (pyStr item))
        | _ => ([] : List Entry))) :=
      List.Perm.flatMap_right _ hperm
    refine hstep1.trans ?_
    have hstep2 : (group_values_by_path entries).flatMap (fun kv => match kv.2 with
        | Yaml.list items => items.map (fun item =>
            Entry.listE info kv.1 (pyStr item))
        | _ => ([] : List Entry))
        = (entries.foldl (fun acc e => if e.path ∈ acc then acc
            else acc ++ [e.path]) []).flatMap (fun p =>
          entries.filter (fun e => decide (e.path = p))) := by
      rw [hgv, List.flatMap_map]
      refine List.flatMap_congr ?_
      intro p _
      exact list_values_map_back info p entries hshape
    rw [hstep2]
    exact keys_filter_partition _ Entry.path entries hpnd
      (fun e he => hcov e he)

end SysConf
namespace SysConf

theorem group_by_domain_fuel_join : ∀ (n : Nat) (l : List Entry),
    l.length ≤ n → (group_by_domain_fuel n l).flatMap Prod.snd = l := by
  intro n
  induction n with
  | zero =>
      intro l hl
      rw [List.length_eq_zero.mp (Nat.le_zero.mp hl)]
      rfl
  | succ n ih =>
      intro l hl
      cases l with
      | nil => rfl
      | cons e rest =>
          rw [group_by_domain_fuel, List.flatMap_cons]
          have hdrop : (rest.dropWhile
              (fun x => x.domain == e.domain)).length ≤ n := by
            have h1 := (List.dropWhile_sublist
              (l := rest) (fun x => x.domain == e.domain)).length_le
            simp only [List.length_cons] at hl
            omega
          rw [ih _ hdrop]
          show e :: (rest.takeWhile (fun x => x.domain == e.domain)
            ++ rest.dropWhile (fun x => x.domain == e.domain)) = e :: rest
          rw [List.takeWhile_append_dropWhile]

theorem group_by_domain_join (l : List Entry) :
    (group_by_domain l).flatMap Prod.snd = l :=
  group_by_domain_fuel_join l.length l (Nat.le_refl _)

theorem group_by_domain_fuel_entries : ∀ (n : Nat) (l : List Entry),
    l.length ≤ n → ∀ grp ∈ group_by_domain_fuel n l,
      grp.2 ≠ [] ∧ (∀ e ∈ grp.2, e.domain = grp.1 ∧ e ∈ l) := by
  intro n
  induction n with
  | zero =>
      intro l hl
      rw [List.length_eq_zero.mp (Nat.le_zero.mp hl)]
      intro grp hgrp
      simp [group_by_domain_fuel] at hgrp
  | succ n ih =>
      intro l hl
      cases l with
      | nil => intro grp hgrp; simp [group_by_domain_fuel] at hgrp
      | cons e rest =>
          rw [group_by_domain_fuel]
          intro grp hgrp
          rcases List.mem_cons.mp hgrp with rfl | hgrp'
          · refine ⟨by simp, ?_⟩
            intro x hx
            rcases List.mem_cons.mp hx with rfl | hx'
            · exact ⟨rfl, List.mem_cons_self _ _⟩
            · refine ⟨?_, List.mem_cons_of_mem _
                ((List.takeWhile_sublist _).mem hx')⟩
              have := List.mem_takeWhile_imp hx'
              simpa using this
          · have hdrop : (rest.dropWhile
                (fun x => x.domain == e.domain)).length ≤ n := by
              have h1 := (List.dropWhile_sublist
                (l := rest) (fun x => x.domain == e.domain)).length_le
              simp only [List.length_cons] at hl
              omega
            obtain ⟨hne, hmem⟩ := ih _ hdrop grp hgrp'
            refine ⟨hne, ?_⟩
            intro x hx
            obtain ⟨hdom, hxl⟩ := hmem x hx
            exact ⟨hdom, List.mem_cons_of_mem _
              ((List.dropWhile_sublist _).mem hxl)⟩

theorem group_by_domain_entries (l : List Entry) :
    ∀ grp ∈ group_by_domain l,
      grp.2 ≠ [] ∧ (∀ e ∈ grp.2, e.domain = grp.1 ∧ e ∈ l) :=
  group_by_domain_fuel_entries l.length l (Nat.le_refl _)

theorem group_snd_sublist (l : List Entry) (grp : DomainInfo × List Entry)
    (hgrp : grp ∈ group_by_domain l) : grp.2.Sublist l := by
  have h1 : grp.2 ∈ (group_by_domain l).map Prod.snd :=
    List.mem_map_of_mem _ hgrp
  have h2 : grp.2.Sublist ((group_by_domain l).map Prod.snd).flatten :=
    List.sublist_join_of_mem h1
  rw [← List.flatMap_def, group_by_domain_join] at h2
  exact h2

end SysConf
namespace SysConf

theorem getOrDefault_list (flds : List (String × Yaml)) (key : String)
    (xs : List Yaml) (hfind : lookupY flds key = some (Yaml.list xs)) :
    getOrDefault flds key (Yaml.list []) = Yaml.list xs := by
  rw [getOrDefault, hfind]
  cases xs with
  | nil => rfl
  | cons x t => rfl

theorem getOrDefault_map (flds : List (String × Yaml)) (key : String)
    (xs : List (String × Yaml)) (hfind : lookupY flds key = some (Yaml.map xs)) :
    getOrDefault flds key (Yaml.map []) = Yaml.map xs := by
  rw [getOrDefault, hfind]
  cases xs with
  | nil => rfl
  | cons x t => rfl

theorem render_user_domain_spec (d : UserDomain)
    (hud : d.kind = DomainKind.map ↔ d.update_script.isSome) :
    parse_user_domain d.key (Yaml.map (match d.kind with
      | DomainKind.list =>
          [("type", Yaml.s "list"), ("depth", Yaml.i d.path_depth),
           ("add", Yaml.s d.add_script), ("remove", Yaml.s d.remove_script)]
      | DomainKind.map =>
          [("type", Yaml.s "map"), ("depth", Yaml.i d.path_depth),
           ("add", Yaml.s d.add_script),
           ("update", Yaml.s (d.update_script.getD "")),
           ("remove", Yaml.s d.remove_script)])) = some d := by
  obtain ⟨key, kind, pd, adds, upd, rem⟩ := d
  cases kind with
  | list =>
      have hupd : upd = none := by
        cases h : upd with
        | none => rfl
        | some u =>
            exfalso
            have := hud.mpr (by rw [h]; rfl)
            simp at this
      subst hupd
      rfl
  | map =>
      obtain ⟨u, hu⟩ := Option.isSome_iff_exists.mp (hud.mp rfl)
      subst hu
      rfl

theorem mapM_render_user_domains (uds : List UserDomain)
    (hud : ∀ d ∈ uds, (d.kind = DomainKind.map ↔ d.update_script.isSome)) :
    (uds.map (fun d => (d.key, Yaml.map (match d.kind with
      | DomainKind.list =>
          [("type", Yaml.s "list"), ("depth", Yaml.i d.path_depth),
           ("add", Yaml.s d.add_script), ("remove", Yaml.s d.remove_script)]
      | DomainKind.map =>
          [("type", Yaml.s "map"), ("depth", Yaml.i d.path_depth),
           ("add", Yaml.s d.add_script),
           ("update", Yaml.s (d.update_script.getD "")),
           ("remove", Yaml.s d.remove_script)])))).mapM
      (fun kv => parse_user_domain kv.1 kv.2) = some uds := by
  induction uds with
  | nil => rfl
  | cons d t ih =>
      rw [List.map_cons, List.mapM_cons]
      rw [render_user_domain_spec d (hud d (List.mem_cons_self _ _)),
        ih (fun x hx => hud x (List.mem_cons_of_mem _ hx))]
      rfl

theorem mapM_strings (l : List String) :
    (l.map Yaml.s).mapM (fun v =>
      match v with | .s script => some script | _ => none) = some l := by
  induction l with
  | nil => rfl
  | cons s t ih =>
      rw [List.map_cons, List.mapM_cons, ih]
      rfl

end SysConf
namespace SysConf

theorem mapM_render_tasks (uds : List UserDomain) :
    ∀ groups : List (DomainInfo × List Entry),
    (∀ grp ∈ groups, resolve_domain uds grp.1.key = some grp.1) →
    (∀ grp ∈ groups, ∃ out, domain_entries grp.1
        (render_config_entries grp.1 grp.2) = some out ∧ out.Perm grp.2) →
    ∃ egs, (groups.map (fun grp => Yaml.map
        [(grp.1.key, render_config_entries grp.1 grp.2)])).mapM
        (fun config_item => match config_item with
          | Yaml.map tasks => (tasks.mapM (fun kv : String × Yaml =>
              match resolve_domain uds kv.1 with
              | some info => domain_entries info kv.2
              | _ => none) : Option (List (List Entry))).bind
                (fun gs => some gs.flatten)
          | _ => none) = some egs
      ∧ egs.flatten.Perm ((groups.map Prod.snd).flatten) := by
  intro groups
  induction groups with
  | nil => intro _ _; exact ⟨[], rfl, List.Perm.refl _⟩
  | cons grp t ih =>
      intro hres hinv
      obtain ⟨out, hout, hperm⟩ := hinv grp (List.mem_cons_self _ _)
      obtain ⟨egs, hegs, hflat⟩ := ih
        (fun x hx => hres x (List.mem_cons_of_mem _ hx))
        (fun x hx => hinv x (List.mem_cons_of_mem _ hx))
      refine ⟨out :: egs, ?_, ?_⟩
      · rw [List.map_cons, List.mapM_cons]
        dsimp only
        rw [List.mapM_cons]
        dsimp only
        rw [hres grp (List.mem_cons_self _ _)]
        dsimp only
        rw [hout, hegs]
        simp only [List.mapM_nil, Option.pure_def, Option.bind_eq_bind,
          Option.some_bind, List.flatten_cons, List.flatten_nil,
          List.append_nil]
      · rw [List.map_cons, List.flatten_cons, List.flatten_cons]
        exact hperm.append hflat

end SysConf
namespace SysConf

theorem filter_version_row (v b a cf d : Yaml) :
    ([(("version" : String), v), ("before", b), ("after", a), ("config", cf),
      ("domains", d)].filter (fun kv => kv.1 ≠ "version"))
    = [(("before" : String), b), ("after", a), ("config", cf),
      ("domains", d)] := by
  simp

theorem lookup_row4 (b a cf d : Yaml) :
    lookupY [(("before" : String), b), ("after", a), ("config", cf),
        ("domains", d)] "before" = some b ∧
    lookupY [(("before" : String), b), ("after", a), ("config", cf),
        ("domains", d)] "after" = some a ∧
    lookupY [(("before" : String), b), ("after", a), ("config", cf),
        ("domains", d)] "config" = some cf ∧
    lookupY [(("before" : String), b), ("after", a), ("config", cf),
        ("domains", d)] "domains" = some d :=
  ⟨rfl, rfl, rfl, rfl⟩

theorem parse_render_roundtrip (c : SystemConfig) (hrt : c.RoundTrippable) :
    ∃ cfg, parse_data (render_config c) = some cfg ∧
      cfg.before_actions = c.before_actions ∧
      cfg.after_actions = c.after_actions ∧
      cfg.config_entries.Perm c.config_entries ∧
      cfg.user_domains = c.user_domains ∧
      cfg.pyEq c := by
  obtain ⟨hids, hkeys, hudspec, hent⟩ := hrt
  have hgrp := group_by_domain_entries c.config_entries
  have hinv : ∀ grp ∈ group_by_domain c.config_entries,
      ∃ out, domain_entries grp.1 (render_config_entries grp.1 grp.2) = some out
        ∧ out.Perm grp.2 := by
    intro grp hgrpmem
    obtain ⟨hne, hprops⟩ := hgrp grp hgrpmem
    cases hk : grp.1.kind with
    | list =>
        refine list_group_roundtrip grp.1 grp.2 hk hne ?_ ?_
        · intro e he
          obtain ⟨hdom, hmem⟩ := hprops e he
          cases e with
          | listE d p v =>
              refine ⟨p, v, ?_⟩
              have hd : d = grp.1 := hdom
              rw [hd]
          | mapE d p v =>
              exfalso
              have h3 := (hent _ hmem).2.2
              have hd : d = grp.1 := hdom
              rw [hd] at h3
              rw [h3.1] at hk
              exact absurd hk (by simp)
        · intro e he
          obtain ⟨hdom, hmem⟩ := hprops e he
          have hl := (hent e hmem).2.1
          rw [show e.domain = grp.1 from hdom] at hl
          exact hl
    | map =>
        have hshape : ∀ e ∈ grp.2, ∃ p v, e = Entry.mapE grp.1 p v := by
          intro e he
          obtain ⟨hdom, hmem⟩ := hprops e he
          cases e with
          | mapE d p v =>
              refine ⟨p, v, ?_⟩
              have hd : d = grp.1 := hdom
              rw [hd]
          | listE d p v =>
              exfalso
              have h3 := (hent _ hmem).2.2
              have hd : d = grp.1 := hdom
              rw [hd] at h3
              rw [h3] at hk
              exact absurd hk (by simp)
        refine map_group_roundtrip grp.1 grp.2 hk hne hshape ?_ ?_ ?_ ?_
        · intro e he
          obtain ⟨hdom, hmem⟩ := hprops e he
          have hl := (hent e hmem).2.1
          rw [show e.domain = grp.1 from hdom] at hl
          exact hl
        · cases hg2 : grp.2 with
          | nil => exact absurd hg2 hne
          | cons e₀ t =>
              have hmem₀ : e₀ ∈ grp.2 := by
                rw [hg2]; exact List.mem_cons_self _ _
              obtain ⟨p, v, he₀⟩ := hshape e₀ hmem₀
              have h3 := (hent e₀ ((hprops e₀ hmem₀).2))
              rw [he₀] at h3
              exact h3.2.2.2.1
        · intro hsv e he
          obtain ⟨p, v, he'⟩ := hshape e he
          obtain ⟨hdom, hmem⟩ := hprops e he
          have h3 := hent e hmem
          rw [he'] at h3
          obtain ⟨sv, hv⟩ := h3.2.2.2.2 hsv
          refine ⟨sv, ?_⟩
          rw [he', hv]
          rfl
        · exact (((group_snd_sublist c.config_entries grp hgrpmem).map
            Entry.get_id)).nodup hids
  have hres : ∀ grp ∈ group_by_domain c.config_entries,
      resolve_domain c.user_domains grp.1.key = some grp.1 := by
    intro grp hgrpmem
    obtain ⟨hne, hprops⟩ := hgrp grp hgrpmem
    cases hg2 : grp.2 with
    | nil => exact absurd hg2 hne
    | cons e₀ t =>
        have hmem₀ : e₀ ∈ grp.2 := by
          rw [hg2]; exact List.mem_cons_self _ _
        obtain ⟨hdom, hmem⟩ := hprops e₀ hmem₀
        have hres₀ := (hent e₀ hmem).1
        rw [hdom] at hres₀
        exact hres₀
  obtain ⟨egs, hegs, hflat⟩ := mapM_render_tasks c.user_domains
    (group_by_domain c.config_entries) hres hinv
  have hjoin : ((group_by_domain c.config_entries).map Prod.snd).flatten
      = c.config_entries := by
    rw [← List.flatMap_def, group_by_domain_join]
  rw [hjoin] at hflat
  have hnd' : ((egs.flatten).map Entry.get_id).Nodup :=
    ((hflat.map Entry.get_id).symm).nodup hids
  refine ⟨⟨c.before_actions, c.after_actions, egs.flatten, c.user_domains⟩,
    ?_, rfl, rfl, hflat, rfl, ⟨rfl, rfl, hflat, List.Perm.refl _⟩⟩
  have hdoc : render_config c = Yaml.map [("version", Yaml.s "1"),
      ("before", Yaml.list (c.before_actions.map Yaml.s)),
      ("after", Yaml.list (c.after_actions.map Yaml.s)),
      ("config", Yaml.list ((group_by_domain c.config_entries).map (fun grp =>
        Yaml.map [(grp.1.key, render_config_entries grp.1 grp.2)]))),
      ("domains", Yaml.map (c.user_domains.map (fun d => (d.key, Yaml.map
        (match d.kind with
          | DomainKind.list =>
              [("type", Yaml.s "list"), ("depth", Yaml.i d.path_depth),
               ("add", Yaml.s d.add_script), ("remove", Yaml.s d.remove_script)]
          | DomainKind.map =>
              [("type", Yaml.s "map"), ("depth", Yaml.i d.path_depth),
               ("add", Yaml.s d.add_script),
               ("update", Yaml.s (d.update_script.getD "")),
               ("remove", Yaml.s d.remove_script)])))))] := by
    rw [render_config]
  rw [hdoc, parse_data]
  rw [filter_version_row]
  have hLcfg : lookupY [(("before" : String),
        Yaml.list (c.before_actions.map Yaml.s)),
      ("after", Yaml.list (c.after_actions.map Yaml.s)),
      ("config", Yaml.list ((group_by_domain c.config_entries).map (fun grp =>
        Yaml.map [(grp.1.key, render_config_entries grp.1 grp.2)]))),
      ("domains", Yaml.map (c.user_domains.map (fun d => (d.key, Yaml.map
        (match d.kind with
          | DomainKind.list =>
              [("type", Yaml.s "list"), ("depth", Yaml.i d.path_depth),
               ("add", Yaml.s d.add_script), ("remove", Yaml.s d.remove_script)]
          | DomainKind.map =>
              [("type", Yaml.s "map"), ("depth", Yaml.i d.path_depth),
               ("add", Yaml.s d.add_script),
               ("update", Yaml.s (d.update_script.getD "")),
               ("remove", Yaml.s d.remove_script)])))))] "config"
      = some (Yaml.list ((group_by_domain c.config_entries).map (fun grp =>
        Yaml.map [(grp.1.key, render_config_entries grp.1 grp.2)]))) := rfl
  simp only [hLcfg, Option.pure_def, Option.bind_eq_bind, Option.some_bind]
  rw [getOrDefault_map _ _ _ (lookup_row4 _ _ _ _).2.2.2,
    getOrDefault_list _ _ _ (lookup_row4 _ _ _ _).1,
    getOrDefault_list _ _ _ (lookup_row4 _ _ _ _).2.1,
    getOrDefault_list _ _ _ (lookup_row4 _ _ _ _).2.2.1]
  dsimp only
  rw [mapM_render_user_domains c.user_domains hudspec]
  simp only [Option.pure_def, Option.bind_eq_bind, Option.some_bind]
  rw [mapM_strings, mapM_strings]
  simp only [Option.pure_def, Option.bind_eq_bind, Option.some_bind]
  rw [hegs]
  simp only [Option.pure_def, Option.bind_eq_bind, Option.some_bind]
  rw [SystemConfig.create_from_entries, if_pos hnd']

end SysConf
namespace SysConf

/-- Counterexample to the frozen C5.  First, the renderer does *not* omit a
user domain referenced by no entry: rendering a configuration whose only
content is the unused domain `unused` still emits it under `domains`.
Second, `parse(render(c)) = c` fails on valid configurations: the document
below parses to a configuration `cD` holding a depth-0 map domain — its
map payload is stringified into the entry — and rendering `cD` then
parsing the result raises instead of returning `cD`. -/
theorem render_roundtrip_counterexample :
    render_config (⟨[], [], [], [⟨"unused", DomainKind.list, 0, "A", none, "R"⟩]⟩ : SystemConfig)
      = Yaml.map [("version", Yaml.s "1"), ("before", Yaml.list []),
          ("after", Yaml.list []), ("config", Yaml.list []),
          ("domains", Yaml.map [("unused", Yaml.map [("type", Yaml.s "list"),
            ("depth", Yaml.i 0), ("add", Yaml.s "A"),
            ("remove", Yaml.s "R")])])] ∧
    parse_data (Yaml.map [("config", Yaml.list [Yaml.map [("m", Yaml.map [("k", Yaml.s "v")])]]),
      ("domains", Yaml.map [("m", Yaml.map [("type", Yaml.s "map"),
        ("add", Yaml.s "A"), ("update", Yaml.s "U"), ("remove", Yaml.s "R"),
        ("depth", Yaml.i 0)])])])
      = some (⟨[], [], [Entry.mapE ⟨"m", DomainKind.map, 0, true⟩ [] (Yaml.s "\x7bk: v\x7d")],
      [⟨"m", DomainKind.map, 0, "A", some "U", "R"⟩]⟩ : SystemConfig) ∧
    parse_data (render_config (⟨[], [], [Entry.mapE ⟨"m", DomainKind.map, 0, true⟩ [] (Yaml.s "\x7bk: v\x7d")],
      [⟨"m", DomainKind.map, 0, "A", some "U", "R"⟩]⟩ : SystemConfig)) = none :=
  ⟨rfl, rfl, rfl⟩

/-- Closed witness for `parse_render_roundtrip` at a configuration using
the builtin `apt` domain and a user map domain of depth 1. -/
theorem parse_render_roundtrip_witness :
    ((⟨["b"], ["a"], [Entry.listE ⟨"apt", DomainKind.list, 0, true⟩ [] "htop",
      Entry.mapE ⟨"m", DomainKind.map, 1, true⟩ ["k"] (Yaml.s "v")],
      [⟨"m", DomainKind.map, 1, "A", some "U", "R"⟩]⟩ : SystemConfig)).RoundTrippable ∧
    ∃ cfg, parse_data (render_config (⟨["b"], ["a"], [Entry.listE ⟨"apt", DomainKind.list, 0, true⟩ [] "htop",
      Entry.mapE ⟨"m", DomainKind.map, 1, true⟩ ["k"] (Yaml.s "v")],
      [⟨"m", DomainKind.map, 1, "A", some "U", "R"⟩]⟩ : SystemConfig)) = some cfg ∧
      cfg.before_actions = ((⟨["b"], ["a"], [Entry.listE ⟨"apt", DomainKind.list, 0, true⟩ [] "htop",
      Entry.mapE ⟨"m", DomainKind.map, 1, true⟩ ["k"] (Yaml.s "v")],
      [⟨"m", DomainKind.map, 1, "A", some "U", "R"⟩]⟩ : SystemConfig)).before_actions ∧
      cfg.after_actions = ((⟨["b"], ["a"], [Entry.listE ⟨"apt", DomainKind.list, 0, true⟩ [] "htop",
      Entry.mapE ⟨"m", DomainKind.map, 1, true⟩ ["k"] (Yaml.s "v")],
      [⟨"m", DomainKind.map, 1, "A", some "U", "R"⟩]⟩ : SystemConfig)).after_actions ∧
      cfg.config_entries.Perm ((⟨["b"], ["a"], [Entry.listE ⟨"apt", DomainKind.list, 0, true⟩ [] "htop",
      Entry.mapE ⟨"m", DomainKind.map, 1, true⟩ ["k"] (Yaml.s "v")],
      [⟨"m", DomainKind.map, 1, "A", some "U", "R"⟩]⟩ : SystemConfig)).config_entries ∧
      cfg.user_domains = ((⟨["b"], ["a"], [Entry.listE ⟨"apt", DomainKind.list, 0, true⟩ [] "htop",
      Entry.mapE ⟨"m", DomainKind.map, 1, true⟩ ["k"] (Yaml.s "v")],
      [⟨"m", DomainKind.map, 1, "A", some "U", "R"⟩]⟩ : SystemConfig)).user_domains ∧
      cfg.pyEq (⟨["b"], ["a"], [Entry.listE ⟨"apt", DomainKind.list, 0, true⟩ [] "htop",
      Entry.mapE ⟨"m", DomainKind.map, 1, true⟩ ["k"] (Yaml.s "v")],
      [⟨"m", DomainKind.map, 1, "A", some "U", "R"⟩]⟩ : SystemConfig) := by
  have hrt : ((⟨["b"], ["a"], [Entry.listE ⟨"apt", DomainKind.list, 0, true⟩ [] "htop",
      Entry.mapE ⟨"m", DomainKind.map, 1, true⟩ ["k"] (Yaml.s "v")],
      [⟨"m", DomainKind.map, 1, "A", some "U", "R"⟩]⟩ : SystemConfig)).RoundTrippable := by
    refine ⟨by decide, by decide, ?_, ?_⟩
    · intro d hd
      rcases List.mem_singleton.mp hd with rfl
      exact ⟨fun _ => rfl, fun _ => rfl⟩
    · intro e he
      rcases List.mem_cons.mp he with rfl | he₂
      · exact ⟨rfl, rfl, rfl⟩
      · rcases List.mem_singleton.mp he₂ with rfl
        exact ⟨rfl, rfl, rfl, by decide, fun _ => ⟨"v", rfl⟩⟩
  exact ⟨hrt, parse_render_roundtrip (⟨["b"], ["a"], [Entry.listE ⟨"apt", DomainKind.list, 0, true⟩ [] "htop",
      Entry.mapE ⟨"m", DomainKind.map, 1, true⟩ ["k"] (Yaml.s "v")],
      [⟨"m", DomainKind.map, 1, "A", some "U", "R"⟩]⟩ : SystemConfig) hrt⟩

end SysConf
